import Mathlib

/-!
# fast-mRMR data reader: CSV to binary conversion

Shallow embedding of `src/utils/data-reader/main.cpp` and proofs about it.

Conventions of the embedding

* `uint` is the 32-bit unsigned integer of the target platform (the header is
  written with `sizeof(uint) = 4` per field); every `++` on a `uint` is taken
  modulo `UINT_MOD = 2^32`.
* `byte` is `unsigned char`; `lastCategory[featurePos]++` is taken modulo 256.
* `std::map<string, byte>` is an association list with unique keys; a new key
  is appended, so the list is in insertion order.  Only membership and lookup
  are observable in the program.
* The input stream is the list of lines that successive `getline` calls
  yield; a `getline` on an exhausted stream fails and leaves `line` empty.
* `StringTokenizer.h` is not part of the sources; the tokenizer is a
  parameter `StringTokenizer line delim`, the sequence of strings that the
  loop `while (strtk.hasMoreTokens()) strtk.nextToken()` yields.  The general
  theorems hold for every tokenizer; concrete runs use `tokenize`, the
  tokenizer described in the specification.
* `vector::operator[]` with an index past the end is undefined behaviour; the
  embedding stops the run there and records the offending index.
* The loop `for (i = 0; i <= featuresSize; ++i)` does not terminate when
  `featuresSize = 2^32 - 1`; the embedding stops the run there.
* A run is described by what the program text determines: the texts printed,
  the stream constructors that ran, the values passed to `outputFile.write`,
  and how the run ended.

Layout: definitions, lemmas, then one section per claim.
-/

namespace DataReader

/-! ## Machine integers -/

/-- Modulus of `uint` arithmetic (32-bit `unsigned int`). -/
def UINT_MOD : Nat := 4294967296

/-- Modulus of `byte` arithmetic (`typedef unsigned char byte`). -/
def BYTE_MOD : Nat := 256

/-! ## `std::map<string, byte>` -/

/-- The type `map<string, byte>`: association list, keys unique, insertion order. -/
abbrev ByteMap := List (String × Nat)

/-- The call `mymap.find(key)`: the stored value, `none` for `mymap.end()`. -/
def mapFind : ByteMap → String → Option Nat
  | [], _ => none
  | (k, v) :: rest, key => if k = key then some v else mapFind rest key

/-- The function `contains` (lines 44-50). -/
def contains (key : String) (mymap : ByteMap) : Bool :=
  match mapFind mymap key with
  | none => false
  | some _ => true

/-- The statement `mymap[key] = value`: overwrite the entry of `key`, or insert one. -/
def mapAssign : ByteMap → String → Nat → ByteMap
  | [], key, value => [(key, value)]
  | (k, v) :: rest, key, value =>
    if k = key then (k, value) :: rest else (k, v) :: mapAssign rest key value

/-- The expression `mymap[key]` read as a value: the stored byte; an absent key
is inserted with the value-initialised byte `0`. -/
def mapIndex (mymap : ByteMap) (key : String) : Nat × ByteMap :=
  match mapFind mymap key with
  | some v => (v, mymap)
  | none => (0, mapAssign mymap key 0)

/-! ## Command line (lines 53-83) -/

/-- The constructor `InputParser(argc, argv)`: the arguments after the program name. -/
def InputParser (argv : List String) : List String := argv.drop 1

/-- The method `InputParser::getCmdOption` (lines 60-68): the token that follows
the first occurrence of `option`, or the empty string. -/
def getCmdOption (tokens : List String) (option : String) : String :=
  match tokens.dropWhile (fun t => decide (t ≠ option)) with
  | _ :: next :: _ => next
  | _ => ""

/-- The method `InputParser::cmdOptionExists` (lines 70-73). -/
def cmdOptionExists (tokens : List String) (option : String) : Bool :=
  decide (option ∈ tokens)

/-- The three `printf` texts of `print_help` (lines 79-81). -/
def helpText : List String :=
  ["MRMR Reader for converting CSV file to binary format for use with fast-mRMR.\n\n",
   "Usage: -f INPUT -o OUTPUT [--gpu]\n\n",
   "Note: If --gpu flag is set, will discard last (n modulo 16) datapoints, where n is the total number of datapoints.\n"]

/-- The text printed at line 113. -/
def missingFilenamesText : String :=
  "Please provide input and output filenames. See below for usage instructions: \n\n"

/-- The text printed at line 184. -/
def errorLoadingText : String := "Error loading file.\n"

/-- The text printed at line 161, `"Last %d samples ignored.\n"`. -/
def lastIgnoredText (limitMod16 : Nat) : String :=
  "Last " ++ toString limitMod16 ++ " samples ignored.\n"

/-! ## The per-column encoder (lines 170-175) -/

/-- The two per-column tables of `main`. -/
structure Tables where
  translationsVector : List ByteMap
  lastCategory : List Nat
deriving DecidableEq, Repr

/-- Lines 170-175 at one `featurePos` and `token`: the updated tables and the
byte `data`.  `none` when `featurePos` is past the end of a table. -/
def encode (t : Tables) (featurePos : Nat) (token : String) : Option (Tables × Nat) :=
  match t.translationsVector[featurePos]? with
  | none => none
  | some m =>
    if contains token m then
      let r := mapIndex m token
      some ({ t with translationsVector := t.translationsVector.set featurePos r.2 }, r.1)
    else
      match t.lastCategory[featurePos]? with
      | none => none
      | some last =>
        let r := mapIndex (mapAssign m token last) token
        some ({ translationsVector := t.translationsVector.set featurePos r.2,
                lastCategory := t.lastCategory.set featurePos ((last + 1) % BYTE_MOD) }, r.1)

/-- The initialisation loop of lines 148-152, `for (i = 0; i <= featuresSize; ++i)`:
`featuresSize + 1` empty maps and zero counters.  When `featuresSize` is the
largest `uint`, `i <= featuresSize` holds for every `uint i` and the loop never
exits: the result is `none`. -/
def initTables (featuresSize : Nat) : Option Tables :=
  if featuresSize + 1 < UINT_MOD then
    some { translationsVector := List.replicate (featuresSize + 1) [],
           lastCategory := List.replicate (featuresSize + 1) 0 }
  else none

/-! ## The encoding pass (lines 156-179) -/

/-- The variables of `main` that the encoding pass changes. -/
structure Pass where
  tables : Tables
  featurePos : Nat
  lineCount : Nat
  /-- The bytes written by line 176, oldest first. -/
  grid : List Nat
  /-- The texts printed by line 161. -/
  printed : List String
  /-- The index and the table size of an out-of-range `operator[]`, once one happened. -/
  fault : Option (Nat × Nat)
deriving DecidableEq, Repr

/-- One iteration of the token loop, lines 168-176. -/
def encodeToken (s : Pass) (token : String) : Pass :=
  match s.fault with
  | some _ => s
  | none =>
    let featurePos := (s.featurePos + 1) % UINT_MOD
    match encode s.tables featurePos token with
    | some (tables, data) =>
      { s with tables := tables, featurePos := featurePos, grid := s.grid ++ [data] }
    | none =>
      { s with featurePos := featurePos,
               fault := some (featurePos, s.tables.translationsVector.length) }

/-- The body of the line loop after the `break` test, lines 165-178. -/
def encodeLine (StringTokenizer : String → String → List String) (s : Pass) (line : String) :
    Pass :=
  let s1 := (StringTokenizer line ",").foldl encodeToken { s with featurePos := 0 }
  match s1.fault with
  | some _ => s1
  | none => { s1 with lineCount := (s1.lineCount + 1) % UINT_MOD }

/-- The line loop, lines 158-179, over the lines that `getline` still yields. -/
def encodePass (StringTokenizer : String → String → List String) (datasize limitMod16 : Nat) :
    Pass → List String → Pass
  | s, [] => s
  | s, line :: rest =>
    match s.fault with
    | some _ => s
    | none =>
      if s.lineCount = datasize then
        if limitMod16 ≠ 0 then { s with printed := s.printed ++ [lastIgnoredText limitMod16] }
        else s
      else encodePass StringTokenizer datasize limitMod16 (encodeLine StringTokenizer s line) rest

/-! ## `main` (lines 90-189) -/

/-- How a run ends. -/
inductive Termination where
  /-- Return from `main` or `exit(code)`. -/
  | exit (code : Int)
  /-- Undefined behaviour: `operator[]` with `index` on a vector of `size` elements. -/
  | outOfBounds (index size : Nat)
  /-- The loop of line 148 does not terminate. -/
  | initLoopForever
deriving DecidableEq, Repr

/-- What a run of `main` does, as far as the program text determines it. -/
structure Result where
  /-- Texts sent to standard output, oldest first. -/
  printed : List String
  /-- The path given to the `ifstream` constructor (line 117), if it ran. -/
  inputOpened : Option String
  /-- The path given to the `ofstream` constructor (line 118), if it ran. -/
  outputOpened : Option String
  /-- The values `datasize` and `featuresSize` written by lines 140-141. -/
  header : Option (Nat × Nat)
  /-- The bytes written by line 176, oldest first. -/
  grid : List Nat
  /-- The final value of `lineCount`: the number of data lines encoded completely. -/
  lineCount : Nat
  termination : Termination
deriving DecidableEq, Repr

/-- The function `print_help` (lines 78-83) after `before` was printed: usage text, `exit(-1)`.
No stream has been constructed yet at either call site. -/
def print_help (before : List String) : Result :=
  { printed := before ++ helpText, inputOpened := none, outputOpened := none,
    header := none, grid := [], lineCount := 0, termination := .exit (-1) }

/-- The counting loops of lines 125-128 and 129-131: one `uint` increment per element. -/
def countUint {α : Type} (xs : List α) : Nat :=
  xs.foldl (fun n _ => (n + 1) % UINT_MOD) 0

/-- The variable `featuresSize` after lines 123-128. -/
def featuresSizeOf (StringTokenizer : String → String → List String) (lines : List String) :
    Nat :=
  countUint (StringTokenizer (lines.headD "") ",")

/-- The variable `limitMod16` after lines 133-137. -/
def limitMod16Of (for_gpu : Bool) (lines : List String) : Nat :=
  if for_gpu then countUint lines.tail % 16 else 0

/-- The variable `datasize` after lines 129-137. -/
def datasizeOf (for_gpu : Bool) (lines : List String) : Nat :=
  if for_gpu then
    (countUint lines.tail + UINT_MOD - limitMod16Of for_gpu lines) % UINT_MOD
  else countUint lines.tail

/-- The block of lines 121-182, run when the input stream is open on `lines`. -/
def convert (StringTokenizer : String → String → List String) (for_gpu : Bool)
    (inputFilename outputFilename : String) (lines : List String) : Result :=
  let featuresSize := featuresSizeOf StringTokenizer lines
  let limitMod16 := limitMod16Of for_gpu lines
  let datasize := datasizeOf for_gpu lines
  match initTables featuresSize with
  | none =>
    { printed := [], inputOpened := some inputFilename, outputOpened := some outputFilename,
      header := some (datasize, featuresSize), grid := [], lineCount := 0,
      termination := .initLoopForever }
  | some tables =>
    let p := encodePass StringTokenizer datasize limitMod16
      { tables := tables, featurePos := 0, lineCount := 0, grid := [], printed := [],
        fault := none } lines.tail
    { printed := p.printed, inputOpened := some inputFilename,
      outputOpened := some outputFilename,
      header := some (datasize, featuresSize), grid := p.grid, lineCount := p.lineCount,
      termination :=
        match p.fault with
        | some (index, size) => .outOfBounds index size
        | none => .exit 0 }

/-- The function `main`.  `openInput path` is what `ifstream inputFile(path)` finds:
`none` when the stream is not open, otherwise the lines of the file. -/
def main (StringTokenizer : String → String → List String)
    (openInput : String → Option (List String)) (argv : List String) : Result :=
  let input := InputParser argv
  if cmdOptionExists input "-h" then print_help []
  else
    let inputFilename := getCmdOption input "-f"
    let outputFilename := getCmdOption input "-o"
    let for_gpu := cmdOptionExists input "--gpu"
    if inputFilename = "" ∨ outputFilename = "" then print_help [missingFilenamesText]
    else
      match openInput inputFilename with
      | some lines => convert StringTokenizer for_gpu inputFilename outputFilename lines
      | none =>
        { printed := [errorLoadingText], inputOpened := some inputFilename,
          outputOpened := some outputFilename, header := none, grid := [], lineCount := 0,
          termination := .exit (-1) }

/-- Number of bytes passed to `outputFile.write`: 4 for each header field, 1 for each grid byte. -/
def Result.bytesWritten (r : Result) : Nat :=
  (match r.header with
   | some _ => 8
   | none => 0) + r.grid.length

/-- State of the file system at one path. -/
inductive FileState where
  | absent
  | content (bytes : List Nat)
deriving DecidableEq, Repr

/-- State of the output path after the run, from its state `before`, when the
path can be opened for writing.  The constructor
`ofstream(path, ios::out | ios::binary)` creates the file or truncates it to
length zero; the written bytes follow.  `uintBytes` gives the 4 bytes of a
`uint` in the native order. -/
def Result.outputFileAfter (r : Result) (uintBytes : Nat → List Nat) (before : FileState) :
    FileState :=
  match r.outputOpened with
  | none => before
  | some _ =>
    match r.header with
    | none => .content r.grid
    | some (datasize, featuresSize) =>
      .content (uintBytes datasize ++ uintBytes featuresSize ++ r.grid)

/-! ## The tokenizer of the specification -/

/-- Pieces of `cs` between occurrences of `delim`; consecutive delimiters give empty pieces. -/
def splitAt (delim : Char) : List Char → List (List Char)
  | [] => [[]]
  | c :: cs =>
    if c = delim then [] :: splitAt delim cs
    else
      match splitAt delim cs with
      | [] => [[c]]
      | t :: ts => (c :: t) :: ts

/-- Modelled from the spec: `StringTokenizer.h` is not among the sources.  Section 4.1
of the specification: the tokenizer splits a line strictly on a single-character
delimiter, without trimming and without quoting, and consecutive delimiters yield
empty tokens. -/
def tokenize (line delim : String) : List String :=
  match delim.data with
  | [] => [line]
  | d :: _ => (splitAt d line.data).map String.mk

/-! ## Vocabulary of the claims -/

/-- The data lines of an input: the lines after the header line. -/
def dataLines (lines : List String) : List String := lines.tail

/-- The token of `line` in column `j`, columns numbered from 1. -/
def cell (StringTokenizer : String → String → List String) (line : String) (j : Nat) :
    String :=
  (StringTokenizer line ",").getD (j - 1) ""

/-- The tokens of column `j` in `rows`, top to bottom. -/
def column (StringTokenizer : String → String → List String) (rows : List String) (j : Nat) :
    List String :=
  rows.map (fun line => cell StringTokenizer line j)

/-- Number of distinct tokens in `col`. -/
def distinctCount (col : List String) : Nat := col.dedup.length

/-- Number of distinct tokens that occur in `col` before the first occurrence of `token`. -/
def distinctBefore (col : List String) (token : String) : Nat :=
  distinctCount (col.takeWhile (fun t => decide (t ≠ token)))

/-- Scenario A of the specification: header `a,b,c` and three data lines. -/
def scenarioA : List String := ["a,b,c", "x,1,p", "y,1,q", "x,2,p"]

/-- Arguments `-f in.csv -o out.bin` after the program name. -/
def argvPlain : List String := ["data-reader", "-f", "in.csv", "-o", "out.bin"]

/-- Arguments `-f in.csv -o out.bin --gpu` after the program name. -/
def argvGpu : List String := ["data-reader", "-f", "in.csv", "-o", "out.bin", "--gpu"]

/-- Header line `a,a,...,a` with `n + 1` fields. -/
def manyFields : Nat → List Char
  | 0 => ['a']
  | n + 1 => 'a' :: ',' :: manyFields n

/-- An input whose data line has fewer tokens than the header line. -/
def raggedInput : List String := ["a,b", "x"]

/-- An input with 16 data lines, each with more tokens than the header line. -/
def overlongInput : List String := "a" :: List.replicate 16 "x,y"

/-- An input with one header field and `2^32` data lines. -/
def hugeInput : List String := "a" :: List.replicate 4294967296 "x"

/-- An input that is a single header line of `2^32` fields. -/
def wideInput : List String := [String.mk (manyFields 4294967295)]

/-- The token number `i` of a column of pairwise distinct tokens: `i` letters `z`. -/
def distinctToken (i : Nat) : String := String.mk (List.replicate i 'z')

/-- Encode steps that present 257 pairwise distinct tokens to column 1. -/
def wrapSteps : List (Nat × String) :=
  (List.range 257).map (fun i => (1, distinctToken i))

/-- Arguments of Scenario C: `-o` is missing. -/
def argvNoOutput : List String := ["data-reader", "-f", "in.csv"]

/-- A file system in which no path can be opened for reading. -/
def noFile (_ : String) : Option (List String) := none

/-- The 4 bytes of a `uint`, least significant first. -/
def littleEndian (v : Nat) : List Nat :=
  [v % 256, v / 256 % 256, v / 65536 % 256, v / 16777216 % 256]

/-- An input whose header line and single data line have `2^32 - 1` fields each. -/
def maxWidthInput : List String :=
  [String.mk (manyFields 4294967294), String.mk (manyFields 4294967294)]

/-- A file system in which `in.csv` holds `lines` and no other path can be read. -/
def onlyFile (lines : List String) (path : String) : Option (List String) :=
  if path = "in.csv" then some lines else none

/-- The value `datasize` written in the header. -/
def Result.rowCount (r : Result) : Option Nat := r.header.map Prod.fst

/-- The value `featuresSize` written in the header. -/
def Result.featureCount (r : Result) : Option Nat := r.header.map Prod.snd

/-- The run passes the argument checks of lines 104-115 and opens the input stream on `lines`. -/
def Converts (openInput : String → Option (List String)) (argv lines : List String) : Prop :=
  cmdOptionExists (InputParser argv) "-h" = false ∧
  getCmdOption (InputParser argv) "-f" ≠ "" ∧
  getCmdOption (InputParser argv) "-o" ≠ "" ∧
  openInput (getCmdOption (InputParser argv) "-f") = some lines

instance (openInput : String → Option (List String)) (argv lines : List String) :
    Decidable (Converts openInput argv lines) := by
  unfold Converts; infer_instance

/-- A sequence of encode steps, each a `featurePos` and a token, from tables `t`:
the final tables and the bytes produced, `none` if a step is out of range. -/
def encodeSteps : Tables → List (Nat × String) → Option (Tables × List Nat)
  | t, [] => some (t, [])
  | t, (featurePos, token) :: rest =>
    match encode t featurePos token with
    | none => none
    | some (t1, data) =>
      match encodeSteps t1 rest with
      | none => none
      | some (t2, bytes) => some (t2, data :: bytes)

/-- The tokens that `steps` present to column `j`, in order. -/
def colTokens (steps : List (Nat × String)) (j : Nat) : List String :=
  (steps.filter (fun x => decide (x.1 = j))).map Prod.snd

/-- The encode steps of one line whose token loop starts with `featurePos = q`. -/
def stepsFrom : Nat → List String → List (Nat × String)
  | _, [] => []
  | q, token :: rest => (q + 1, token) :: stepsFrom (q + 1) rest

/-- The encode steps of the lines `rows`, line after line. -/
def passSteps (StringTokenizer : String → String → List String) :
    List String → List (Nat × String)
  | [] => []
  | line :: rest => stepsFrom 0 (StringTokenizer line ",") ++ passSteps StringTokenizer rest

/-- Distinct tokens of `seen` in order of first occurrence. -/
def firstSeen (seen : List String) : List String :=
  seen.foldl (fun acc t => if t ∈ acc then acc else acc ++ [t]) []

/-- The map that gives the tokens of `ts` the codes `i mod 256, (i + 1) mod 256, ...`. -/
def codeMapFrom : Nat → List String → ByteMap
  | _, [] => []
  | i, t :: ts => (t, i % BYTE_MOD) :: codeMapFrom (i + 1) ts

/-- Tables of `n` slots in which every slot `p` holds the codes and the counter that
the tokens presented to column `p` by `steps` produce. -/
def TablesFor (n : Nat) (steps : List (Nat × String)) (t : Tables) : Prop :=
  t.translationsVector.length = n ∧ t.lastCategory.length = n ∧
  ∀ p, p < n →
    t.translationsVector[p]? = some (codeMapFrom 0 (firstSeen (colTokens steps p))) ∧
    t.lastCategory[p]? = some (distinctCount (colTokens steps p) % BYTE_MOD)

/-- Tables of `n` slots, every map empty and every counter zero. -/
def emptyTables (n : Nat) : Tables :=
  { translationsVector := List.replicate n [], lastCategory := List.replicate n 0 }

/-- The data lines that the encoding pass of the run `r` encoded completely. -/
def Result.processed (r : Result) (lines : List String) : List String :=
  (dataLines lines).take r.lineCount

/-- Both tables have `n` slots. -/
def Tables.Sized (t : Tables) (n : Nat) : Prop :=
  t.translationsVector.length = n ∧ t.lastCategory.length = n

/-- Arguments with valid `-f`, `-o` and `--gpu`, followed by `-h`. -/
def argvHelp : List String :=
  ["data-reader", "-f", "in.csv", "-o", "out.bin", "--gpu", "-h"]

/-! ## Subscripts, final state and plan of the encoding pass -/

/-- The indices with which one run of the token loop (lines 167-177) subscripts the
tables, in order: every access of one iteration uses `featurePos`. -/
def tokenAccesses : Pass → List String → List Nat
  | _, [] => []
  | s, token :: rest =>
    match s.fault with
    | some _ => []
    | none => (s.featurePos + 1) % UINT_MOD :: tokenAccesses (encodeToken s token) rest

/-- The indices with which the line loop (lines 158-179) subscripts the tables, in order. -/
def passAccesses (StringTokenizer : String → String → List String) (datasize : Nat) :
    Pass → List String → List Nat
  | _, [] => []
  | s, line :: rest =>
    match s.fault with
    | some _ => []
    | none =>
      if s.lineCount = datasize then []
      else
        tokenAccesses { s with featurePos := 0 } (StringTokenizer line ",") ++
          passAccesses StringTokenizer datasize (encodeLine StringTokenizer s line) rest

/-- The variables of the encoding pass at the end of the conversion block; `none` when
the loop of line 148 does not terminate. -/
def convertPass (StringTokenizer : String → String → List String) (for_gpu : Bool)
    (lines : List String) : Option Pass :=
  match initTables (featuresSizeOf StringTokenizer lines) with
  | none => none
  | some tables =>
    some (encodePass StringTokenizer (datasizeOf for_gpu lines) (limitMod16Of for_gpu lines)
      { tables := tables, featurePos := 0, lineCount := 0, grid := [], printed := [],
        fault := none } lines.tail)

/-- The indices with which the conversion block subscripts the tables. -/
def convertAccesses (StringTokenizer : String → String → List String) (for_gpu : Bool)
    (lines : List String) : List Nat :=
  match initTables (featuresSizeOf StringTokenizer lines) with
  | none => []
  | some tables =>
    passAccesses StringTokenizer (datasizeOf for_gpu lines)
      { tables := tables, featurePos := 0, lineCount := 0, grid := [], printed := [],
        fault := none } lines.tail

/-- The data lines that the line loop reads before `lineCount` reaches `datasize`. -/
def reachOf (for_gpu : Bool) (lines : List String) : List String :=
  (dataLines lines).take (datasizeOf for_gpu lines)

/-- Number of leading lines of `rows` with fewer than `n` tokens. -/
def completeLines (StringTokenizer : String → String → List String) (n : Nat) :
    List String → Nat
  | [] => 0
  | line :: rest =>
    if (StringTokenizer line ",").length < n then completeLines StringTokenizer n rest + 1
    else 0

/-- The encode steps on tables of `n` slots over the lines `rows`: all steps of the leading
lines with fewer than `n` tokens, then the first `n - 1` steps of the next line, if any. -/
def executedSteps (StringTokenizer : String → String → List String) (n : Nat) :
    List String → List (Nat × String)
  | [] => []
  | line :: rest =>
    if (StringTokenizer line ",").length < n then
      stepsFrom 0 (StringTokenizer line ",") ++ executedSteps StringTokenizer n rest
    else stepsFrom 0 ((StringTokenizer line ",").take (n - 1))

/-- The data lines whose encoding the run `r` started: the lines encoded completely and,
when the run stopped at a subscript out of range, the line in which it stopped. -/
def Result.started (r : Result) (lines : List String) : List String :=
  (dataLines lines).take
    (match r.termination with
     | .outOfBounds _ _ => r.lineCount + 1
     | _ => r.lineCount)

/-- An input with 17 data lines: 16 equal lines and a different last line. -/
def seventeenInput : List String := "a,b" :: (List.replicate 16 "x,1" ++ ["y,2"])

/-- An input with 17 data lines, each with more tokens than the header line. -/
def overlongSeventeen : List String := "a" :: List.replicate 17 "x,y"

/-- The tokens in position `j` (from 1) of the lines of `rows` that have one, top to
bottom: column `j` of lines that need not have the same number of tokens. -/
def columnTokens (StringTokenizer : String → String → List String) (rows : List String)
    (j : Nat) : List String :=
  rows.filterMap (fun line => (StringTokenizer line ",")[j - 1]?)

/-- Position in the grid of the byte of token `j` (from 1) of line `i` (from 0) of `rows`:
one byte per token of the lines before, then `j - 1` bytes of the line itself. -/
def cellPos (StringTokenizer : String → String → List String) (rows : List String)
    (i j : Nat) : Nat :=
  (passSteps StringTokenizer (rows.take i)).length + (j - 1)

/-- Scenario A with other tokens in the second and third column. -/
def scenarioOther : List String := ["a,b,c", "x,7,r", "y,8,s", "x,9,t"]

/-- The tokens of a line renamed column by column: the token in position `q + 1` by
`rename (q + 1)`, the next one by `rename (q + 2)`, and so on. -/
def renameFrom (rename : Nat → String → String) : Nat → List String → List String
  | _, [] => []
  | q, token :: rest => rename (q + 1) token :: renameFrom rename (q + 1) rest

/-- The line `line2` yields the tokens of `line1`, each renamed by the renaming of its
column. -/
def RenamedLine (StringTokenizer : String → String → List String)
    (rename : Nat → String → String) (line1 line2 : String) : Prop :=
  StringTokenizer line2 "," = renameFrom rename 0 (StringTokenizer line1 ",")

/-- An encode step with its token renamed by the renaming of its column. -/
def renameStep (rename : Nat → String → String) (x : Nat × String) : Nat × String :=
  (x.1, rename x.1 x.2)

/-- The token lists of the data lines of an input, line by line. -/
def tokenRows (StringTokenizer : String → String → List String) (lines : List String) :
    List (List String) :=
  (dataLines lines).map (fun line => StringTokenizer line ",")

/-- The table of `rc` rows and `f` columns whose cell `j0` of row `i` is the text of byte
`i * f + j0` of `grid`. -/
def codeTable (text : Nat → String) (grid : List Nat) (rc f : Nat) : List (List String) :=
  (List.range rc).map (fun i => (List.range f).map (fun j0 => text (grid.getD (i * f + j0) 0)))

/-- The token with `j` letters `z` put in front of it. -/
def tagColumn (j : Nat) (token : String) : String :=
  String.mk (List.replicate j 'z' ++ token.data)

/-- The decimal text of a code. -/
def codeText (code : Nat) : String := toString code

/-- Scenario A with the tokens of column `j` tagged by `tagColumn j`. -/
def scenarioTagged : List String := ["a,b,c", "zx,zz1,zzzp", "zy,zz1,zzzq", "zx,zz2,zzzp"]

/-- The header of Scenario A over the codes of its grid as decimal text. -/
def scenarioCodes : List String := ["a,b,c", "0,0,0", "1,0,1", "0,1,0"]

/-! # Lemmas -/

/-! ## Maps -/

theorem mapFind_codeMapFrom_of_not_mem (i : Nat) (ts : List String) (key : String)
    (h : key ∉ ts) : mapFind (codeMapFrom i ts) key = none := by
  induction ts generalizing i with
  | nil => rfl
  | cons t ts ih =>
    simp only [List.mem_cons, not_or] at h
    simp only [codeMapFrom, mapFind]
    rw [if_neg (fun e => h.1 e.symm)]
    exact ih (i + 1) h.2

theorem mapFind_codeMapFrom_of_mem (i : Nat) (ts : List String) (key : String)
    (h : key ∈ ts) : mapFind (codeMapFrom i ts) key = some ((i + ts.indexOf key) % BYTE_MOD) := by
  induction ts generalizing i with
  | nil => simp at h
  | cons t ts ih =>
    simp only [codeMapFrom, mapFind]
    by_cases e : t = key
    · subst e
      simp
    · rw [if_neg e]
      have hm : key ∈ ts := by
        rcases List.mem_cons.mp h with h1 | h1
        · exact absurd h1.symm e
        · exact h1
      rw [ih (i + 1) hm, List.indexOf_cons_ne _ e]
      congr 2
      omega

theorem mapAssign_codeMapFrom (i : Nat) (ts : List String) (key : String) (value : Nat)
    (h : key ∉ ts) :
    mapAssign (codeMapFrom i ts) key value = codeMapFrom i ts ++ [(key, value)] := by
  induction ts generalizing i with
  | nil => rfl
  | cons t ts ih =>
    simp only [List.mem_cons, not_or] at h
    simp only [codeMapFrom, mapAssign, List.cons_append]
    rw [if_neg (fun e => h.1 e.symm), ih (i + 1) h.2]

theorem codeMapFrom_append (i : Nat) (ts us : List String) :
    codeMapFrom i (ts ++ us) = codeMapFrom i ts ++ codeMapFrom (i + ts.length) us := by
  induction ts generalizing i with
  | nil => simp [codeMapFrom]
  | cons t ts ih =>
    have e : i + 1 + ts.length = i + (ts.length + 1) := by omega
    simp [codeMapFrom, ih (i + 1), e]

theorem codeMapFrom_keys (i : Nat) (ts : List String) :
    (codeMapFrom i ts).map Prod.fst = ts := by
  induction ts generalizing i with
  | nil => rfl
  | cons t ts ih => simp [codeMapFrom, ih]

theorem codeMapFrom_codes (i : Nat) (ts : List String) :
    (codeMapFrom i ts).map Prod.snd = (List.range' i ts.length).map (fun c => c % BYTE_MOD) := by
  induction ts generalizing i with
  | nil => rfl
  | cons t ts ih => simp [codeMapFrom, ih, List.range'_succ]

/-! ## Distinct tokens in order of first occurrence -/

theorem firstSeen_append_singleton (l : List String) (t : String) :
    firstSeen (l ++ [t]) = if t ∈ firstSeen l then firstSeen l else firstSeen l ++ [t] := by
  simp [firstSeen, List.foldl_append]

theorem mem_firstSeen (l : List String) (t : String) : t ∈ firstSeen l ↔ t ∈ l := by
  induction l using List.reverseRecOn generalizing t with
  | nil => simp [firstSeen]
  | append_singleton l x ih =>
    rw [firstSeen_append_singleton]
    by_cases hx : x ∈ firstSeen l
    · rw [if_pos hx, List.mem_append, List.mem_singleton, ih t]
      constructor
      · exact Or.inl
      · rintro (h | h)
        · exact h
        · rw [h]
          exact (ih x).mp hx
    · rw [if_neg hx, List.mem_append, List.mem_append, ih t]

theorem nodup_firstSeen (l : List String) : (firstSeen l).Nodup := by
  induction l using List.reverseRecOn with
  | nil => simp [firstSeen]
  | append_singleton l x ih =>
    rw [firstSeen_append_singleton]
    by_cases hx : x ∈ firstSeen l
    · rw [if_pos hx]
      exact ih
    · rw [if_neg hx]
      exact List.Nodup.append ih (List.nodup_singleton x) (by simpa using hx)

theorem distinctCount_append_singleton (l : List String) (t : String) :
    distinctCount (l ++ [t]) = if t ∈ l then distinctCount l else distinctCount l + 1 := by
  unfold distinctCount
  rw [← List.card_toFinset, ← List.card_toFinset]
  have e : (l ++ [t]).toFinset = insert t l.toFinset := by
    ext x
    simp [or_comm]
  rw [e]
  by_cases h : t ∈ l
  · rw [if_pos h, Finset.insert_eq_of_mem (List.mem_toFinset.mpr h)]
  · rw [if_neg h, Finset.card_insert_of_not_mem (fun hh => h (List.mem_toFinset.mp hh))]

theorem length_firstSeen (l : List String) : (firstSeen l).length = distinctCount l := by
  induction l using List.reverseRecOn with
  | nil => simp [firstSeen, distinctCount]
  | append_singleton l x ih =>
    rw [firstSeen_append_singleton, distinctCount_append_singleton]
    by_cases hx : x ∈ l
    · rw [if_pos ((mem_firstSeen l x).mpr hx), if_pos hx, ih]
    · rw [if_neg (fun h => hx ((mem_firstSeen l x).mp h)), if_neg hx, List.length_append, ih]
      rfl

theorem takeWhile_ne_append_of_mem (l r : List String) (t : String) (h : t ∈ l) :
    (l ++ r).takeWhile (fun x => decide (x ≠ t)) = l.takeWhile (fun x => decide (x ≠ t)) := by
  induction l with
  | nil => simp at h
  | cons a l ih =>
    by_cases e : a = t
    · simp [List.takeWhile, e]
    · have hm : t ∈ l := by
        rcases List.mem_cons.mp h with h1 | h1
        · exact absurd h1.symm e
        · exact h1
      simpa [List.takeWhile, e] using ih hm

theorem takeWhile_ne_append_self (l r : List String) (t : String) (h : t ∉ l) :
    (l ++ t :: r).takeWhile (fun x => decide (x ≠ t)) = l := by
  induction l with
  | nil => simp [List.takeWhile]
  | cons a l ih =>
    simp only [List.mem_cons, not_or] at h
    have e : a ≠ t := fun e => h.1 e.symm
    simpa [List.takeWhile, e] using ih h.2

theorem distinctBefore_append_of_mem (l r : List String) (t : String) (h : t ∈ l) :
    distinctBefore (l ++ r) t = distinctBefore l t := by
  unfold distinctBefore
  rw [takeWhile_ne_append_of_mem l r t h]

theorem distinctBefore_append_self (l r : List String) (t : String) (h : t ∉ l) :
    distinctBefore (l ++ t :: r) t = distinctCount l := by
  unfold distinctBefore
  rw [takeWhile_ne_append_self l r t h]

theorem indexOf_firstSeen (l : List String) (t : String) (h : t ∈ l) :
    (firstSeen l).indexOf t = distinctBefore l t := by
  induction l using List.reverseRecOn with
  | nil => simp at h
  | append_singleton l x ih =>
    rw [firstSeen_append_singleton]
    by_cases ht : t ∈ l
    · rw [distinctBefore_append_of_mem l [x] t ht]
      by_cases hx : x ∈ firstSeen l
      · rw [if_pos hx]
        exact ih ht
      · rw [if_neg hx, List.indexOf_append_of_mem ((mem_firstSeen l t).mpr ht)]
        exact ih ht
    · have e : t = x := by
        rcases List.mem_append.mp h with h1 | h1
        · exact absurd h1 ht
        · exact List.mem_singleton.mp h1
      subst e
      have hn : t ∉ firstSeen l := fun hh => ht ((mem_firstSeen l t).mp hh)
      rw [if_neg hn, distinctBefore_append_self l [] t ht,
        List.indexOf_append_of_not_mem hn, ← length_firstSeen]
      simp

theorem distinctBefore_lt_distinctCount (l : List String) (t : String) (h : t ∈ l) :
    distinctBefore l t < distinctCount l := by
  unfold distinctBefore distinctCount
  rw [← List.card_toFinset, ← List.card_toFinset]
  apply Finset.card_lt_card
  rw [Finset.ssubset_iff_of_subset]
  · refine ⟨t, List.mem_toFinset.mpr h, ?_⟩
    intro hh
    have := List.mem_takeWhile_imp (List.mem_toFinset.mp hh)
    simp at this
  · intro x hx
    exact List.mem_toFinset.mpr ((List.takeWhile_sublist _).subset (List.mem_toFinset.mp hx))

/-! ## One encode step -/

theorem contains_codeMap (col : List String) (token : String) :
    contains token (codeMapFrom 0 (firstSeen col)) = decide (token ∈ col) := by
  unfold contains
  by_cases h : token ∈ col
  · rw [mapFind_codeMapFrom_of_mem 0 _ _ ((mem_firstSeen col token).mpr h)]
    simp [h]
  · rw [mapFind_codeMapFrom_of_not_mem 0 _ _ (fun hh => h ((mem_firstSeen col token).mp hh))]
    simp [h]

theorem mapIndex_codeMap_of_mem (col : List String) (token : String) (h : token ∈ col) :
    mapIndex (codeMapFrom 0 (firstSeen col)) token =
      (distinctBefore col token % BYTE_MOD, codeMapFrom 0 (firstSeen col)) := by
  unfold mapIndex
  rw [mapFind_codeMapFrom_of_mem 0 _ _ ((mem_firstSeen col token).mpr h),
    indexOf_firstSeen col token h, Nat.zero_add]

theorem firstSeen_append_of_mem (col : List String) (token : String) (h : token ∈ col) :
    firstSeen (col ++ [token]) = firstSeen col := by
  rw [firstSeen_append_singleton, if_pos ((mem_firstSeen col token).mpr h)]

theorem firstSeen_append_of_not_mem (col : List String) (token : String) (h : token ∉ col) :
    firstSeen (col ++ [token]) = firstSeen col ++ [token] := by
  rw [firstSeen_append_singleton, if_neg (fun hh => h ((mem_firstSeen col token).mp hh))]

theorem mapAssign_codeMap_of_not_mem (col : List String) (token : String) (h : token ∉ col) :
    mapAssign (codeMapFrom 0 (firstSeen col)) token (distinctCount col % BYTE_MOD) =
      codeMapFrom 0 (firstSeen (col ++ [token])) := by
  rw [mapAssign_codeMapFrom 0 _ _ _ (fun hh => h ((mem_firstSeen col token).mp hh)),
    firstSeen_append_of_not_mem col token h, codeMapFrom_append, Nat.zero_add, length_firstSeen]
  rfl

theorem colTokens_append_same (steps : List (Nat × String)) (p : Nat) (token : String) :
    colTokens (steps ++ [(p, token)]) p = colTokens steps p ++ [token] := by
  simp [colTokens, List.filter_append]

theorem colTokens_append_other (steps : List (Nat × String)) (p q : Nat) (token : String)
    (h : p ≠ q) : colTokens (steps ++ [(p, token)]) q = colTokens steps q := by
  simp [colTokens, List.filter_append, h]

theorem colTokens_append (xs ys : List (Nat × String)) (j : Nat) :
    colTokens (xs ++ ys) j = colTokens xs j ++ colTokens ys j := by
  simp [colTokens, List.filter_append]

theorem encode_tablesFor (n : Nat) (steps : List (Nat × String)) (t : Tables)
    (ht : TablesFor n steps t) (p : Nat) (hp : p < n) (token : String) :
    ∃ t1, encode t p token =
        some (t1, distinctBefore (colTokens (steps ++ [(p, token)]) p) token % BYTE_MOD) ∧
      TablesFor n (steps ++ [(p, token)]) t1 := by
  obtain ⟨hT, hL, hslot⟩ := ht
  obtain ⟨hm, hl⟩ := hslot p hp
  unfold encode
  rw [hm]
  simp only []
  rw [contains_codeMap, colTokens_append_same]
  by_cases hin : token ∈ colTokens steps p
  · rw [if_pos (by simpa using hin), mapIndex_codeMap_of_mem _ _ hin,
      distinctBefore_append_of_mem _ _ _ hin]
    refine ⟨_, rfl, ?_, ?_, ?_⟩
    · simpa using hT
    · exact hL
    · intro q hq
      obtain ⟨hmq, hlq⟩ := hslot q hq
      by_cases e : p = q
      · subst e
        refine ⟨?_, ?_⟩
        · rw [List.getElem?_set_self (by omega), colTokens_append_same,
            firstSeen_append_of_mem _ _ hin]
        · rw [hlq, colTokens_append_same, distinctCount_append_singleton, if_pos hin]
      · refine ⟨?_, ?_⟩
        · rw [List.getElem?_set_ne e, hmq, colTokens_append_other _ _ _ _ e]
        · rw [hlq, colTokens_append_other _ _ _ _ e]
  · rw [if_neg (by simpa using hin), hl]
    simp only []
    rw [mapAssign_codeMap_of_not_mem _ _ hin,
      mapIndex_codeMap_of_mem _ _ (List.mem_append_right _ (List.mem_singleton_self _))]
    refine ⟨_, rfl, ?_, ?_, ?_⟩
    · simpa using hT
    · simpa using hL
    · intro q hq
      obtain ⟨hmq, hlq⟩ := hslot q hq
      by_cases e : p = q
      · subst e
        refine ⟨?_, ?_⟩
        · rw [List.getElem?_set_self (by omega), colTokens_append_same]
        · rw [List.getElem?_set_self (by omega), colTokens_append_same,
            distinctCount_append_singleton, if_neg hin]
          simp [BYTE_MOD]
      · refine ⟨?_, ?_⟩
        · rw [List.getElem?_set_ne e, hmq, colTokens_append_other _ _ _ _ e]
        · rw [List.getElem?_set_ne e, hlq, colTokens_append_other _ _ _ _ e]

/-! ## Sequences of encode steps -/

theorem encodeSteps_append (t : Tables) (xs ys : List (Nat × String)) :
    encodeSteps t (xs ++ ys) =
      match encodeSteps t xs with
      | none => none
      | some (t1, bs) =>
        match encodeSteps t1 ys with
        | none => none
        | some (t2, cs) => some (t2, bs ++ cs) := by
  induction xs generalizing t with
  | nil =>
    simp only [List.nil_append, encodeSteps]
    cases encodeSteps t ys with
    | none => rfl
    | some r => simp
  | cons x xs ih =>
    obtain ⟨p, token⟩ := x
    simp only [List.cons_append, encodeSteps, List.append_eq]
    cases encode t p token with
    | none => rfl
    | some r =>
      obtain ⟨t1, data⟩ := r
      simp only []
      rw [ih t1]
      cases encodeSteps t1 xs with
      | none => rfl
      | some r1 =>
        obtain ⟨t2, bs⟩ := r1
        simp only []
        cases encodeSteps t2 ys with
        | none => rfl
        | some r2 => simp

theorem encodeSteps_singleton (t : Tables) (p : Nat) (token : String) :
    encodeSteps t [(p, token)] =
      match encode t p token with
      | none => none
      | some (t1, data) => some (t1, [data]) := by
  simp only [encodeSteps]

theorem mem_colTokens_of_getElem? (steps : List (Nat × String)) (i p : Nat) (token : String)
    (h : steps[i]? = some (p, token)) : token ∈ colTokens steps p := by
  unfold colTokens
  rw [List.mem_map]
  refine ⟨(p, token), ?_, rfl⟩
  rw [List.mem_filter]
  exact ⟨List.getElem?_mem h, by simp⟩

theorem tablesFor_initTables (featuresSize : Nat) (t0 : Tables)
    (h : initTables featuresSize = some t0) : TablesFor (featuresSize + 1) [] t0 := by
  unfold initTables at h
  split at h
  · cases h
    refine ⟨by simp, by simp, ?_⟩
    intro p hp
    refine ⟨?_, ?_⟩
    · rw [List.getElem?_replicate, if_pos hp]
      rfl
    · rw [List.getElem?_replicate, if_pos hp]
      rfl
  · cases h

/-- From tables that reflect `done`, steps within the tables always succeed, and each
byte is the number of distinct tokens seen earlier in its column, modulo 256. -/
theorem encodeSteps_spec (n : Nat) (done : List (Nat × String)) (t0 : Tables)
    (h0 : TablesFor n done t0) (steps : List (Nat × String)) (hsteps : ∀ x ∈ steps, x.1 < n) :
    ∃ t bytes, encodeSteps t0 steps = some (t, bytes) ∧ TablesFor n (done ++ steps) t ∧
      bytes.length = steps.length ∧
      ∀ (i p : Nat) (token : String), steps[i]? = some (p, token) →
        bytes[i]? =
          some (distinctBefore (colTokens (done ++ steps.take (i + 1)) p) token % BYTE_MOD) := by
  induction steps using List.reverseRecOn with
  | nil =>
    refine ⟨t0, [], rfl, by simpa using h0, rfl, ?_⟩
    intro i p token h
    simp at h
  | append_singleton steps x ih =>
    obtain ⟨p, token⟩ := x
    obtain ⟨t, bytes, hrun, htab, hlen, hbytes⟩ :=
      ih (fun y hy => hsteps y (List.mem_append_left _ hy))
    have hp : p < n := hsteps (p, token) (List.mem_append_right _ (List.mem_singleton_self _))
    obtain ⟨t1, henc, htab1⟩ := encode_tablesFor n (done ++ steps) t htab p hp token
    refine ⟨t1, bytes ++ [distinctBefore (colTokens (done ++ steps ++ [(p, token)]) p) token
      % BYTE_MOD], ?_, ?_, ?_, ?_⟩
    · rw [encodeSteps_append, hrun]
      simp only []
      rw [encodeSteps_singleton, henc]
    · rw [← List.append_assoc]
      exact htab1
    · simp [hlen]
    · intro i q tok hi
      by_cases hlt : i < steps.length
      · rw [List.getElem?_append_left hlt] at hi
        rw [List.getElem?_append_left (by omega), hbytes i q tok hi]
        rw [List.take_append_of_le_length (by omega)]
      · have hi' : i = steps.length := by
          have := (List.getElem?_eq_some_iff.mp hi).1
          simp at this
          omega
        subst hi'
        rw [List.getElem?_append_right (by omega)] at hi
        simp at hi
        obtain ⟨rfl, rfl⟩ := hi
        rw [List.getElem?_append_right (by omega), hlen]
        have e : (steps ++ [(p, token)]).take (steps.length + 1) = steps ++ [(p, token)] :=
          List.take_of_length_le (by simp)
        simp [e]

/-! ## The token loop -/

theorem encode_sized (n : Nat) (t : Tables) (ht : t.Sized n) (p : Nat) (hp : p < n)
    (token : String) : ∃ t1 data, encode t p token = some (t1, data) ∧ t1.Sized n := by
  obtain ⟨hT, hL⟩ := ht
  have h1 : p < t.translationsVector.length := by omega
  have h2 : p < t.lastCategory.length := by omega
  unfold encode
  rw [List.getElem?_eq_getElem h1]
  simp only []
  split
  · exact ⟨_, _, rfl, by simpa using hT, hL⟩
  · rw [List.getElem?_eq_getElem h2]
    exact ⟨_, _, rfl, by simpa using hT, by simpa using hL⟩

theorem encode_out_of_range (n : Nat) (t : Tables) (ht : t.Sized n) (p : Nat) (hp : n ≤ p)
    (token : String) : encode t p token = none := by
  unfold encode
  rw [List.getElem?_eq_none (by rw [ht.1]; exact hp)]

theorem encodeSteps_sized (n : Nat) (t : Tables) (ht : t.Sized n) (steps : List (Nat × String))
    (hsteps : ∀ x ∈ steps, x.1 < n) :
    ∃ t1 bytes, encodeSteps t steps = some (t1, bytes) ∧ t1.Sized n ∧
      bytes.length = steps.length := by
  induction steps generalizing t with
  | nil => exact ⟨t, [], rfl, ht, rfl⟩
  | cons x steps ih =>
    obtain ⟨p, token⟩ := x
    obtain ⟨t1, data, henc, ht1⟩ :=
      encode_sized n t ht p (hsteps (p, token) (List.mem_cons_self _ _)) token
    obtain ⟨t2, bytes, hrun, ht2, hlen⟩ :=
      ih t1 ht1 (fun y hy => hsteps y (List.mem_cons_of_mem _ hy))
    refine ⟨t2, data :: bytes, ?_, ht2, by simp [hlen]⟩
    simp only [encodeSteps, henc, hrun]

theorem encodeToken_of_fault (s : Pass) (token : String) (h : s.fault ≠ none) :
    encodeToken s token = s := by
  unfold encodeToken
  cases hf : s.fault with
  | none => exact absurd hf h
  | some f => rfl

theorem foldl_encodeToken_of_fault (s : Pass) (tokens : List String) (h : s.fault ≠ none) :
    tokens.foldl encodeToken s = s := by
  induction tokens with
  | nil => rfl
  | cons token rest ih => rw [List.foldl_cons, encodeToken_of_fault s token h, ih]

theorem encodeToken_frame (s : Pass) (token : String) :
    (encodeToken s token).lineCount = s.lineCount ∧
    (encodeToken s token).printed = s.printed ∧
    ∃ extra, (encodeToken s token).grid = s.grid ++ extra := by
  unfold encodeToken
  cases s.fault with
  | some f => exact ⟨rfl, rfl, [], by simp⟩
  | none =>
    simp only []
    cases encode s.tables ((s.featurePos + 1) % UINT_MOD) token with
    | none => exact ⟨rfl, rfl, [], by simp⟩
    | some r => exact ⟨rfl, rfl, [r.2], rfl⟩

theorem foldl_encodeToken_frame (s : Pass) (tokens : List String) :
    (tokens.foldl encodeToken s).lineCount = s.lineCount ∧
    (tokens.foldl encodeToken s).printed = s.printed ∧
    ∃ extra, (tokens.foldl encodeToken s).grid = s.grid ++ extra := by
  induction tokens generalizing s with
  | nil => exact ⟨rfl, rfl, [], by simp⟩
  | cons token rest ih =>
    obtain ⟨h1, h2, e1, h3⟩ := encodeToken_frame s token
    obtain ⟨g1, g2, e2, g3⟩ := ih (encodeToken s token)
    rw [List.foldl_cons]
    refine ⟨g1.trans h1, g2.trans h2, e1 ++ e2, ?_⟩
    rw [g3, h3, List.append_assoc]

theorem foldl_encodeToken_ok (s : Pass) (hf : s.fault = none) (tokens : List String)
    (hq : s.featurePos + tokens.length < UINT_MOD) (t : Tables) (bytes : List Nat)
    (hrun : encodeSteps s.tables (stepsFrom s.featurePos tokens) = some (t, bytes)) :
    tokens.foldl encodeToken s =
      { s with tables := t, featurePos := s.featurePos + tokens.length,
               grid := s.grid ++ bytes } := by
  induction tokens generalizing s bytes with
  | nil =>
    simp only [stepsFrom, encodeSteps, Option.some.injEq, Prod.mk.injEq] at hrun
    obtain ⟨rfl, rfl⟩ := hrun
    simp
  | cons token rest ih =>
    simp only [stepsFrom, encodeSteps] at hrun
    simp only [List.length_cons] at hq
    cases henc : encode s.tables (s.featurePos + 1) token with
    | none => simp [henc] at hrun
    | some r =>
      obtain ⟨t1, data⟩ := r
      rw [henc] at hrun
      simp only [] at hrun
      cases hrest : encodeSteps t1 (stepsFrom (s.featurePos + 1) rest) with
      | none => simp [hrest] at hrun
      | some r2 =>
        obtain ⟨t2, bs⟩ := r2
        rw [hrest] at hrun
        simp only [Option.some.injEq, Prod.mk.injEq] at hrun
        obtain ⟨rfl, rfl⟩ := hrun
        have hmod : (s.featurePos + 1) % UINT_MOD = s.featurePos + 1 :=
          Nat.mod_eq_of_lt (by omega)
        have hstep : encodeToken s token =
            { s with tables := t1, featurePos := s.featurePos + 1, grid := s.grid ++ [data] } := by
          unfold encodeToken
          rw [hf]
          simp only [hmod, henc]
        rw [List.foldl_cons, hstep]
        rw [ih { s with tables := t1, featurePos := s.featurePos + 1, grid := s.grid ++ [data] }
          hf (by simp only []; omega) bs hrest]
        simp [Nat.add_assoc, Nat.add_comm 1]

theorem foldl_encodeToken_overflow (n : Nat) (hn : n < UINT_MOD) (s : Pass) (hf : s.fault = none)
    (hs : s.tables.Sized n) (hq : s.featurePos < n) (tokens : List String)
    (hlen : n ≤ s.featurePos + tokens.length) :
    (tokens.foldl encodeToken s).fault ≠ none := by
  induction tokens generalizing s with
  | nil => simp at hlen; omega
  | cons token rest ih =>
    simp only [List.length_cons] at hlen
    have hmod : (s.featurePos + 1) % UINT_MOD = s.featurePos + 1 :=
      Nat.mod_eq_of_lt (by omega)
    rw [List.foldl_cons]
    by_cases hlt : s.featurePos + 1 < n
    · obtain ⟨t1, data, henc, ht1⟩ := encode_sized n s.tables hs _ hlt token
      have hstep : encodeToken s token =
          { s with tables := t1, featurePos := s.featurePos + 1, grid := s.grid ++ [data] } := by
        unfold encodeToken
        rw [hf]
        simp only [hmod, henc]
      rw [hstep]
      exact ih { s with tables := t1, featurePos := s.featurePos + 1, grid := s.grid ++ [data] }
        hf ht1 hlt (by simp only []; omega)
    · have henc := encode_out_of_range n s.tables hs (s.featurePos + 1) (by omega) token
      have hstep : encodeToken s token =
          { s with featurePos := s.featurePos + 1,
                   fault := some (s.featurePos + 1, s.tables.translationsVector.length) } := by
        unfold encodeToken
        rw [hf]
        simp only [hmod, henc]
      rw [hstep, foldl_encodeToken_of_fault _ _ (by simp)]
      simp

/-! ## The line loop -/

theorem mem_stepsFrom (q : Nat) (tokens : List String) (x : Nat × String)
    (h : x ∈ stepsFrom q tokens) : q < x.1 ∧ x.1 ≤ q + tokens.length := by
  induction tokens generalizing q with
  | nil => simp [stepsFrom] at h
  | cons token rest ih =>
    simp only [stepsFrom, List.mem_cons] at h
    simp only [List.length_cons]
    rcases h with h | h
    · subst h
      simp only []
      omega
    · have := ih (q + 1) h
      omega

theorem length_stepsFrom (q : Nat) (tokens : List String) :
    (stepsFrom q tokens).length = tokens.length := by
  induction tokens generalizing q with
  | nil => rfl
  | cons token rest ih => simp [stepsFrom, ih]

theorem encodeLine_ok (StringTokenizer : String → String → List String) (n : Nat)
    (hn : n ≤ UINT_MOD) (s : Pass) (hf : s.fault = none) (hs : s.tables.Sized n) (line : String)
    (hlen : (StringTokenizer line ",").length < n) :
    ∃ t bytes, encodeSteps s.tables (stepsFrom 0 (StringTokenizer line ",")) = some (t, bytes) ∧
      t.Sized n ∧
      encodeLine StringTokenizer s line =
        { s with tables := t, featurePos := (StringTokenizer line ",").length,
                 grid := s.grid ++ bytes, lineCount := (s.lineCount + 1) % UINT_MOD } := by
  obtain ⟨t, bytes, hrun, ht, -⟩ := encodeSteps_sized n s.tables hs
    (stepsFrom 0 (StringTokenizer line ",")) (fun x hx => by
      have := mem_stepsFrom 0 _ x hx
      omega)
  refine ⟨t, bytes, hrun, ht, ?_⟩
  unfold encodeLine
  have hfold := foldl_encodeToken_ok { s with featurePos := 0 } hf (StringTokenizer line ",")
    (by simp only []; omega) t bytes hrun
  simp only [] at hfold
  rw [hfold]
  simp only [hf, Nat.zero_add]

theorem encodeLine_overflow (StringTokenizer : String → String → List String) (n : Nat)
    (hn : n < UINT_MOD) (hpos : 0 < n) (s : Pass) (hf : s.fault = none) (hs : s.tables.Sized n)
    (line : String) (hlen : n ≤ (StringTokenizer line ",").length) :
    (encodeLine StringTokenizer s line).fault ≠ none ∧
    (encodeLine StringTokenizer s line).lineCount = s.lineCount ∧
    (encodeLine StringTokenizer s line).printed = s.printed ∧
    ∃ extra, (encodeLine StringTokenizer s line).grid = s.grid ++ extra := by
  have hfault := foldl_encodeToken_overflow n hn { s with featurePos := 0 } hf hs hpos
    (StringTokenizer line ",") (by simp only []; omega)
  obtain ⟨h1, h2, h3⟩ := foldl_encodeToken_frame { s with featurePos := 0 }
    (StringTokenizer line ",")
  unfold encodeLine
  simp only []
  cases hc : (List.foldl encodeToken { s with featurePos := 0 } (StringTokenizer line ",")).fault with
  | none => exact absurd hc hfault
  | some f =>
    simp only []
    exact ⟨by simp [hc], h1, h2, h3⟩

theorem encodePass_of_fault (StringTokenizer : String → String → List String)
    (datasize limitMod16 : Nat) (s : Pass) (rows : List String) (h : s.fault ≠ none) :
    encodePass StringTokenizer datasize limitMod16 s rows = s := by
  cases rows with
  | nil => rfl
  | cons line rest =>
    unfold encodePass
    cases hf : s.fault with
    | none => exact absurd hf h
    | some f => rfl

/-- What the line loop does from a state without fault: it encodes `k` lines completely,
the bytes being those of the encode steps of these lines, possibly followed by the bytes
of a line that ran out of the tables. -/
theorem encodePass_spec (StringTokenizer : String → String → List String)
    (datasize limitMod16 n : Nat) (hn : n < UINT_MOD) (hpos : 0 < n)
    (hd : datasize < UINT_MOD) (rows : List String) (s : Pass) (hf : s.fault = none)
    (hs : s.tables.Sized n) (hlc : s.lineCount ≤ datasize) :
    ∃ k t bytes extra, k ≤ rows.length ∧ s.lineCount + k ≤ datasize ∧
      (encodePass StringTokenizer datasize limitMod16 s rows).lineCount = s.lineCount + k ∧
      encodeSteps s.tables (passSteps StringTokenizer (rows.take k)) = some (t, bytes) ∧
      (encodePass StringTokenizer datasize limitMod16 s rows).grid = s.grid ++ bytes ++ extra ∧
      ((encodePass StringTokenizer datasize limitMod16 s rows).fault = none →
        extra = [] ∧ k = min (datasize - s.lineCount) rows.length) ∧
      ((∀ line ∈ rows.take (datasize - s.lineCount), (StringTokenizer line ",").length < n) →
        (encodePass StringTokenizer datasize limitMod16 s rows).fault = none) := by
  induction rows generalizing s with
  | nil =>
    refine ⟨0, s.tables, [], [], by simp, by simpa using hlc, by simp [encodePass], rfl,
      by simp [encodePass], ?_, ?_⟩
    · intro _
      simp
    · intro _
      simpa [encodePass] using hf
  | cons line rest ih =>
    by_cases hstop : s.lineCount = datasize
    · have hrun : (encodePass StringTokenizer datasize limitMod16 s (line :: rest)).lineCount
            = s.lineCount ∧
          (encodePass StringTokenizer datasize limitMod16 s (line :: rest)).grid = s.grid ∧
          (encodePass StringTokenizer datasize limitMod16 s (line :: rest)).fault = none := by
        unfold encodePass
        rw [hf]
        simp only [hstop, if_true]
        split <;> simp [hf, hstop]
      refine ⟨0, s.tables, [], [], by simp, by simpa using hlc, by simp [hrun.1], rfl,
        by simp [hrun.2.1], ?_, ?_⟩
      · intro _
        simp [hstop]
      · intro _
        exact hrun.2.2
    · have hstep : encodePass StringTokenizer datasize limitMod16 s (line :: rest) =
          encodePass StringTokenizer datasize limitMod16 (encodeLine StringTokenizer s line)
            rest := by
        rw [encodePass]
        rw [hf]
        simp only [hstop, if_false]
      rw [hstep]
      by_cases hlen : (StringTokenizer line ",").length < n
      · obtain ⟨t1, b1, hrun1, ht1, hline⟩ :=
          encodeLine_ok StringTokenizer n (by omega) s hf hs line hlen
        have hmod : (s.lineCount + 1) % UINT_MOD = s.lineCount + 1 :=
          Nat.mod_eq_of_lt (by omega)
        rw [hline, hmod]
        obtain ⟨k, t, bytes, extra, hk, hkd, hlc1, hrun, hgrid, hnofault, hrows⟩ :=
          ih { s with tables := t1, featurePos := (StringTokenizer line ",").length,
                      grid := s.grid ++ b1, lineCount := s.lineCount + 1 }
            hf ht1 (by simp only []; omega)
        simp only [] at hk hkd hlc1 hrun hgrid hnofault hrows
        refine ⟨k + 1, t, b1 ++ bytes, extra, by simpa using hk, by omega, by rw [hlc1]; omega,
          ?_, by rw [hgrid]; simp, ?_, ?_⟩
        · rw [List.take_succ_cons, passSteps, encodeSteps_append, hrun1]
          simp only [hrun]
        · intro h
          obtain ⟨h1, h2⟩ := hnofault h
          refine ⟨h1, ?_⟩
          simp only [List.length_cons]
          omega
        · intro h
          apply hrows
          intro l hl
          apply h l
          have e : datasize - s.lineCount = (datasize - (s.lineCount + 1)) + 1 := by omega
          rw [e, List.take_succ_cons]
          exact List.mem_cons_of_mem _ hl
      · obtain ⟨hfault, hlc1, -, extra, hgrid⟩ :=
          encodeLine_overflow StringTokenizer n hn hpos s hf hs line (by omega)
        rw [encodePass_of_fault _ _ _ _ _ hfault]
        refine ⟨0, s.tables, [], extra, by simp, by simpa using hlc, by simpa using hlc1, rfl,
          by simpa using hgrid, ?_, ?_⟩
        · intro h
          exact absurd h hfault
        · intro h
          exfalso
          apply hlen
          apply h line
          have e : datasize - s.lineCount = (datasize - (s.lineCount + 1)) + 1 := by omega
          rw [e, List.take_succ_cons]
          exact List.mem_cons_self _ _

/-! ## Counting and the header -/

theorem countUint_foldl {α : Type} (xs : List α) (b : Nat) :
    xs.foldl (fun n _ => (n + 1) % UINT_MOD) (b % UINT_MOD) = (b + xs.length) % UINT_MOD := by
  induction xs generalizing b with
  | nil => rfl
  | cons x xs ih =>
    rw [List.foldl_cons, Nat.add_mod, Nat.mod_mod, ← Nat.add_mod, ih (b + 1), List.length_cons]
    congr 1
    omega

theorem countUint_eq {α : Type} (xs : List α) : countUint xs = xs.length % UINT_MOD := by
  have := countUint_foldl xs 0
  simpa [countUint] using this

theorem datasizeOf_eq (for_gpu : Bool) (lines : List String) :
    datasizeOf for_gpu lines =
      if for_gpu then (dataLines lines).length % UINT_MOD - (dataLines lines).length % 16
      else (dataLines lines).length % UINT_MOD := by
  unfold datasizeOf limitMod16Of dataLines
  rw [countUint_eq]
  cases for_gpu with
  | false => simp
  | true =>
    simp only [if_true]
    unfold UINT_MOD
    omega

theorem limitMod16Of_eq (for_gpu : Bool) (lines : List String) :
    limitMod16Of for_gpu lines = if for_gpu then (dataLines lines).length % 16 else 0 := by
  unfold limitMod16Of dataLines
  rw [countUint_eq]
  cases for_gpu with
  | false => simp
  | true =>
    simp only [if_true]
    unfold UINT_MOD
    omega

theorem featuresSizeOf_eq (StringTokenizer : String → String → List String)
    (lines : List String) :
    featuresSizeOf StringTokenizer lines =
      (StringTokenizer (lines.headD "") ",").length % UINT_MOD := by
  unfold featuresSizeOf
  rw [countUint_eq]

theorem datasizeOf_le (for_gpu : Bool) (lines : List String) :
    datasizeOf for_gpu lines ≤ (dataLines lines).length ∧ datasizeOf for_gpu lines < UINT_MOD := by
  rw [datasizeOf_eq]
  have h1 : (dataLines lines).length % UINT_MOD ≤ (dataLines lines).length := Nat.mod_le _ _
  have h2 : (dataLines lines).length % UINT_MOD < UINT_MOD := Nat.mod_lt _ (by unfold UINT_MOD; omega)
  split <;> omega

theorem initTables_eq (featuresSize : Nat) :
    initTables featuresSize =
      if featuresSize + 1 < UINT_MOD then some (emptyTables (featuresSize + 1)) else none := rfl

theorem main_of_converts (StringTokenizer : String → String → List String)
    (openInput : String → Option (List String)) (argv lines : List String)
    (h : Converts openInput argv lines) :
    main StringTokenizer openInput argv =
      convert StringTokenizer (cmdOptionExists (InputParser argv) "--gpu")
        (getCmdOption (InputParser argv) "-f") (getCmdOption (InputParser argv) "-o") lines := by
  obtain ⟨h1, h2, h3, h4⟩ := h
  unfold main
  simp only [h1, h2, h3, h4, Bool.false_eq_true, if_false, or_self]

theorem convert_header (StringTokenizer : String → String → List String) (for_gpu : Bool)
    (inputFilename outputFilename : String) (lines : List String) :
    (convert StringTokenizer for_gpu inputFilename outputFilename lines).header =
      some (datasizeOf for_gpu lines, featuresSizeOf StringTokenizer lines) := by
  unfold convert
  simp only []
  split <;> rfl

/-! ## The conversion block -/

theorem emptyTables_sized (n : Nat) : (emptyTables n).Sized n := by
  simp [emptyTables, Tables.Sized]

theorem tablesFor_emptyTables (n : Nat) : TablesFor n [] (emptyTables n) := by
  refine ⟨by simp [emptyTables], by simp [emptyTables], ?_⟩
  intro p hp
  refine ⟨?_, ?_⟩
  · simp only [emptyTables]
    rw [List.getElem?_replicate, if_pos hp]
    rfl
  · simp only [emptyTables]
    rw [List.getElem?_replicate, if_pos hp]
    rfl

/-- The conversion block in terms of encode steps: the grid starts with the bytes of the
encode steps of the completely encoded lines; a run that ends normally wrote nothing else
and encoded `datasize` lines; a run over lines that fit the tables ends normally. -/
theorem convert_spec (StringTokenizer : String → String → List String) (for_gpu : Bool)
    (inputFilename outputFilename : String) (lines : List String) :
    ∃ t bytes extra,
      (convert StringTokenizer for_gpu inputFilename outputFilename lines).lineCount
        ≤ datasizeOf for_gpu lines ∧
      encodeSteps (emptyTables (featuresSizeOf StringTokenizer lines + 1))
        (passSteps StringTokenizer
          ((convert StringTokenizer for_gpu inputFilename outputFilename lines).processed lines))
        = some (t, bytes) ∧
      (convert StringTokenizer for_gpu inputFilename outputFilename lines).grid = bytes ++ extra ∧
      ((convert StringTokenizer for_gpu inputFilename outputFilename lines).termination = .exit 0 →
        extra = [] ∧
        (convert StringTokenizer for_gpu inputFilename outputFilename lines).lineCount
          = datasizeOf for_gpu lines) ∧
      (featuresSizeOf StringTokenizer lines + 1 < UINT_MOD →
        (∀ line ∈ (dataLines lines).take (datasizeOf for_gpu lines),
          (StringTokenizer line ",").length ≤ featuresSizeOf StringTokenizer lines) →
        (convert StringTokenizer for_gpu inputFilename outputFilename lines).termination
          = .exit 0) := by
  by_cases hloop : featuresSizeOf StringTokenizer lines + 1 < UINT_MOD
  · obtain ⟨hdle, hdlt⟩ := datasizeOf_le for_gpu lines
    obtain ⟨k, t, bytes, extra, hk, hkd, hlc, hrun, hgrid, hnofault, hrows⟩ :=
      encodePass_spec StringTokenizer (datasizeOf for_gpu lines) (limitMod16Of for_gpu lines)
        (featuresSizeOf StringTokenizer lines + 1) hloop (by omega) hdlt (dataLines lines)
        { tables := emptyTables (featuresSizeOf StringTokenizer lines + 1), featurePos := 0,
          lineCount := 0, grid := [], printed := [], fault := none }
        rfl (emptyTables_sized _) (by simp)
    have hconv : convert StringTokenizer for_gpu inputFilename outputFilename lines =
        { printed := (encodePass StringTokenizer (datasizeOf for_gpu lines)
            (limitMod16Of for_gpu lines)
            { tables := emptyTables (featuresSizeOf StringTokenizer lines + 1), featurePos := 0,
              lineCount := 0, grid := [], printed := [], fault := none } (dataLines lines)).printed,
          inputOpened := some inputFilename, outputOpened := some outputFilename,
          header := some (datasizeOf for_gpu lines, featuresSizeOf StringTokenizer lines),
          grid := (encodePass StringTokenizer (datasizeOf for_gpu lines)
            (limitMod16Of for_gpu lines)
            { tables := emptyTables (featuresSizeOf StringTokenizer lines + 1), featurePos := 0,
              lineCount := 0, grid := [], printed := [], fault := none } (dataLines lines)).grid,
          lineCount := (encodePass StringTokenizer (datasizeOf for_gpu lines)
            (limitMod16Of for_gpu lines)
            { tables := emptyTables (featuresSizeOf StringTokenizer lines + 1), featurePos := 0,
              lineCount := 0, grid := [], printed := [], fault := none } (dataLines lines)).lineCount,
          termination :=
            match (encodePass StringTokenizer (datasizeOf for_gpu lines)
              (limitMod16Of for_gpu lines)
              { tables := emptyTables (featuresSizeOf StringTokenizer lines + 1), featurePos := 0,
                lineCount := 0, grid := [], printed := [], fault := none }
              (dataLines lines)).fault with
            | some (index, size) => .outOfBounds index size
            | none => .exit 0 } := by
      unfold convert
      simp only [initTables_eq, if_pos hloop]
      rfl
    rw [hconv]
    generalize encodePass StringTokenizer (datasizeOf for_gpu lines) (limitMod16Of for_gpu lines)
      { tables := emptyTables (featuresSizeOf StringTokenizer lines + 1), featurePos := 0,
        lineCount := 0, grid := [], printed := [], fault := none } (dataLines lines) = p
      at hlc hgrid hnofault hrows
    simp only [Nat.zero_add, List.nil_append, Nat.sub_zero] at hlc hgrid hnofault hrows hkd
    refine ⟨t, bytes, extra, by simp only [hlc]; exact hkd, ?_, hgrid, ?_, ?_⟩
    · simp only [Result.processed, hlc]
      exact hrun
    · intro hterm
      have hfault : p.fault = none := by
        cases hpf : p.fault with
        | none => rfl
        | some f => simp [hpf] at hterm
      obtain ⟨h1, h2⟩ := hnofault hfault
      refine ⟨h1, ?_⟩
      simp only [hlc, h2]
      omega
    · intro _ hfit
      have hfault : p.fault = none := hrows (fun line hl => by
        have := hfit line hl
        omega)
      simp only [hfault]
  · have hconv : convert StringTokenizer for_gpu inputFilename outputFilename lines =
        { printed := [], inputOpened := some inputFilename, outputOpened := some outputFilename,
          header := some (datasizeOf for_gpu lines, featuresSizeOf StringTokenizer lines),
          grid := [], lineCount := 0, termination := .initLoopForever } := by
      unfold convert
      simp only [initTables_eq, if_neg hloop]
    rw [hconv]
    refine ⟨emptyTables (featuresSizeOf StringTokenizer lines + 1), [], [], by simp, ?_, rfl,
      ?_, ?_⟩
    · simp [Result.processed, passSteps, encodeSteps]
    · intro h
      cases h
    · intro h
      exact absurd h hloop

/-! ## Positions in the grid and columns of the input -/

theorem stepsFrom_getElem? (q : Nat) (tokens : List String) (j0 : Nat)
    (h : j0 < tokens.length) :
    (stepsFrom q tokens)[j0]? = some (q + j0 + 1, tokens.getD j0 "") := by
  induction tokens generalizing q j0 with
  | nil => simp at h
  | cons token rest ih =>
    cases j0 with
    | zero => simp [stepsFrom]
    | succ j0 =>
      simp only [List.length_cons] at h
      simp only [stepsFrom, List.getElem?_cons_succ, List.getD_cons_succ]
      rw [ih (q + 1) j0 (by omega)]
      congr 2
      omega

theorem mem_passSteps (StringTokenizer : String → String → List String) (rows : List String)
    (x : Nat × String) (h : x ∈ passSteps StringTokenizer rows) :
    ∃ line ∈ rows, 1 ≤ x.1 ∧ x.1 ≤ (StringTokenizer line ",").length := by
  induction rows with
  | nil => simp [passSteps] at h
  | cons line rest ih =>
    simp only [passSteps, List.mem_append] at h
    rcases h with h | h
    · have := mem_stepsFrom 0 _ x h
      exact ⟨line, List.mem_cons_self _ _, by omega, by omega⟩
    · obtain ⟨l, hl, h1, h2⟩ := ih h
      exact ⟨l, List.mem_cons_of_mem _ hl, h1, h2⟩

theorem passSteps_append (StringTokenizer : String → String → List String)
    (xs ys : List String) :
    passSteps StringTokenizer (xs ++ ys) =
      passSteps StringTokenizer xs ++ passSteps StringTokenizer ys := by
  induction xs with
  | nil => simp [passSteps]
  | cons x xs ih => simp [passSteps, ih]

theorem length_passSteps (StringTokenizer : String → String → List String) (f : Nat)
    (rows : List String) (hrows : ∀ line ∈ rows, (StringTokenizer line ",").length = f) :
    (passSteps StringTokenizer rows).length = rows.length * f := by
  induction rows with
  | nil => simp [passSteps]
  | cons line rest ih =>
    simp only [passSteps, List.length_append, length_stepsFrom, List.length_cons]
    rw [ih (fun l hl => hrows l (List.mem_cons_of_mem _ hl)), hrows line (List.mem_cons_self _ _)]
    rw [Nat.add_mul, Nat.one_mul, Nat.add_comm]

theorem passSteps_getElem? (StringTokenizer : String → String → List String) (f : Nat)
    (rows : List String) (hrows : ∀ line ∈ rows, (StringTokenizer line ",").length = f)
    (i j0 : Nat) (line : String) (hi : rows[i]? = some line) (hj : j0 < f) :
    (passSteps StringTokenizer rows)[i * f + j0]? =
      some (j0 + 1, cell StringTokenizer line (j0 + 1)) := by
  induction rows generalizing i with
  | nil => simp at hi
  | cons row rest ih =>
    have hlen : (stepsFrom 0 (StringTokenizer row ",")).length = f := by
      rw [length_stepsFrom, hrows row (List.mem_cons_self _ _)]
    cases i with
    | zero =>
      simp only [List.getElem?_cons_zero, Option.some.injEq] at hi
      subst hi
      simp only [passSteps, Nat.zero_mul, Nat.zero_add]
      rw [List.getElem?_append_left (by omega),
        stepsFrom_getElem? 0 _ j0 (by rw [hrows row (List.mem_cons_self _ _)]; exact hj)]
      simp [cell]
    | succ i =>
      simp only [List.getElem?_cons_succ] at hi
      simp only [passSteps]
      rw [List.getElem?_append_right (by rw [hlen, Nat.succ_mul]; omega), hlen]
      have e : (i + 1) * f + j0 - f = i * f + j0 := by
        rw [Nat.succ_mul]
        omega
      rw [e]
      exact ih (fun l hl => hrows l (List.mem_cons_of_mem _ hl)) i hi

theorem colTokens_stepsFrom_of_le (q : Nat) (tokens : List String) (j : Nat) (h : j ≤ q) :
    colTokens (stepsFrom q tokens) j = [] := by
  unfold colTokens
  rw [List.map_eq_nil_iff, List.filter_eq_nil_iff]
  intro x hx
  have := mem_stepsFrom q tokens x hx
  simp only [decide_eq_true_eq]
  omega

theorem colTokens_stepsFrom (q : Nat) (tokens : List String) (j : Nat) (h1 : q < j)
    (h2 : j ≤ q + tokens.length) :
    colTokens (stepsFrom q tokens) j = [tokens.getD (j - q - 1) ""] := by
  induction tokens generalizing q with
  | nil => simp at h2; omega
  | cons token rest ih =>
    simp only [List.length_cons] at h2
    by_cases e : j = q + 1
    · subst e
      have hrest := colTokens_stepsFrom_of_le (q + 1) rest (q + 1) (Nat.le_refl _)
      have hsplit : colTokens (stepsFrom q (token :: rest)) (q + 1) =
          token :: colTokens (stepsFrom (q + 1) rest) (q + 1) := by
        simp [stepsFrom, colTokens]
      rw [hsplit, hrest]
      simp
    · have hsplit : colTokens (stepsFrom q (token :: rest)) j =
          colTokens (stepsFrom (q + 1) rest) j := by
        have : ¬ q + 1 = j := fun h => e h.symm
        simp [stepsFrom, colTokens, this]
      rw [hsplit, ih (q + 1) (by omega) (by omega)]
      have e2 : j - q - 1 = (j - (q + 1) - 1) + 1 := by omega
      rw [e2, List.getD_cons_succ]

theorem colTokens_passSteps (StringTokenizer : String → String → List String)
    (rows : List String) (j : Nat) (h1 : 1 ≤ j)
    (hrows : ∀ line ∈ rows, j ≤ (StringTokenizer line ",").length) :
    colTokens (passSteps StringTokenizer rows) j = column StringTokenizer rows j := by
  induction rows with
  | nil => simp [passSteps, colTokens, column]
  | cons line rest ih =>
    simp only [passSteps, colTokens_append, column, List.map_cons]
    rw [colTokens_stepsFrom 0 _ j (by omega)
      (by have := hrows line (List.mem_cons_self _ _); omega),
      ih (fun l hl => hrows l (List.mem_cons_of_mem _ hl))]
    simp [column, cell]

/-- Bytes of a sequence of encode steps from empty tables, in terms of the whole sequence. -/
theorem encodeSteps_bytes (n : Nat) (steps : List (Nat × String))
    (hsteps : ∀ x ∈ steps, x.1 < n) :
    ∃ t bytes, encodeSteps (emptyTables n) steps = some (t, bytes) ∧ TablesFor n steps t ∧
      bytes.length = steps.length ∧
      ∀ (i p : Nat) (token : String), steps[i]? = some (p, token) →
        bytes[i]? = some (distinctBefore (colTokens steps p) token % BYTE_MOD) := by
  obtain ⟨t, bytes, hrun, htab, hlen, hbytes⟩ :=
    encodeSteps_spec n [] (emptyTables n) (tablesFor_emptyTables n) steps hsteps
  refine ⟨t, bytes, hrun, by simpa using htab, hlen, ?_⟩
  intro i p token hi
  rw [hbytes i p token hi, List.nil_append]
  have hmem : token ∈ colTokens (steps.take (i + 1)) p := by
    apply mem_colTokens_of_getElem? _ i
    rw [List.getElem?_take_of_lt (by omega)]
    exact hi
  have hsplit : colTokens steps p =
      colTokens (steps.take (i + 1)) p ++ colTokens (steps.drop (i + 1)) p := by
    rw [← colTokens_append, List.take_append_drop]
  rw [hsplit, distinctBefore_append_of_mem _ _ _ hmem]

/-! ## The grid of a run -/

/-- Every byte of a completely encoded line is the number of distinct tokens seen before
in its column, modulo 256, when the completely encoded lines have `featuresSize` tokens. -/
theorem convert_grid_code (StringTokenizer : String → String → List String) (for_gpu : Bool)
    (inputFilename outputFilename : String) (lines : List String) (f : Nat)
    (hf : featuresSizeOf StringTokenizer lines = f)
    (hrows : ∀ line ∈
        (convert StringTokenizer for_gpu inputFilename outputFilename lines).processed lines,
      (StringTokenizer line ",").length = f)
    (i j : Nat) (line : String)
    (hi : ((convert StringTokenizer for_gpu inputFilename outputFilename lines).processed
      lines)[i]? = some line)
    (h1 : 1 ≤ j) (h2 : j ≤ f) :
    (convert StringTokenizer for_gpu inputFilename outputFilename lines).grid[i * f + (j - 1)]? =
      some (distinctBefore
        (column StringTokenizer
          ((convert StringTokenizer for_gpu inputFilename outputFilename lines).processed lines) j)
        (cell StringTokenizer line j) % BYTE_MOD) := by
  obtain ⟨t, bytes, extra, -, hrun, hgrid, -, -⟩ :=
    convert_spec StringTokenizer for_gpu inputFilename outputFilename lines
  generalize (convert StringTokenizer for_gpu inputFilename outputFilename lines).processed lines
    = rows at hrows hi hrun
  rw [hf] at hrun
  obtain ⟨t', bytes', hrun', -, -, hbytes⟩ :=
    encodeSteps_bytes (f + 1) (passSteps StringTokenizer rows) (fun x hx => by
      obtain ⟨l, hl, -, hle⟩ := mem_passSteps StringTokenizer rows x hx
      rw [hrows l hl] at hle
      omega)
  rw [hrun] at hrun'
  simp only [Option.some.injEq, Prod.mk.injEq] at hrun'
  obtain ⟨-, rfl⟩ := hrun'
  have hstep := passSteps_getElem? StringTokenizer f rows hrows i (j - 1) line hi (by omega)
  have hj : j - 1 + 1 = j := by omega
  rw [hj] at hstep
  have hb := hbytes _ _ _ hstep
  rw [colTokens_passSteps StringTokenizer rows j h1
    (fun l hl => by rw [hrows l hl]; exact h2)] at hb
  have hlt : i * f + (j - 1) < bytes.length := (List.getElem?_eq_some_iff.mp hb).1
  rw [hgrid, List.getElem?_append_left hlt, hb]

theorem mem_column_of_getElem? (StringTokenizer : String → String → List String)
    (rows : List String) (i j : Nat) (line : String) (hi : rows[i]? = some line) :
    cell StringTokenizer line j ∈ column StringTokenizer rows j := by
  unfold column
  exact List.mem_map.mpr ⟨line, List.getElem?_mem hi, rfl⟩

theorem main_featureCount (StringTokenizer : String → String → List String)
    (openInput : String → Option (List String)) (argv lines : List String)
    (h : Converts openInput argv lines) :
    (main StringTokenizer openInput argv).featureCount =
      some (featuresSizeOf StringTokenizer lines) := by
  rw [main_of_converts _ _ _ _ h, Result.featureCount, convert_header]
  rfl

theorem main_rowCount (StringTokenizer : String → String → List String)
    (openInput : String → Option (List String)) (argv lines : List String)
    (h : Converts openInput argv lines) :
    (main StringTokenizer openInput argv).rowCount =
      some (datasizeOf (cmdOptionExists (InputParser argv) "--gpu") lines) := by
  rw [main_of_converts _ _ _ _ h, Result.rowCount, convert_header]
  rfl

/-! ## Inputs too large for a `uint` -/

theorem converts_onlyFile_argvPlain (lines : List String) :
    Converts (onlyFile lines) argvPlain lines := by
  have e : getCmdOption (InputParser argvPlain) "-f" = "in.csv" := by decide
  refine ⟨by decide, by decide, by decide, ?_⟩
  rw [e]
  simp [onlyFile]

theorem converts_onlyFile_argvGpu (lines : List String) :
    Converts (onlyFile lines) argvGpu lines := by
  have e : getCmdOption (InputParser argvGpu) "-f" = "in.csv" := by decide
  refine ⟨by decide, by decide, by decide, ?_⟩
  rw [e]
  simp [onlyFile]

theorem length_splitAt_manyFields (n : Nat) : (splitAt ',' (manyFields n)).length = n + 1 := by
  induction n with
  | zero => decide
  | succ n ih =>
    have hstep : splitAt ',' (manyFields (n + 1)) =
        ['a'] :: splitAt ',' (manyFields n) := by
      simp [manyFields, splitAt]
    rw [hstep, List.length_cons, ih]

theorem length_tokenize_manyFields (n : Nat) :
    (tokenize (String.mk (manyFields n)) ",").length = n + 1 := by
  have hd : ",".data = [','] := rfl
  unfold tokenize
  rw [hd]
  simp only [List.length_map]
  exact length_splitAt_manyFields n

theorem length_dataLines_hugeInput : (dataLines hugeInput).length = 4294967296 := by
  unfold dataLines hugeInput
  rw [List.tail_cons, List.length_replicate]

theorem length_tokenize_wideInput :
    (tokenize (wideInput.headD "") ",").length = 4294967296 := by
  have e : wideInput.headD "" = String.mk (manyFields 4294967295) := by
    unfold wideInput
    rw [List.headD_cons]
  rw [e, length_tokenize_manyFields]

theorem convert_of_loop_forever (StringTokenizer : String → String → List String)
    (for_gpu : Bool) (inputFilename outputFilename : String) (lines : List String)
    (hloop : ¬ featuresSizeOf StringTokenizer lines + 1 < UINT_MOD) :
    convert StringTokenizer for_gpu inputFilename outputFilename lines =
      { printed := [], inputOpened := some inputFilename, outputOpened := some outputFilename,
        header := some (datasizeOf for_gpu lines, featuresSizeOf StringTokenizer lines),
        grid := [], lineCount := 0, termination := .initLoopForever } := by
  unfold convert
  simp only [initTables_eq, if_neg hloop]

theorem featuresSizeOf_maxWidthInput : featuresSizeOf tokenize maxWidthInput = 4294967295 := by
  have e : maxWidthInput.headD "" = String.mk (manyFields 4294967294) := by
    unfold maxWidthInput
    rw [List.headD_cons]
  rw [featuresSizeOf_eq, e, length_tokenize_manyFields]
  unfold UINT_MOD
  norm_num

theorem dataLines_maxWidthInput :
    dataLines maxWidthInput = [String.mk (manyFields 4294967294)] := by
  unfold dataLines maxWidthInput
  rw [List.tail_cons]

/-! # The claims -/

/-- C1. In a run that reaches the conversion, if every processed data line yields exactly
`featureCount` tokens and no column has more than 256 distinct tokens, then the grid byte
of processed line `i` (from 0) and column `j` (from 1) is at position
`i * featureCount + (j - 1)` and equals the number of distinct tokens that occur in
column `j` before the first occurrence of the token of that cell. -/
theorem grid_byte_is_first_seen_rank (StringTokenizer : String → String → List String)
    (openInput : String → Option (List String)) (argv lines : List String)
    (h : Converts openInput argv lines) (f : Nat)
    (hf : (main StringTokenizer openInput argv).featureCount = some f)
    (hrows : ∀ line ∈ (main StringTokenizer openInput argv).processed lines,
      (StringTokenizer line ",").length = f)
    (h256 : ∀ j, 1 ≤ j → j ≤ f →
      distinctCount (column StringTokenizer
        ((main StringTokenizer openInput argv).processed lines) j) ≤ 256)
    (i j : Nat) (line : String)
    (hi : ((main StringTokenizer openInput argv).processed lines)[i]? = some line)
    (h1 : 1 ≤ j) (h2 : j ≤ f) :
    (main StringTokenizer openInput argv).grid[i * f + (j - 1)]? =
      some (distinctBefore
        (column StringTokenizer ((main StringTokenizer openInput argv).processed lines) j)
        (cell StringTokenizer line j)) := by
  rw [main_featureCount _ _ _ _ h] at hf
  simp only [Option.some.injEq] at hf
  rw [main_of_converts _ _ _ _ h] at hrows h256 hi ⊢
  rw [convert_grid_code StringTokenizer _ _ _ lines f hf hrows i j line hi h1 h2]
  have hlt := distinctBefore_lt_distinctCount _ _
    (mem_column_of_getElem? StringTokenizer _ i j line hi)
  have := h256 j h1 h2
  rw [Nat.mod_eq_of_lt (by unfold BYTE_MOD; omega)]

set_option maxRecDepth 100000 in
/-- Scenario A: header `(3, 3)`, grid `[0,0,0, 1,0,1, 0,1,0]`, and the byte of the second
data line in the first column at position `1 * 3 + 0`. -/
theorem grid_byte_is_first_seen_rank_witness :
    (main tokenize (onlyFile scenarioA) argvPlain).header = some (3, 3) ∧
    (main tokenize (onlyFile scenarioA) argvPlain).grid = [0, 0, 0, 1, 0, 1, 0, 1, 0] ∧
    (main tokenize (onlyFile scenarioA) argvPlain).processed scenarioA
      = ["x,1,p", "y,1,q", "x,2,p"] ∧
    distinctBefore (column tokenize ["x,1,p", "y,1,q", "x,2,p"] 1) (cell tokenize "y,1,q" 1) = 1 ∧
    (main tokenize (onlyFile scenarioA) argvPlain).grid[1 * 3 + (1 - 1)]? =
      some (distinctBefore
        (column tokenize ((main tokenize (onlyFile scenarioA) argvPlain).processed scenarioA) 1)
        (cell tokenize "y,1,q" 1)) :=
  ⟨by decide, by decide, by decide, by decide,
    grid_byte_is_first_seen_rank tokenize (onlyFile scenarioA) argvPlain scenarioA (by decide) 3
      (by decide) (by decide)
      (fun j h1 h2 => by
        have hj : j = 1 ∨ j = 2 ∨ j = 3 := by omega
        rcases hj with rfl | rfl | rfl <;> decide)
      1 1 "y,1,q" (by decide) (by decide) (by decide)⟩

/-- C2, as stated, fails.  With header `a,b` and the data line `x` the header is `(1, 2)`
and 9 bytes are written, not `8 + 1 * 2`.  With a header line and a data line of
`2^32 - 1` fields each, the header is `(1, 2^32 - 1)` and the run never leaves the
table initialisation: 8 bytes are written. -/
theorem bytesWritten_counterexample :
    (Converts (onlyFile raggedInput) argvPlain raggedInput ∧
      (main tokenize (onlyFile raggedInput) argvPlain).header = some (1, 2) ∧
      (main tokenize (onlyFile raggedInput) argvPlain).bytesWritten = 9 ∧
      (main tokenize (onlyFile raggedInput) argvPlain).bytesWritten ≠ 8 + 1 * 2) ∧
    (Converts (onlyFile maxWidthInput) argvPlain maxWidthInput ∧
      (main tokenize (onlyFile maxWidthInput) argvPlain).header = some (1, 4294967295) ∧
      (∀ line ∈ (dataLines maxWidthInput).take 1, (tokenize line ",").length = 4294967295) ∧
      (main tokenize (onlyFile maxWidthInput) argvPlain).termination = .initLoopForever ∧
      (main tokenize (onlyFile maxWidthInput) argvPlain).bytesWritten = 8 ∧
      (main tokenize (onlyFile maxWidthInput) argvPlain).bytesWritten
        ≠ 8 + 1 * 4294967295) := by
  refine ⟨by decide, ?_⟩
  have hgpu : cmdOptionExists (InputParser argvPlain) "--gpu" = false := by decide
  have hloop : ¬ featuresSizeOf tokenize maxWidthInput + 1 < UINT_MOD := by
    rw [featuresSizeOf_maxWidthInput]
    unfold UINT_MOD
    omega
  have hd : datasizeOf false maxWidthInput = 1 := by
    rw [datasizeOf_eq, dataLines_maxWidthInput]
    rfl
  have hmain := main_of_converts tokenize _ _ _ (converts_onlyFile_argvPlain maxWidthInput)
  rw [hgpu, convert_of_loop_forever tokenize _ _ _ _ hloop, hd,
    featuresSizeOf_maxWidthInput] at hmain
  refine ⟨converts_onlyFile_argvPlain maxWidthInput, ?_, ?_, ?_, ?_, ?_⟩
  · rw [hmain]
  · intro line hl
    rw [dataLines_maxWidthInput] at hl
    simp only [List.take_succ_cons, List.take_zero, List.mem_singleton] at hl
    rw [hl, length_tokenize_manyFields]
  · rw [hmain]
  · rw [hmain]
    rfl
  · rw [hmain]
    simp [Result.bytesWritten]

/-- C2, amended. In a run that reaches the conversion, with any flags, if the table
initialisation terminates (`featureCount` is not the largest `uint`) and each of the first
`rowCount` data lines yields exactly `featureCount` tokens, the number of bytes written is
`8 + rowCount * featureCount`. -/
theorem bytesWritten_eq (StringTokenizer : String → String → List String)
    (openInput : String → Option (List String)) (argv lines : List String)
    (h : Converts openInput argv lines) (rowCount featureCount : Nat)
    (hheader : (main StringTokenizer openInput argv).header = some (rowCount, featureCount))
    (hloop : featureCount + 1 < UINT_MOD)
    (hrows : ∀ line ∈ (dataLines lines).take rowCount,
      (StringTokenizer line ",").length = featureCount) :
    (main StringTokenizer openInput argv).bytesWritten = 8 + rowCount * featureCount := by
  rw [main_of_converts _ _ _ _ h] at hheader ⊢
  rw [convert_header] at hheader
  simp only [Option.some.injEq, Prod.mk.injEq] at hheader
  obtain ⟨hd, hfs⟩ := hheader
  obtain ⟨t, bytes, extra, -, hrun, hgrid, hexit, hfit⟩ :=
    convert_spec StringTokenizer (cmdOptionExists (InputParser argv) "--gpu")
      (getCmdOption (InputParser argv) "-f") (getCmdOption (InputParser argv) "-o") lines
  rw [hd, hfs] at hfit
  rw [hfs] at hrun
  rw [hd] at hexit
  have hterm := hfit hloop (fun line hl => Nat.le_of_eq (hrows line hl))
  obtain ⟨hextra, hlc⟩ := hexit hterm
  simp only [Result.processed, hlc] at hrun
  obtain ⟨t', bytes', hrun', -, hlen⟩ :=
    encodeSteps_sized (featureCount + 1) (emptyTables (featureCount + 1)) (emptyTables_sized _)
      (passSteps StringTokenizer ((dataLines lines).take rowCount)) (fun x hx => by
        obtain ⟨l, hl, -, hle⟩ := mem_passSteps StringTokenizer _ x hx
        rw [hrows l hl] at hle
        omega)
  rw [hrun] at hrun'
  simp only [Option.some.injEq, Prod.mk.injEq] at hrun'
  obtain ⟨-, rfl⟩ := hrun'
  rw [length_passSteps StringTokenizer featureCount _ hrows, List.length_take] at hlen
  have hle := (datasizeOf_le (cmdOptionExists (InputParser argv) "--gpu") lines).1
  rw [hd] at hle
  unfold Result.bytesWritten
  rw [convert_header, hgrid, hextra, List.append_nil, hlen, Nat.min_eq_left hle]

set_option maxRecDepth 100000 in
/-- Scenario A: 17 bytes, `8 + 3 * 3`. -/
theorem bytesWritten_eq_witness :
    Converts (onlyFile scenarioA) argvPlain scenarioA ∧
    (main tokenize (onlyFile scenarioA) argvPlain).header = some (3, 3) ∧
    (∀ line ∈ (dataLines scenarioA).take 3, (tokenize line ",").length = 3) ∧
    (main tokenize (onlyFile scenarioA) argvPlain).bytesWritten = 8 + 3 * 3 :=
  ⟨by decide, by decide, by decide,
    bytesWritten_eq tokenize (onlyFile scenarioA) argvPlain scenarioA (by decide) 3 3
      (by decide) (by decide) (by decide)⟩

/-- C3, as stated, fails.  With `--gpu`, header `a` and 16 data lines `x,y`, the header
announces 16 rows, but the second token of the first data line indexes the tables past
their end and no line is encoded completely.  With `--gpu` and `2^32` data lines the
`rowCount` of the header is 0, not `n - n mod 16`. -/
theorem gpu_rowCount_counterexample :
    (Converts (onlyFile overlongInput) argvGpu overlongInput ∧
      (dataLines overlongInput).length = 16 ∧
      (main tokenize (onlyFile overlongInput) argvGpu).header = some (16, 1) ∧
      (main tokenize (onlyFile overlongInput) argvGpu).lineCount = 0 ∧
      (main tokenize (onlyFile overlongInput) argvGpu).lineCount ≠ 16 ∧
      (main tokenize (onlyFile overlongInput) argvGpu).termination = .outOfBounds 2 2) ∧
    (Converts (onlyFile hugeInput) argvGpu hugeInput ∧
      (dataLines hugeInput).length - (dataLines hugeInput).length % 16 = 4294967296 ∧
      (main tokenize (onlyFile hugeInput) argvGpu).rowCount = some 0 ∧
      (main tokenize (onlyFile hugeInput) argvGpu).rowCount
        ≠ some ((dataLines hugeInput).length - (dataLines hugeInput).length % 16)) := by
  refine ⟨by decide, ?_⟩
  have hgpu : cmdOptionExists (InputParser argvGpu) "--gpu" = true := by decide
  have hrc : (main tokenize (onlyFile hugeInput) argvGpu).rowCount = some 0 := by
    rw [main_rowCount _ _ _ _ (converts_onlyFile_argvGpu hugeInput), hgpu, datasizeOf_eq,
      length_dataLines_hugeInput]
    simp only [if_true]
    unfold UINT_MOD
    norm_num
  refine ⟨converts_onlyFile_argvGpu hugeInput, ?_, hrc, ?_⟩
  · rw [length_dataLines_hugeInput]
  · rw [hrc, length_dataLines_hugeInput]
    simp

/-- C3, amended. With `--gpu`, for an input with `n` data lines, the `rowCount` of the
header is `n mod 2^32 - n mod 16`, which is `n - n mod 16` when `n < 2^32`, and is
divisible by 16.  If moreover the table initialisation terminates and none of the first
`rowCount` data lines yields more than `featureCount` tokens, the encoding pass encodes
exactly the first `rowCount` data lines: it ends normally, and the grid is the sequence of
bytes of the encode steps of these lines and of no other line. -/
theorem gpu_rowCount (StringTokenizer : String → String → List String)
    (openInput : String → Option (List String)) (argv lines : List String)
    (h : Converts openInput argv lines)
    (hgpu : cmdOptionExists (InputParser argv) "--gpu" = true) :
    ∃ rowCount featureCount,
      (main StringTokenizer openInput argv).header = some (rowCount, featureCount) ∧
      rowCount = (dataLines lines).length % UINT_MOD - (dataLines lines).length % 16 ∧
      ((dataLines lines).length < UINT_MOD →
        rowCount = (dataLines lines).length - (dataLines lines).length % 16) ∧
      rowCount % 16 = 0 ∧
      (featureCount + 1 < UINT_MOD →
        (∀ line ∈ (dataLines lines).take rowCount,
          (StringTokenizer line ",").length ≤ featureCount) →
        (main StringTokenizer openInput argv).termination = .exit 0 ∧
        (main StringTokenizer openInput argv).lineCount = rowCount ∧
        (main StringTokenizer openInput argv).processed lines = (dataLines lines).take rowCount ∧
        ∃ t, encodeSteps (emptyTables (featureCount + 1))
            (passSteps StringTokenizer ((dataLines lines).take rowCount))
          = some (t, (main StringTokenizer openInput argv).grid)) := by
  rw [main_of_converts _ _ _ _ h, hgpu]
  refine ⟨datasizeOf true lines, featuresSizeOf StringTokenizer lines, convert_header _ _ _ _ _,
    ?_, ?_, ?_, ?_⟩
  · rw [datasizeOf_eq]
    simp
  · intro hn
    rw [datasizeOf_eq, Nat.mod_eq_of_lt hn]
    simp
  · rw [datasizeOf_eq]
    simp only [if_true]
    unfold UINT_MOD
    omega
  · intro hloop hfit
    obtain ⟨t, bytes, extra, -, hrun, hgrid, hexit, hterm⟩ :=
      convert_spec StringTokenizer true (getCmdOption (InputParser argv) "-f")
        (getCmdOption (InputParser argv) "-o") lines
    have hok := hterm hloop hfit
    obtain ⟨hextra, hlc⟩ := hexit hok
    refine ⟨hok, hlc, by simp only [Result.processed, hlc], t, ?_⟩
    simp only [Result.processed, hlc] at hrun
    rw [hrun, hgrid, hextra, List.append_nil]

set_option maxRecDepth 100000 in
/-- Scenario B: the three data lines of Scenario A with `--gpu` give `rowCount` 0 and an
empty grid. -/
theorem gpu_rowCount_witness :
    Converts (onlyFile scenarioA) argvGpu scenarioA ∧
    cmdOptionExists (InputParser argvGpu) "--gpu" = true ∧
    (main tokenize (onlyFile scenarioA) argvGpu).header = some (0, 3) ∧
    (main tokenize (onlyFile scenarioA) argvGpu).grid = [] ∧
    ∃ rowCount featureCount,
      (main tokenize (onlyFile scenarioA) argvGpu).header = some (rowCount, featureCount) ∧
      rowCount = (dataLines scenarioA).length % UINT_MOD - (dataLines scenarioA).length % 16 ∧
      ((dataLines scenarioA).length < UINT_MOD →
        rowCount = (dataLines scenarioA).length - (dataLines scenarioA).length % 16) ∧
      rowCount % 16 = 0 ∧
      (featureCount + 1 < UINT_MOD →
        (∀ line ∈ (dataLines scenarioA).take rowCount,
          (tokenize line ",").length ≤ featureCount) →
        (main tokenize (onlyFile scenarioA) argvGpu).termination = .exit 0 ∧
        (main tokenize (onlyFile scenarioA) argvGpu).lineCount = rowCount ∧
        (main tokenize (onlyFile scenarioA) argvGpu).processed scenarioA
          = (dataLines scenarioA).take rowCount ∧
        ∃ t, encodeSteps (emptyTables (featureCount + 1))
            (passSteps tokenize ((dataLines scenarioA).take rowCount))
          = some (t, (main tokenize (onlyFile scenarioA) argvGpu).grid)) :=
  ⟨by decide, by decide, by decide, by decide,
    gpu_rowCount tokenize (onlyFile scenarioA) argvGpu scenarioA (by decide) (by decide)⟩

/-- C4, as stated, fails: without `--gpu`, an input with `2^32` data lines gets
`rowCount` 0 in the header, the counter `datasize` being a `uint`. -/
theorem rowCount_without_gpu_counterexample :
    Converts (onlyFile hugeInput) argvPlain hugeInput ∧
    cmdOptionExists (InputParser argvPlain) "--gpu" = false ∧
    (dataLines hugeInput).length = 4294967296 ∧
    (main tokenize (onlyFile hugeInput) argvPlain).rowCount = some 0 ∧
    (main tokenize (onlyFile hugeInput) argvPlain).rowCount
      ≠ some (dataLines hugeInput).length := by
  have hlen := length_dataLines_hugeInput
  have hgpu : cmdOptionExists (InputParser argvPlain) "--gpu" = false := by decide
  have hrc : (main tokenize (onlyFile hugeInput) argvPlain).rowCount = some 0 := by
    rw [main_rowCount _ _ _ _ (converts_onlyFile_argvPlain hugeInput), hgpu, datasizeOf_eq, hlen]
    simp only [Bool.false_eq_true, if_false]
    unfold UINT_MOD
    norm_num
  refine ⟨converts_onlyFile_argvPlain hugeInput, hgpu, hlen, hrc, ?_⟩
  rw [hrc, hlen]
  simp

/-- C4, amended. In a run that reaches the conversion without `--gpu`, the `rowCount` of
the header is the number of lines after the header line modulo `2^32`; it is that number
itself for an input with fewer than `2^32` data lines, in particular 0 for an input that
is empty or has only a header line. -/
theorem rowCount_without_gpu (StringTokenizer : String → String → List String)
    (openInput : String → Option (List String)) (argv lines : List String)
    (h : Converts openInput argv lines)
    (hgpu : cmdOptionExists (InputParser argv) "--gpu" = false) :
    (main StringTokenizer openInput argv).rowCount
      = some ((dataLines lines).length % UINT_MOD) ∧
    ((dataLines lines).length < UINT_MOD →
      (main StringTokenizer openInput argv).rowCount = some (dataLines lines).length) ∧
    (lines.length ≤ 1 → (main StringTokenizer openInput argv).rowCount = some 0) := by
  have hrc : (main StringTokenizer openInput argv).rowCount
      = some ((dataLines lines).length % UINT_MOD) := by
    rw [main_rowCount _ _ _ _ h, hgpu, datasizeOf_eq]
    simp
  refine ⟨hrc, ?_, ?_⟩
  · intro hn
    rw [hrc, Nat.mod_eq_of_lt hn]
  · intro hn
    have hz : (dataLines lines).length = 0 := by
      unfold dataLines
      rw [List.length_tail]
      omega
    rw [hrc, hz]
    rfl

set_option maxRecDepth 100000 in
/-- Scenario A has three data lines and `rowCount` 3. -/
theorem rowCount_without_gpu_witness :
    Converts (onlyFile scenarioA) argvPlain scenarioA ∧
    cmdOptionExists (InputParser argvPlain) "--gpu" = false ∧
    (dataLines scenarioA).length = 3 ∧
    (main tokenize (onlyFile scenarioA) argvPlain).rowCount = some 3 ∧
    ((main tokenize (onlyFile scenarioA) argvPlain).rowCount
      = some ((dataLines scenarioA).length % UINT_MOD) ∧
    ((dataLines scenarioA).length < UINT_MOD →
      (main tokenize (onlyFile scenarioA) argvPlain).rowCount
        = some (dataLines scenarioA).length) ∧
    (scenarioA.length ≤ 1 →
      (main tokenize (onlyFile scenarioA) argvPlain).rowCount = some 0)) :=
  ⟨by decide, by decide, by decide, by decide,
    rowCount_without_gpu tokenize (onlyFile scenarioA) argvPlain scenarioA (by decide)
      (by decide)⟩

/-- C5, as stated, fails: a first line with `2^32` comma-separated fields gets
`featureCount` 0 in the header, the counter `featuresSize` being a `uint`. -/
theorem featureCount_counterexample :
    Converts (onlyFile wideInput) argvPlain wideInput ∧
    (tokenize (wideInput.headD "") ",").length = 4294967296 ∧
    (main tokenize (onlyFile wideInput) argvPlain).featureCount = some 0 ∧
    (main tokenize (onlyFile wideInput) argvPlain).featureCount
      ≠ some (tokenize (wideInput.headD "") ",").length := by
  have hlen := length_tokenize_wideInput
  have hfc : (main tokenize (onlyFile wideInput) argvPlain).featureCount = some 0 := by
    rw [main_featureCount _ _ _ _ (converts_onlyFile_argvPlain wideInput), featuresSizeOf_eq,
      hlen]
    unfold UINT_MOD
    norm_num
  refine ⟨converts_onlyFile_argvPlain wideInput, hlen, hfc, ?_⟩
  rw [hfc, hlen]
  simp

/-- C5, amended. In a run that reaches the conversion, with or without `--gpu`, the
`featureCount` of the header is the number of tokens that the tokenizer yields for the
first line with delimiter `,`, modulo `2^32`; it is that number itself when the first
line has fewer than `2^32` fields.  No later line enters. -/
theorem featureCount_eq (StringTokenizer : String → String → List String)
    (openInput : String → Option (List String)) (argv lines : List String)
    (h : Converts openInput argv lines) :
    (main StringTokenizer openInput argv).featureCount
      = some ((StringTokenizer (lines.headD "") ",").length % UINT_MOD) ∧
    ((StringTokenizer (lines.headD "") ",").length < UINT_MOD →
      (main StringTokenizer openInput argv).featureCount
        = some (StringTokenizer (lines.headD "") ",").length) := by
  have hfc : (main StringTokenizer openInput argv).featureCount
      = some ((StringTokenizer (lines.headD "") ",").length % UINT_MOD) := by
    rw [main_featureCount _ _ _ _ h, featuresSizeOf_eq]
  refine ⟨hfc, ?_⟩
  intro hn
  rw [hfc, Nat.mod_eq_of_lt hn]

set_option maxRecDepth 100000 in
/-- Scenario A with `--gpu`: the header line `a,b,c` has three fields, `featureCount` is 3. -/
theorem featureCount_eq_witness :
    Converts (onlyFile scenarioA) argvGpu scenarioA ∧
    (tokenize (scenarioA.headD "") ",").length = 3 ∧
    ((main tokenize (onlyFile scenarioA) argvGpu).featureCount
      = some ((tokenize (scenarioA.headD "") ",").length % UINT_MOD) ∧
    ((tokenize (scenarioA.headD "") ",").length < UINT_MOD →
      (main tokenize (onlyFile scenarioA) argvGpu).featureCount
        = some (tokenize (scenarioA.headD "") ",").length)) :=
  ⟨by decide, by decide,
    featureCount_eq tokenize (onlyFile scenarioA) argvGpu scenarioA (by decide)⟩


/-! ## Columns of pairwise distinct tokens -/

theorem takeWhile_ne_of_nodup (l : List String) (hl : l.Nodup) (i : Nat) (token : String)
    (hi : l[i]? = some token) : l.takeWhile (fun x => decide (x ≠ token)) = l.take i := by
  induction l generalizing i with
  | nil => simp at hi
  | cons a l ih =>
    cases i with
    | zero =>
      simp only [List.getElem?_cons_zero, Option.some.injEq] at hi
      subst hi
      simp [List.takeWhile]
    | succ i =>
      simp only [List.getElem?_cons_succ] at hi
      have hne : a ≠ token := by
        intro e
        subst e
        exact (List.nodup_cons.mp hl).1 (List.getElem?_mem hi)
      have := ih (List.nodup_cons.mp hl).2 i hi
      simpa [List.takeWhile, hne] using this

theorem distinctBefore_of_nodup (l : List String) (hl : l.Nodup) (i : Nat) (token : String)
    (hi : l[i]? = some token) : distinctBefore l token = i := by
  unfold distinctBefore distinctCount
  rw [takeWhile_ne_of_nodup l hl i token hi,
    List.Nodup.dedup (List.Nodup.sublist (List.take_sublist i l) hl), List.length_take]
  have := (List.getElem?_eq_some_iff.mp hi).1
  omega

theorem distinctToken_injective : Function.Injective distinctToken := by
  intro a b h
  unfold distinctToken at h
  have h1 : List.replicate a 'z' = List.replicate b 'z' := by
    injection h
  have h2 := congrArg List.length h1
  simpa using h2

theorem colTokens_wrapSteps : colTokens wrapSteps 1 = (List.range 257).map distinctToken := by
  unfold colTokens wrapSteps
  rw [List.filter_eq_self.mpr (by simp), List.map_map]
  rfl

theorem nodup_colTokens_wrapSteps : (colTokens wrapSteps 1).Nodup := by
  rw [colTokens_wrapSteps]
  exact List.Nodup.map distinctToken_injective (List.nodup_range 257)

theorem wrapSteps_getElem? (i : Nat) (hi : i < 257) :
    wrapSteps[i]? = some (1, distinctToken i) := by
  unfold wrapSteps
  rw [List.getElem?_map, List.getElem?_range hi]
  rfl

theorem distinctBefore_wrapSteps (i : Nat) (hi : i < 257) :
    distinctBefore (colTokens wrapSteps 1) (distinctToken i) = i := by
  apply distinctBefore_of_nodup _ nodup_colTokens_wrapSteps
  rw [colTokens_wrapSteps, List.getElem?_map, List.getElem?_range hi]
  rfl

/-- C6. From the tables that the initialisation loop builds, after any sequence of encode
steps within the tables in which column `j` has seen `k ≤ 256` distinct tokens, the codes
stored in the map of column `j` are `0, ..., k - 1`, each exactly once, the keys are the
distinct tokens seen, each once, and the counter of column `j` is `k mod 256`. -/
theorem column_codes_contiguous (featuresSize : Nat) (t0 : Tables)
    (h0 : initTables featuresSize = some t0) (steps : List (Nat × String))
    (hsteps : ∀ x ∈ steps, x.1 ≤ featuresSize) (j : Nat) (hj : j ≤ featuresSize) (k : Nat)
    (hk : distinctCount (colTokens steps j) = k) (h256 : k ≤ 256) :
    ∃ t bytes m, encodeSteps t0 steps = some (t, bytes) ∧
      t.translationsVector[j]? = some m ∧
      (m.map Prod.snd).Perm (List.range k) ∧
      (m.map Prod.fst).Nodup ∧
      (∀ token, token ∈ m.map Prod.fst ↔ token ∈ colTokens steps j) ∧
      t.lastCategory[j]? = some (k % 256) := by
  obtain ⟨t, bytes, hrun, htab, -, -⟩ :=
    encodeSteps_spec (featuresSize + 1) [] t0 (tablesFor_initTables featuresSize t0 h0) steps
      (fun x hx => Nat.lt_succ_of_le (hsteps x hx))
  rw [List.nil_append] at htab
  obtain ⟨hm, hl⟩ := htab.2.2 j (Nat.lt_succ_of_le hj)
  refine ⟨t, bytes, _, hrun, hm, ?_, ?_, ?_, ?_⟩
  · rw [codeMapFrom_codes, length_firstSeen, hk, List.range_eq_range']
    have hid : (List.range' 0 k).map (fun c => c % BYTE_MOD) = (List.range' 0 k).map id := by
      apply List.map_congr_left
      intro c hc
      have := (List.mem_range'_1.mp hc).2
      exact Nat.mod_eq_of_lt (by unfold BYTE_MOD; omega)
    rw [hid, List.map_id]
  · rw [codeMapFrom_keys]
    exact nodup_firstSeen _
  · intro token
    rw [codeMapFrom_keys]
    exact mem_firstSeen _ token
  · rw [hl, hk]
    rfl

/-- Three encode steps in a table of one feature column: two distinct tokens, codes
`0, 1`, counter 2. -/
theorem column_codes_contiguous_witness :
    initTables 1 = some (emptyTables 2) ∧
    distinctCount (colTokens [(1, "x"), (1, "y"), (1, "x")] 1) = 2 ∧
    ∃ t bytes m, encodeSteps (emptyTables 2) [(1, "x"), (1, "y"), (1, "x")] = some (t, bytes) ∧
      t.translationsVector[1]? = some m ∧
      (m.map Prod.snd).Perm (List.range 2) ∧
      (m.map Prod.fst).Nodup ∧
      (∀ token, token ∈ m.map Prod.fst ↔ token ∈ colTokens [(1, "x"), (1, "y"), (1, "x")] 1) ∧
      t.lastCategory[1]? = some (2 % 256) :=
  ⟨by decide, by decide,
    column_codes_contiguous 1 (emptyTables 2) (by decide) [(1, "x"), (1, "y"), (1, "x")]
      (by decide) 1 (by decide) 2 (by decide) (by decide)⟩

/-- C7. From the tables that the initialisation loop builds, every sequence of encode
steps within the tables succeeds, whatever the number of distinct tokens, and the token of
a column that comes after `i` distinct other tokens receives the code `i mod 256`: after
256 distinct tokens the code is 0 again, the code of the first distinct token of the
column. -/
theorem code_wraps_modulo_256 (featuresSize : Nat) (t0 : Tables)
    (h0 : initTables featuresSize = some t0) (steps : List (Nat × String))
    (hsteps : ∀ x ∈ steps, x.1 ≤ featuresSize) :
    ∃ t bytes, encodeSteps t0 steps = some (t, bytes) ∧ bytes.length = steps.length ∧
      ∀ (i p : Nat) (token : String), steps[i]? = some (p, token) →
        bytes[i]? = some (distinctBefore (colTokens steps p) token % 256) ∧
        (distinctBefore (colTokens steps p) token = 256 →
          bytes[i]? = some 0 ∧
          ∀ (i0 : Nat) (first : String), steps[i0]? = some (p, first) →
            distinctBefore (colTokens steps p) first = 0 → bytes[i0]? = bytes[i]?) := by
  have ht0 : t0 = emptyTables (featuresSize + 1) := by
    rw [initTables_eq] at h0
    split at h0
    · exact (Option.some.inj h0).symm
    · cases h0
  obtain ⟨t, bytes, hrun, -, hlen, hbytes⟩ :=
    encodeSteps_bytes (featuresSize + 1) steps (fun x hx => Nat.lt_succ_of_le (hsteps x hx))
  rw [← ht0] at hrun
  refine ⟨t, bytes, hrun, hlen, ?_⟩
  intro i p token hi
  have hb := hbytes i p token hi
  refine ⟨hb, ?_⟩
  intro h256
  have hzero : bytes[i]? = some 0 := by
    rw [hb, h256]
    rfl
  refine ⟨hzero, ?_⟩
  intro i0 first hi0 hfirst
  rw [hzero, hbytes i0 p first hi0, hfirst]
  rfl

/-- A column of 257 pairwise distinct tokens: the first and the 257th both receive code 0,
the 256th receives code 255. -/
theorem code_wraps_modulo_256_witness :
    initTables 1 = some (emptyTables 2) ∧
    distinctBefore (colTokens wrapSteps 1) (distinctToken 256) = 256 ∧
    ∃ t bytes, encodeSteps (emptyTables 2) wrapSteps = some (t, bytes) ∧
      bytes[0]? = some 0 ∧ bytes[255]? = some 255 ∧ bytes[256]? = some 0 := by
  refine ⟨by decide, distinctBefore_wrapSteps 256 (by omega), ?_⟩
  obtain ⟨t, bytes, hrun, -, hb⟩ :=
    code_wraps_modulo_256 1 (emptyTables 2) (by decide) wrapSteps (fun x hx => by
      unfold wrapSteps at hx
      obtain ⟨i, -, rfl⟩ := List.mem_map.mp hx
      exact Nat.le_refl 1)
  refine ⟨t, bytes, hrun, ?_, ?_, ?_⟩
  · rw [(hb 0 1 (distinctToken 0) (wrapSteps_getElem? 0 (by omega))).1,
      distinctBefore_wrapSteps 0 (by omega)]
  · rw [(hb 255 1 (distinctToken 255) (wrapSteps_getElem? 255 (by omega))).1,
      distinctBefore_wrapSteps 255 (by omega)]
  · exact ((hb 256 1 (distinctToken 256) (wrapSteps_getElem? 256 (by omega))).2
      (distinctBefore_wrapSteps 256 (by omega))).1

/-! ## Command line and input errors -/

theorem getCmdOption_of_not_mem (tokens : List String) (option : String)
    (h : option ∉ tokens) : getCmdOption tokens option = "" := by
  have hdrop : tokens.dropWhile (fun t => decide (t ≠ option)) = [] := by
    rw [List.dropWhile_eq_nil_iff]
    intro x hx
    have : x ≠ option := fun e => h (e ▸ hx)
    simpa using this
  unfold getCmdOption
  rw [hdrop]

theorem main_of_unopenable (StringTokenizer : String → String → List String)
    (openInput : String → Option (List String)) (argv : List String)
    (hh : cmdOptionExists (InputParser argv) "-h" = false)
    (hf : getCmdOption (InputParser argv) "-f" ≠ "")
    (ho : getCmdOption (InputParser argv) "-o" ≠ "")
    (hopen : openInput (getCmdOption (InputParser argv) "-f") = none) :
    main StringTokenizer openInput argv =
      { printed := [errorLoadingText],
        inputOpened := some (getCmdOption (InputParser argv) "-f"),
        outputOpened := some (getCmdOption (InputParser argv) "-o"),
        header := none, grid := [], lineCount := 0, termination := .exit (-1) } := by
  unfold main
  simp only [hh, hf, ho, hopen, Bool.false_eq_true, if_false, or_self]

/-- C8. For every argument list in which `-f` or `-o` does not occur after the program
name, the run prints the usage text last, ends with the non-zero exit code `-1`, and
constructs neither the input stream nor the output stream: no file is opened or created
and nothing is written. -/
theorem usage_when_option_missing (StringTokenizer : String → String → List String)
    (openInput : String → Option (List String)) (argv : List String)
    (h : "-f" ∉ InputParser argv ∨ "-o" ∉ InputParser argv) :
    (∃ before, (main StringTokenizer openInput argv).printed = before ++ helpText) ∧
    (∃ code, (main StringTokenizer openInput argv).termination = .exit code ∧ code ≠ 0) ∧
    (main StringTokenizer openInput argv).inputOpened = none ∧
    (main StringTokenizer openInput argv).outputOpened = none ∧
    (main StringTokenizer openInput argv).header = none ∧
    (main StringTokenizer openInput argv).grid = [] := by
  have hempty : getCmdOption (InputParser argv) "-f" = "" ∨
      getCmdOption (InputParser argv) "-o" = "" := by
    rcases h with h | h
    · exact Or.inl (getCmdOption_of_not_mem _ _ h)
    · exact Or.inr (getCmdOption_of_not_mem _ _ h)
  by_cases hh : cmdOptionExists (InputParser argv) "-h" = true
  · have hmain : main StringTokenizer openInput argv = print_help [] := by
      unfold main
      simp only [hh, if_true]
    rw [hmain]
    exact ⟨⟨[], rfl⟩, ⟨-1, rfl, by decide⟩, rfl, rfl, rfl, rfl⟩
  · have hmain : main StringTokenizer openInput argv = print_help [missingFilenamesText] := by
      unfold main
      simp only [hh, Bool.false_eq_true, if_false]
      rw [if_pos hempty]
    rw [hmain]
    exact ⟨⟨[missingFilenamesText], rfl⟩, ⟨-1, rfl, by decide⟩, rfl, rfl, rfl, rfl⟩

/-- Scenario C: `-o` is missing; usage text, exit code `-1`, no stream constructed. -/
theorem usage_when_option_missing_witness :
    ("-f" ∉ InputParser argvNoOutput ∨ "-o" ∉ InputParser argvNoOutput) ∧
    (main tokenize (onlyFile scenarioA) argvNoOutput).printed
      = missingFilenamesText :: helpText ∧
    (main tokenize (onlyFile scenarioA) argvNoOutput).termination = .exit (-1) ∧
    ((∃ before, (main tokenize (onlyFile scenarioA) argvNoOutput).printed
      = before ++ helpText) ∧
    (∃ code, (main tokenize (onlyFile scenarioA) argvNoOutput).termination = .exit code ∧
      code ≠ 0) ∧
    (main tokenize (onlyFile scenarioA) argvNoOutput).inputOpened = none ∧
    (main tokenize (onlyFile scenarioA) argvNoOutput).outputOpened = none ∧
    (main tokenize (onlyFile scenarioA) argvNoOutput).header = none ∧
    (main tokenize (onlyFile scenarioA) argvNoOutput).grid = []) :=
  ⟨by decide, by decide, by decide,
    usage_when_option_missing tokenize (onlyFile scenarioA) argvNoOutput (by decide)⟩

/-- C9. When `-h` is absent, `-f` and `-o` both have a value, and the input path cannot
be opened for reading, the run prints the diagnostic `Error loading file.`, ends with the
non-zero exit code `-1`, and has written no header and no grid byte. -/
theorem error_when_input_unopenable (StringTokenizer : String → String → List String)
    (openInput : String → Option (List String)) (argv : List String)
    (hh : cmdOptionExists (InputParser argv) "-h" = false)
    (hf : getCmdOption (InputParser argv) "-f" ≠ "")
    (ho : getCmdOption (InputParser argv) "-o" ≠ "")
    (hopen : openInput (getCmdOption (InputParser argv) "-f") = none) :
    (main StringTokenizer openInput argv).printed = [errorLoadingText] ∧
    (∃ code, (main StringTokenizer openInput argv).termination = .exit code ∧ code ≠ 0) ∧
    (main StringTokenizer openInput argv).header = none ∧
    (main StringTokenizer openInput argv).grid = [] ∧
    (main StringTokenizer openInput argv).bytesWritten = 0 := by
  rw [main_of_unopenable StringTokenizer openInput argv hh hf ho hopen]
  exact ⟨rfl, ⟨-1, rfl, by decide⟩, rfl, rfl, rfl⟩

/-- No path can be opened: diagnostic, exit code `-1`, nothing written. -/
theorem error_when_input_unopenable_witness :
    cmdOptionExists (InputParser argvPlain) "-h" = false ∧
    getCmdOption (InputParser argvPlain) "-f" = "in.csv" ∧
    getCmdOption (InputParser argvPlain) "-o" = "out.bin" ∧
    noFile "in.csv" = none ∧
    ((main tokenize noFile argvPlain).printed = [errorLoadingText] ∧
    (∃ code, (main tokenize noFile argvPlain).termination = .exit code ∧ code ≠ 0) ∧
    (main tokenize noFile argvPlain).header = none ∧
    (main tokenize noFile argvPlain).grid = [] ∧
    (main tokenize noFile argvPlain).bytesWritten = 0) :=
  ⟨by decide, by decide, by decide, rfl,
    error_when_input_unopenable tokenize noFile argvPlain (by decide) (by decide) (by decide)
      rfl⟩

/-- C10, as stated, fails: with no readable input, an output file that held the bytes
`1, 2, 3` is empty after the run, and an absent output file exists after the run. -/
theorem output_path_counterexample :
    noFile (getCmdOption (InputParser argvPlain) "-f") = none ∧
    (main tokenize noFile argvPlain).termination = .exit (-1) ∧
    (main tokenize noFile argvPlain).outputOpened = some "out.bin" ∧
    (main tokenize noFile argvPlain).outputFileAfter littleEndian (.content [1, 2, 3])
      = .content [] ∧
    (main tokenize noFile argvPlain).outputFileAfter littleEndian (.content [1, 2, 3])
      ≠ .content [1, 2, 3] ∧
    (main tokenize noFile argvPlain).outputFileAfter littleEndian .absent ≠ .absent := by
  decide

/-- C10, amended. When `-h` is absent, `-f` and `-o` both have a value, and the input path
cannot be opened, the run ends with a non-zero exit code and writes no byte, but the
output stream has been constructed on the `-o` path before the input stream is tested:
whatever was at the output path, afterwards there is an empty file. -/
theorem output_path_truncated (StringTokenizer : String → String → List String)
    (openInput : String → Option (List String)) (argv : List String)
    (hh : cmdOptionExists (InputParser argv) "-h" = false)
    (hf : getCmdOption (InputParser argv) "-f" ≠ "")
    (ho : getCmdOption (InputParser argv) "-o" ≠ "")
    (hopen : openInput (getCmdOption (InputParser argv) "-f") = none) :
    (∃ code, (main StringTokenizer openInput argv).termination = .exit code ∧ code ≠ 0) ∧
    (main StringTokenizer openInput argv).bytesWritten = 0 ∧
    (main StringTokenizer openInput argv).outputOpened
      = some (getCmdOption (InputParser argv) "-o") ∧
    ∀ (uintBytes : Nat → List Nat) (before : FileState),
      (main StringTokenizer openInput argv).outputFileAfter uintBytes before = .content [] := by
  rw [main_of_unopenable StringTokenizer openInput argv hh hf ho hopen]
  exact ⟨⟨-1, rfl, by decide⟩, rfl, rfl, fun _ _ => rfl⟩

/-- No path can be opened: the output path `out.bin` holds an empty file afterwards. -/
theorem output_path_truncated_witness :
    cmdOptionExists (InputParser argvPlain) "-h" = false ∧
    getCmdOption (InputParser argvPlain) "-f" ≠ "" ∧
    getCmdOption (InputParser argvPlain) "-o" = "out.bin" ∧
    noFile (getCmdOption (InputParser argvPlain) "-f") = none ∧
    ((∃ code, (main tokenize noFile argvPlain).termination = .exit code ∧ code ≠ 0) ∧
    (main tokenize noFile argvPlain).bytesWritten = 0 ∧
    (main tokenize noFile argvPlain).outputOpened
      = some (getCmdOption (InputParser argvPlain) "-o") ∧
    ∀ (uintBytes : Nat → List Nat) (before : FileState),
      (main tokenize noFile argvPlain).outputFileAfter uintBytes before = .content []) :=
  ⟨by decide, by decide, by decide, rfl,
    output_path_truncated tokenize noFile argvPlain (by decide) (by decide) (by decide) rfl⟩

/-- C11. For every argument list that contains `-h` after the program name, whatever the
other arguments and whatever the file system, the run prints the usage text and nothing
else, ends with the non-zero exit code `-1`, and constructs neither the input stream nor
the output stream. -/
theorem usage_when_help_requested (StringTokenizer : String → String → List String)
    (openInput : String → Option (List String)) (argv : List String)
    (h : "-h" ∈ InputParser argv) :
    (main StringTokenizer openInput argv).printed = helpText ∧
    (∃ code, (main StringTokenizer openInput argv).termination = .exit code ∧ code ≠ 0) ∧
    (main StringTokenizer openInput argv).inputOpened = none ∧
    (main StringTokenizer openInput argv).outputOpened = none ∧
    (main StringTokenizer openInput argv).header = none ∧
    (main StringTokenizer openInput argv).grid = [] := by
  have hh : cmdOptionExists (InputParser argv) "-h" = true := by
    unfold cmdOptionExists
    exact decide_eq_true h
  have hmain : main StringTokenizer openInput argv = print_help [] := by
    unfold main
    simp only [hh, if_true]
  rw [hmain]
  exact ⟨rfl, ⟨-1, rfl, by decide⟩, rfl, rfl, rfl, rfl⟩

set_option maxRecDepth 100000 in
/-- Valid `-f`, `-o` and `--gpu` with a readable input, and `-h` last: usage text only. -/
theorem usage_when_help_requested_witness :
    "-h" ∈ InputParser argvHelp ∧
    getCmdOption (InputParser argvHelp) "-f" = "in.csv" ∧
    getCmdOption (InputParser argvHelp) "-o" = "out.bin" ∧
    cmdOptionExists (InputParser argvHelp) "--gpu" = true ∧
    ((main tokenize (onlyFile scenarioA) argvHelp).printed = helpText ∧
    (∃ code, (main tokenize (onlyFile scenarioA) argvHelp).termination = .exit code ∧
      code ≠ 0) ∧
    (main tokenize (onlyFile scenarioA) argvHelp).inputOpened = none ∧
    (main tokenize (onlyFile scenarioA) argvHelp).outputOpened = none ∧
    (main tokenize (onlyFile scenarioA) argvHelp).header = none ∧
    (main tokenize (onlyFile scenarioA) argvHelp).grid = []) :=
  ⟨by decide, by decide, by decide, by decide,
    usage_when_help_requested tokenize (onlyFile scenarioA) argvHelp (by decide)⟩

/-! ## The encoding pass in closed form -/

theorem tokenAccesses_of_fault (s : Pass) (tokens : List String) (h : s.fault ≠ none) :
    tokenAccesses s tokens = [] := by
  cases tokens with
  | nil => rfl
  | cons token rest =>
    unfold tokenAccesses
    cases hf : s.fault with
    | none => exact absurd hf h
    | some f => rfl

theorem tokenAccesses_append (s : Pass) (xs ys : List String) :
    tokenAccesses s (xs ++ ys) =
      tokenAccesses s xs ++ tokenAccesses (xs.foldl encodeToken s) ys := by
  induction xs generalizing s with
  | nil => simp [tokenAccesses]
  | cons x xs ih =>
    cases hf : s.fault with
    | some f =>
      have hne : s.fault ≠ none := by simp [hf]
      rw [tokenAccesses_of_fault s _ hne, tokenAccesses_of_fault s _ hne,
        foldl_encodeToken_of_fault s _ hne, tokenAccesses_of_fault s _ hne]
      rfl
    | none =>
      simp only [List.cons_append, tokenAccesses, hf, List.foldl_cons, List.append_eq]
      rw [ih (encodeToken s x)]

theorem tokenAccesses_ok (s : Pass) (hf : s.fault = none) (tokens : List String)
    (hq : s.featurePos + tokens.length < UINT_MOD) (t : Tables) (bytes : List Nat)
    (hrun : encodeSteps s.tables (stepsFrom s.featurePos tokens) = some (t, bytes)) :
    tokenAccesses s tokens = (stepsFrom s.featurePos tokens).map Prod.fst := by
  induction tokens generalizing s t bytes with
  | nil => rfl
  | cons token rest ih =>
    simp only [stepsFrom, encodeSteps] at hrun
    simp only [List.length_cons] at hq
    cases henc : encode s.tables (s.featurePos + 1) token with
    | none => simp [henc] at hrun
    | some r =>
      obtain ⟨t1, data⟩ := r
      rw [henc] at hrun
      simp only [] at hrun
      cases hrest : encodeSteps t1 (stepsFrom (s.featurePos + 1) rest) with
      | none => simp [hrest] at hrun
      | some r2 =>
        obtain ⟨t2, bs⟩ := r2
        have hmod : (s.featurePos + 1) % UINT_MOD = s.featurePos + 1 :=
          Nat.mod_eq_of_lt (by omega)
        have hstep : encodeToken s token =
            { s with tables := t1, featurePos := s.featurePos + 1, grid := s.grid ++ [data] } := by
          unfold encodeToken
          rw [hf]
          simp only [hmod, henc]
        simp only [tokenAccesses, hf, hmod, hstep, stepsFrom, List.map_cons]
        rw [ih { tables := t1, featurePos := s.featurePos + 1, lineCount := s.lineCount,
                 grid := s.grid ++ [data], printed := s.printed, fault := none }
          rfl (by simp only []; omega) t2 bs hrest]

theorem foldl_encodeToken_stop (n : Nat) (hn : n < UINT_MOD) (s : Pass) (hf : s.fault = none)
    (hs : s.tables.Sized n) (hq : s.featurePos + 1 = n) (token : String) (rest : List String) :
    (token :: rest).foldl encodeToken s = { s with featurePos := n, fault := some (n, n) } ∧
    tokenAccesses s (token :: rest) = [n] := by
  have hmod : (s.featurePos + 1) % UINT_MOD = n := by
    rw [hq]
    exact Nat.mod_eq_of_lt hn
  have henc := encode_out_of_range n s.tables hs n (Nat.le_refl n) token
  have hstep : encodeToken s token = { s with featurePos := n, fault := some (n, n) } := by
    unfold encodeToken
    rw [hf]
    simp only [hmod, henc, hs.1]
  refine ⟨?_, ?_⟩
  · rw [List.foldl_cons, hstep, foldl_encodeToken_of_fault _ _ (by simp)]
  · simp only [tokenAccesses, hf, hmod, hstep]
    rw [tokenAccesses_of_fault _ _ (by simp)]

theorem foldl_encodeToken_line_stop (n : Nat) (hn : n < UINT_MOD) (hpos : 0 < n) (s : Pass)
    (hf : s.fault = none) (hs : s.tables.Sized n) (tokens : List String)
    (hlen : n ≤ tokens.length) :
    ∃ t bytes, encodeSteps s.tables (stepsFrom 0 (tokens.take (n - 1))) = some (t, bytes) ∧
      t.Sized n ∧
      tokens.foldl encodeToken { s with featurePos := 0 } =
        { s with tables := t, featurePos := n, grid := s.grid ++ bytes, fault := some (n, n) } ∧
      tokenAccesses { s with featurePos := 0 } tokens =
        (stepsFrom 0 (tokens.take (n - 1))).map Prod.fst ++ [n] := by
  have hd : tokens.drop (n - 1) ≠ [] := by
    intro h
    have := congrArg List.length h
    simp only [List.length_drop, List.length_nil] at this
    omega
  obtain ⟨x, xs, hx⟩ := List.exists_cons_of_ne_nil hd
  generalize hA : tokens.take (n - 1) = A
  have hAlen : A.length = n - 1 := by
    rw [← hA, List.length_take]
    omega
  have hsplit : tokens = A ++ x :: xs := by
    rw [← hA, ← hx, List.take_append_drop]
  obtain ⟨t, bytes, hrun, ht, -⟩ := encodeSteps_sized n s.tables hs (stepsFrom 0 A)
    (fun y hy => by
      have := mem_stepsFrom 0 A y hy
      omega)
  have hfold := foldl_encodeToken_ok { s with featurePos := 0 } hf A
    (by simp only []; omega) t bytes hrun
  have hacc := tokenAccesses_ok { s with featurePos := 0 } hf A
    (by simp only []; omega) t bytes hrun
  simp only [Nat.zero_add] at hfold hacc
  obtain ⟨hstop, haccStop⟩ := foldl_encodeToken_stop n hn
    { s with tables := t, featurePos := A.length, grid := s.grid ++ bytes } hf ht
    (by simp only []; omega) x xs
  refine ⟨t, bytes, hrun, ht, ?_, ?_⟩
  · rw [hsplit, List.foldl_append, hfold, hstop]
  · rw [hsplit, tokenAccesses_append, hfold, hacc, haccStop]

theorem encodeLine_stop (StringTokenizer : String → String → List String) (n : Nat)
    (hn : n < UINT_MOD) (hpos : 0 < n) (s : Pass) (hf : s.fault = none) (hs : s.tables.Sized n)
    (line : String) (hlen : n ≤ (StringTokenizer line ",").length) :
    ∃ t bytes,
      encodeSteps s.tables (stepsFrom 0 ((StringTokenizer line ",").take (n - 1)))
        = some (t, bytes) ∧
      t.Sized n ∧
      encodeLine StringTokenizer s line =
        { s with tables := t, featurePos := n, grid := s.grid ++ bytes, fault := some (n, n) } ∧
      tokenAccesses { s with featurePos := 0 } (StringTokenizer line ",") =
        (stepsFrom 0 ((StringTokenizer line ",").take (n - 1))).map Prod.fst ++ [n] := by
  obtain ⟨t, bytes, hrun, ht, hfold, hacc⟩ :=
    foldl_encodeToken_line_stop n hn hpos s hf hs (StringTokenizer line ",") hlen
  refine ⟨t, bytes, hrun, ht, ?_, hacc⟩
  unfold encodeLine
  simp only [hfold]

theorem tokenAccesses_line_ok (StringTokenizer : String → String → List String) (n : Nat)
    (hn : n ≤ UINT_MOD) (s : Pass) (hf : s.fault = none) (hs : s.tables.Sized n) (line : String)
    (hlen : (StringTokenizer line ",").length < n) :
    tokenAccesses { s with featurePos := 0 } (StringTokenizer line ",") =
      (stepsFrom 0 (StringTokenizer line ",")).map Prod.fst := by
  obtain ⟨t, bytes, hrun, -, -⟩ := encodeSteps_sized n s.tables hs
    (stepsFrom 0 (StringTokenizer line ",")) (fun x hx => by
      have := mem_stepsFrom 0 _ x hx
      omega)
  exact tokenAccesses_ok { s with featurePos := 0 } hf (StringTokenizer line ",")
    (by simp only []; omega) t bytes hrun

theorem passAccesses_of_fault (StringTokenizer : String → String → List String)
    (datasize : Nat) (s : Pass) (rows : List String) (h : s.fault ≠ none) :
    passAccesses StringTokenizer datasize s rows = [] := by
  cases rows with
  | nil => rfl
  | cons line rest =>
    unfold passAccesses
    cases hf : s.fault with
    | none => exact absurd hf h
    | some f => rfl

/-- The line loop in closed form, from a state without fault: the steps performed, the
bytes written, the lines completed, the fault, the subscripts used and the text printed
are determined by the lines read before `lineCount` reaches `datasize`. -/
theorem encodePass_closed (StringTokenizer : String → String → List String)
    (datasize limitMod16 n : Nat) (hn : n < UINT_MOD) (hpos : 0 < n)
    (hd : datasize < UINT_MOD) (rows : List String) (s : Pass) (hf : s.fault = none)
    (hs : s.tables.Sized n) (hlc : s.lineCount ≤ datasize) :
    ∃ bytes,
      encodeSteps s.tables
          (executedSteps StringTokenizer n (rows.take (datasize - s.lineCount)))
        = some ((encodePass StringTokenizer datasize limitMod16 s rows).tables, bytes) ∧
      (encodePass StringTokenizer datasize limitMod16 s rows).grid = s.grid ++ bytes ∧
      (encodePass StringTokenizer datasize limitMod16 s rows).lineCount
        = s.lineCount + completeLines StringTokenizer n (rows.take (datasize - s.lineCount)) ∧
      (encodePass StringTokenizer datasize limitMod16 s rows).fault
        = (if completeLines StringTokenizer n (rows.take (datasize - s.lineCount))
              < (rows.take (datasize - s.lineCount)).length then some (n, n) else none) ∧
      passAccesses StringTokenizer datasize s rows
        = (executedSteps StringTokenizer n (rows.take (datasize - s.lineCount))).map Prod.fst ++
          (if completeLines StringTokenizer n (rows.take (datasize - s.lineCount))
              < (rows.take (datasize - s.lineCount)).length then [n] else []) ∧
      (encodePass StringTokenizer datasize limitMod16 s rows).printed
        = s.printed ++
          (if completeLines StringTokenizer n (rows.take (datasize - s.lineCount))
                = (rows.take (datasize - s.lineCount)).length ∧
              datasize - s.lineCount < rows.length ∧ limitMod16 ≠ 0
            then [lastIgnoredText limitMod16] else []) := by
  induction rows generalizing s with
  | nil =>
    refine ⟨[], ?_, ?_, ?_, ?_, ?_, ?_⟩ <;>
      simp [encodePass, passAccesses, executedSteps, completeLines, encodeSteps, hf]
  | cons line rest ih =>
    by_cases hstop : s.lineCount = datasize
    · have hzero : datasize - s.lineCount = 0 := by omega
      have hrun : encodePass StringTokenizer datasize limitMod16 s (line :: rest) =
          if limitMod16 ≠ 0 then { s with printed := s.printed ++ [lastIgnoredText limitMod16] }
          else s := by
        rw [encodePass, hf]
        simp only [hstop, if_true]
      have hacc : passAccesses StringTokenizer datasize s (line :: rest) = [] := by
        rw [passAccesses, hf]
        simp only [hstop, if_true]
      rw [hrun, hacc, hzero]
      by_cases hl : limitMod16 = 0
      · refine ⟨[], ?_, ?_, ?_, ?_, ?_, ?_⟩ <;>
          simp [executedSteps, completeLines, encodeSteps, hf, hl]
      · refine ⟨[], ?_, ?_, ?_, ?_, ?_, ?_⟩ <;>
          simp [executedSteps, completeLines, encodeSteps, hf, hl]
    · have hlt : s.lineCount < datasize := by omega
      have hsucc : datasize - s.lineCount = (datasize - (s.lineCount + 1)) + 1 := by omega
      have hrun : encodePass StringTokenizer datasize limitMod16 s (line :: rest) =
          encodePass StringTokenizer datasize limitMod16 (encodeLine StringTokenizer s line)
            rest := by
        rw [encodePass, hf]
        simp only [hstop, if_false]
      have hacc : passAccesses StringTokenizer datasize s (line :: rest) =
          tokenAccesses { s with featurePos := 0 } (StringTokenizer line ",") ++
            passAccesses StringTokenizer datasize (encodeLine StringTokenizer s line) rest := by
        rw [passAccesses, hf]
        simp only [hstop, if_false]
      rw [hrun, hacc, hsucc, List.take_succ_cons]
      by_cases hlen : (StringTokenizer line ",").length < n
      · obtain ⟨t1, b1, hrun1, ht1, hline⟩ :=
          encodeLine_ok StringTokenizer n (by omega) s hf hs line hlen
        have hmod : (s.lineCount + 1) % UINT_MOD = s.lineCount + 1 :=
          Nat.mod_eq_of_lt (by omega)
        rw [hline, hmod,
          tokenAccesses_line_ok StringTokenizer n (by omega) s hf hs line hlen]
        obtain ⟨bytes, hsteps, hgrid, hcount, hfault, haccs, hprinted⟩ :=
          ih { s with tables := t1, featurePos := (StringTokenizer line ",").length,
                      grid := s.grid ++ b1, lineCount := s.lineCount + 1 }
            hf ht1 (by simp only []; omega)
        simp only [] at hsteps hgrid hcount hfault haccs hprinted
        refine ⟨b1 ++ bytes, ?_, ?_, ?_, ?_, ?_, ?_⟩
        · simp only [executedSteps, if_pos hlen]
          rw [encodeSteps_append, hrun1]
          simp only [hsteps]
        · rw [hgrid, List.append_assoc]
        · rw [hcount]
          simp only [completeLines, if_pos hlen]
          omega
        · rw [hfault]
          simp only [completeLines, if_pos hlen, List.length_cons, Nat.add_lt_add_iff_right]
        · rw [haccs]
          simp only [executedSteps, completeLines, if_pos hlen, List.length_cons,
            Nat.add_lt_add_iff_right, List.map_append, List.append_assoc]
        · rw [hprinted]
          simp only [completeLines, if_pos hlen, List.length_cons, Nat.add_right_cancel_iff,
            Nat.add_lt_add_iff_right]
      · obtain ⟨t1, b1, hrun1, ht1, hline, hacc1⟩ :=
          encodeLine_stop StringTokenizer n hn hpos s hf hs line (by omega)
        rw [hline, hacc1, encodePass_of_fault _ _ _ _ _ (by simp),
          passAccesses_of_fault _ _ _ _ (by simp)]
        refine ⟨b1, ?_, ?_, ?_, ?_, ?_, ?_⟩
        · simp only [executedSteps, if_neg hlen]
          exact hrun1
        · rfl
        · simp only [completeLines, if_neg hlen, Nat.add_zero]
        · simp only [completeLines, if_neg hlen, List.length_cons, Nat.zero_lt_succ, if_true]
        · simp only [executedSteps, completeLines, if_neg hlen, List.length_cons,
            Nat.zero_lt_succ, if_true, List.append_nil]
        · simp only [completeLines, if_neg hlen, List.length_cons]
          have hne : ¬ (0 = (List.take (datasize - (s.lineCount + 1)) rest).length + 1 ∧
              datasize - (s.lineCount + 1) + 1 < rest.length + 1 ∧ limitMod16 ≠ 0) := by
            intro h
            omega
          rw [if_neg hne, List.append_nil]

theorem length_reachOf (for_gpu : Bool) (lines : List String) :
    (reachOf for_gpu lines).length = datasizeOf for_gpu lines := by
  unfold reachOf
  rw [List.length_take]
  exact Nat.min_eq_left (datasizeOf_le for_gpu lines).1

/-- The conversion block in closed form, when the table initialisation terminates. -/
theorem convert_closed (StringTokenizer : String → String → List String) (for_gpu : Bool)
    (inputFilename outputFilename : String) (lines : List String)
    (hloop : featuresSizeOf StringTokenizer lines + 1 < UINT_MOD) :
    ∃ p, convertPass StringTokenizer for_gpu lines = some p ∧
      encodeSteps (emptyTables (featuresSizeOf StringTokenizer lines + 1))
          (executedSteps StringTokenizer (featuresSizeOf StringTokenizer lines + 1)
            (reachOf for_gpu lines))
        = some (p.tables,
            (convert StringTokenizer for_gpu inputFilename outputFilename lines).grid) ∧
      (convert StringTokenizer for_gpu inputFilename outputFilename lines).lineCount
        = completeLines StringTokenizer (featuresSizeOf StringTokenizer lines + 1)
            (reachOf for_gpu lines) ∧
      (convert StringTokenizer for_gpu inputFilename outputFilename lines).termination
        = (if completeLines StringTokenizer (featuresSizeOf StringTokenizer lines + 1)
                (reachOf for_gpu lines) < (reachOf for_gpu lines).length
            then .outOfBounds (featuresSizeOf StringTokenizer lines + 1)
              (featuresSizeOf StringTokenizer lines + 1)
            else .exit 0) ∧
      convertAccesses StringTokenizer for_gpu lines
        = (executedSteps StringTokenizer (featuresSizeOf StringTokenizer lines + 1)
            (reachOf for_gpu lines)).map Prod.fst ++
          (if completeLines StringTokenizer (featuresSizeOf StringTokenizer lines + 1)
                (reachOf for_gpu lines) < (reachOf for_gpu lines).length
            then [featuresSizeOf StringTokenizer lines + 1] else []) ∧
      (convert StringTokenizer for_gpu inputFilename outputFilename lines).printed
        = (if completeLines StringTokenizer (featuresSizeOf StringTokenizer lines + 1)
                (reachOf for_gpu lines) = (reachOf for_gpu lines).length ∧
              datasizeOf for_gpu lines < (dataLines lines).length ∧
              limitMod16Of for_gpu lines ≠ 0
            then [lastIgnoredText (limitMod16Of for_gpu lines)] else []) := by
  obtain ⟨-, hdlt⟩ := datasizeOf_le for_gpu lines
  obtain ⟨bytes, hsteps, hgrid, hcount, hfault, haccs, hprinted⟩ :=
    encodePass_closed StringTokenizer (datasizeOf for_gpu lines) (limitMod16Of for_gpu lines)
      (featuresSizeOf StringTokenizer lines + 1) hloop (by omega) hdlt (dataLines lines)
      { tables := emptyTables (featuresSizeOf StringTokenizer lines + 1), featurePos := 0,
        lineCount := 0, grid := [], printed := [], fault := none }
      rfl (emptyTables_sized _) (by simp)
  simp only [Nat.sub_zero, Nat.zero_add, List.nil_append] at hsteps hgrid hcount
  simp only [Nat.sub_zero, Nat.zero_add, List.nil_append] at hfault haccs hprinted
  have hpass : convertPass StringTokenizer for_gpu lines =
      some (encodePass StringTokenizer (datasizeOf for_gpu lines) (limitMod16Of for_gpu lines)
        { tables := emptyTables (featuresSizeOf StringTokenizer lines + 1), featurePos := 0,
          lineCount := 0, grid := [], printed := [], fault := none } (dataLines lines)) := by
    unfold convertPass
    simp only [initTables_eq, if_pos hloop]
    rfl
  have hacc : convertAccesses StringTokenizer for_gpu lines =
      passAccesses StringTokenizer (datasizeOf for_gpu lines)
        { tables := emptyTables (featuresSizeOf StringTokenizer lines + 1), featurePos := 0,
          lineCount := 0, grid := [], printed := [], fault := none } (dataLines lines) := by
    unfold convertAccesses
    simp only [initTables_eq, if_pos hloop]
    rfl
  have hconv : convert StringTokenizer for_gpu inputFilename outputFilename lines =
      { printed := (encodePass StringTokenizer (datasizeOf for_gpu lines)
          (limitMod16Of for_gpu lines)
          { tables := emptyTables (featuresSizeOf StringTokenizer lines + 1), featurePos := 0,
            lineCount := 0, grid := [], printed := [], fault := none } (dataLines lines)).printed,
        inputOpened := some inputFilename, outputOpened := some outputFilename,
        header := some (datasizeOf for_gpu lines, featuresSizeOf StringTokenizer lines),
        grid := (encodePass StringTokenizer (datasizeOf for_gpu lines)
          (limitMod16Of for_gpu lines)
          { tables := emptyTables (featuresSizeOf StringTokenizer lines + 1), featurePos := 0,
            lineCount := 0, grid := [], printed := [], fault := none } (dataLines lines)).grid,
        lineCount := (encodePass StringTokenizer (datasizeOf for_gpu lines)
          (limitMod16Of for_gpu lines)
          { tables := emptyTables (featuresSizeOf StringTokenizer lines + 1), featurePos := 0,
            lineCount := 0, grid := [], printed := [], fault := none } (dataLines lines)).lineCount,
        termination :=
          match (encodePass StringTokenizer (datasizeOf for_gpu lines)
            (limitMod16Of for_gpu lines)
            { tables := emptyTables (featuresSizeOf StringTokenizer lines + 1), featurePos := 0,
              lineCount := 0, grid := [], printed := [], fault := none }
            (dataLines lines)).fault with
          | some (index, size) => .outOfBounds index size
          | none => .exit 0 } := by
    unfold convert
    simp only [initTables_eq, if_pos hloop]
    rfl
  rw [hpass, hacc, hconv]
  generalize encodePass StringTokenizer (datasizeOf for_gpu lines) (limitMod16Of for_gpu lines)
    { tables := emptyTables (featuresSizeOf StringTokenizer lines + 1), featurePos := 0,
      lineCount := 0, grid := [], printed := [], fault := none } (dataLines lines) = p
    at hsteps hgrid hcount hfault hprinted
  refine ⟨p, rfl, ?_, hcount, ?_, haccs, hprinted⟩
  · simp only [hgrid]
    exact hsteps
  · show (match p.fault with
      | some (index, size) => Termination.outOfBounds index size
      | none => Termination.exit 0) = _
    rw [hfault]
    unfold reachOf
    split_ifs <;> rfl

theorem convertPass_of_loop_forever (StringTokenizer : String → String → List String)
    (for_gpu : Bool) (lines : List String)
    (hloop : ¬ featuresSizeOf StringTokenizer lines + 1 < UINT_MOD) :
    convertPass StringTokenizer for_gpu lines = none ∧
    convertAccesses StringTokenizer for_gpu lines = [] := by
  unfold convertPass convertAccesses
  simp only [initTables_eq, if_neg hloop, and_self]

/-! ## Runs that perform the same steps -/

theorem encodeSteps_append_some (t t2 : Tables) (xs ys : List (Nat × String))
    (bytes : List Nat) (h : encodeSteps t (xs ++ ys) = some (t2, bytes)) :
    ∃ t1 b1 b2, encodeSteps t xs = some (t1, b1) ∧ encodeSteps t1 ys = some (t2, b2) ∧
      bytes = b1 ++ b2 := by
  rw [encodeSteps_append] at h
  cases h1 : encodeSteps t xs with
  | none => simp [h1] at h
  | some r1 =>
    obtain ⟨t1, b1⟩ := r1
    rw [h1] at h
    simp only [] at h
    cases h2 : encodeSteps t1 ys with
    | none => simp [h2] at h
    | some r2 =>
      obtain ⟨t3, b2⟩ := r2
      rw [h2] at h
      simp only [Option.some.injEq, Prod.mk.injEq] at h
      obtain ⟨rfl, rfl⟩ := h
      exact ⟨t1, b1, b2, rfl, h2, rfl⟩

theorem executedSteps_take (StringTokenizer : String → String → List String) (n m : Nat)
    (rows : List String) :
    ∃ rest, executedSteps StringTokenizer n rows =
      executedSteps StringTokenizer n (rows.take m) ++ rest := by
  induction rows generalizing m with
  | nil => exact ⟨[], by simp [executedSteps]⟩
  | cons line rows ih =>
    cases m with
    | zero =>
      exact ⟨executedSteps StringTokenizer n (line :: rows), by simp [executedSteps]⟩
    | succ m =>
      obtain ⟨rest, hrest⟩ := ih m
      by_cases hlen : (StringTokenizer line ",").length < n
      · refine ⟨rest, ?_⟩
        simp only [List.take_succ_cons, executedSteps, if_pos hlen, List.append_assoc]
        rw [← hrest]
      · refine ⟨[], ?_⟩
        simp only [List.take_succ_cons, executedSteps, if_neg hlen, List.append_nil]

/-- Two conversions with the same `featuresSize` whose passes perform the same encode
steps write the same grid. -/
theorem convert_grid_congr (tokenizer1 tokenizer2 : String → String → List String)
    (gpu1 gpu2 : Bool) (in1 out1 in2 out2 : String) (lines1 lines2 : List String)
    (hfs : featuresSizeOf tokenizer1 lines1 = featuresSizeOf tokenizer2 lines2)
    (hsteps : executedSteps tokenizer1 (featuresSizeOf tokenizer1 lines1 + 1)
        (reachOf gpu1 lines1)
      = executedSteps tokenizer2 (featuresSizeOf tokenizer2 lines2 + 1) (reachOf gpu2 lines2)) :
    (convert tokenizer1 gpu1 in1 out1 lines1).grid
      = (convert tokenizer2 gpu2 in2 out2 lines2).grid := by
  by_cases hloop : featuresSizeOf tokenizer1 lines1 + 1 < UINT_MOD
  · obtain ⟨p1, -, h1, -⟩ := convert_closed tokenizer1 gpu1 in1 out1 lines1 hloop
    obtain ⟨p2, -, h2, -⟩ := convert_closed tokenizer2 gpu2 in2 out2 lines2 (hfs ▸ hloop)
    rw [hsteps, hfs, h2] at h1
    simp only [Option.some.injEq, Prod.mk.injEq] at h1
    exact h1.2.symm
  · rw [convert_of_loop_forever tokenizer1 _ _ _ _ hloop,
      convert_of_loop_forever tokenizer2 _ _ _ _ (hfs ▸ hloop)]

/-- A conversion whose pass performs the steps of another one and then more writes the
grid of the other one and then more. -/
theorem convert_grid_prefix (tokenizer1 tokenizer2 : String → String → List String)
    (gpu1 gpu2 : Bool) (in1 out1 in2 out2 : String) (lines1 lines2 : List String)
    (hfs : featuresSizeOf tokenizer1 lines1 = featuresSizeOf tokenizer2 lines2)
    (rest : List (Nat × String))
    (hsteps : executedSteps tokenizer2 (featuresSizeOf tokenizer2 lines2 + 1)
        (reachOf gpu2 lines2)
      = executedSteps tokenizer1 (featuresSizeOf tokenizer1 lines1 + 1) (reachOf gpu1 lines1)
        ++ rest) :
    ∃ tail, (convert tokenizer2 gpu2 in2 out2 lines2).grid
      = (convert tokenizer1 gpu1 in1 out1 lines1).grid ++ tail := by
  by_cases hloop : featuresSizeOf tokenizer1 lines1 + 1 < UINT_MOD
  · obtain ⟨p1, -, h1, -⟩ := convert_closed tokenizer1 gpu1 in1 out1 lines1 hloop
    obtain ⟨p2, -, h2, -⟩ := convert_closed tokenizer2 gpu2 in2 out2 lines2 (hfs ▸ hloop)
    rw [hsteps, ← hfs] at h2
    obtain ⟨t1, b1, b2, hb1, -, hb⟩ := encodeSteps_append_some _ _ _ _ _ h2
    rw [h1] at hb1
    simp only [Option.some.injEq, Prod.mk.injEq] at hb1
    exact ⟨b2, by rw [hb, hb1.2]⟩
  · rw [convert_of_loop_forever tokenizer1 _ _ _ _ hloop,
      convert_of_loop_forever tokenizer2 _ _ _ _ (hfs ▸ hloop)]
    exact ⟨[], rfl⟩

theorem datasizeOf_gpu_le (lines : List String) :
    datasizeOf true lines ≤ datasizeOf false lines := by
  rw [datasizeOf_eq, datasizeOf_eq]
  simp

theorem reachOf_gpu (lines : List String) :
    reachOf true lines = (reachOf false lines).take (datasizeOf true lines) := by
  unfold reachOf
  rw [List.take_take, Nat.min_eq_left (datasizeOf_gpu_le lines)]

/-- The input cut after its first `k` data lines. -/
theorem dataLines_cut (lines : List String) (k : Nat) :
    dataLines (lines.take 1 ++ (dataLines lines).take k) = (dataLines lines).take k ∧
    (lines.take 1 ++ (dataLines lines).take k).headD "" = lines.headD "" := by
  cases lines with
  | nil => simp [dataLines]
  | cons head rest => simp [dataLines]

theorem reachOf_cut (for_gpu : Bool) (lines : List String) :
    reachOf false (lines.take 1 ++ (dataLines lines).take (datasizeOf for_gpu lines))
      = reachOf for_gpu lines ∧
    datasizeOf false (lines.take 1 ++ (dataLines lines).take (datasizeOf for_gpu lines))
      = datasizeOf for_gpu lines := by
  obtain ⟨hle, hlt⟩ := datasizeOf_le for_gpu lines
  have hd : datasizeOf false
      (lines.take 1 ++ (dataLines lines).take (datasizeOf for_gpu lines))
        = datasizeOf for_gpu lines := by
    rw [datasizeOf_eq false, (dataLines_cut lines _).1, List.length_take,
      Nat.min_eq_left hle]
    simp only [Bool.false_eq_true, if_false]
    exact Nat.mod_eq_of_lt hlt
  refine ⟨?_, hd⟩
  unfold reachOf
  rw [hd, (dataLines_cut lines _).1, List.take_take, Nat.min_self]

theorem featuresSizeOf_cut (StringTokenizer : String → String → List String)
    (lines : List String) (k : Nat) :
    featuresSizeOf StringTokenizer (lines.take 1 ++ (dataLines lines).take k)
      = featuresSizeOf StringTokenizer lines := by
  unfold featuresSizeOf
  rw [(dataLines_cut lines k).2]

/-- C12. For one input read with `--gpu` and without, the grid written with `--gpu` is a
prefix of the grid written without, and `featureCount` is the same; header and grid
written with `--gpu` are those that a run without `--gpu` writes for the input cut after
its first `rowCount` data lines, `rowCount` being the value in the header of the `--gpu`
run. -/
theorem gpu_grid_is_prefix (StringTokenizer : String → String → List String)
    (openInput : String → Option (List String)) (argvWith argvWithout lines : List String)
    (hwith : Converts openInput argvWith lines)
    (hgpu : cmdOptionExists (InputParser argvWith) "--gpu" = true)
    (hwithout : Converts openInput argvWithout lines)
    (hplain : cmdOptionExists (InputParser argvWithout) "--gpu" = false) :
    (∃ tail, (main StringTokenizer openInput argvWithout).grid
      = (main StringTokenizer openInput argvWith).grid ++ tail) ∧
    (main StringTokenizer openInput argvWith).featureCount
      = (main StringTokenizer openInput argvWithout).featureCount ∧
    ∃ rowCount, (main StringTokenizer openInput argvWith).rowCount = some rowCount ∧
      ∀ (openCut : String → Option (List String)) (argvCut : List String),
        Converts openCut argvCut (lines.take 1 ++ (dataLines lines).take rowCount) →
        cmdOptionExists (InputParser argvCut) "--gpu" = false →
        (main StringTokenizer openCut argvCut).grid
          = (main StringTokenizer openInput argvWith).grid ∧
        (main StringTokenizer openCut argvCut).header
          = (main StringTokenizer openInput argvWith).header := by
  refine ⟨?_, ?_, datasizeOf true lines, ?_, ?_⟩
  · rw [main_of_converts _ _ _ _ hwith, main_of_converts _ _ _ _ hwithout, hgpu, hplain]
    obtain ⟨rest, hrest⟩ := executedSteps_take StringTokenizer
      (featuresSizeOf StringTokenizer lines + 1) (datasizeOf true lines) (reachOf false lines)
    rw [← reachOf_gpu] at hrest
    exact convert_grid_prefix StringTokenizer StringTokenizer true false _ _ _ _ lines lines
      rfl rest hrest
  · rw [main_featureCount _ _ _ _ hwith, main_featureCount _ _ _ _ hwithout]
  · rw [main_rowCount _ _ _ _ hwith, hgpu]
  · intro openCut argvCut hcut hcutPlain
    rw [main_of_converts _ _ _ _ hwith, main_of_converts _ _ _ _ hcut, hgpu, hcutPlain]
    refine ⟨?_, ?_⟩
    · apply convert_grid_congr
      · exact featuresSizeOf_cut StringTokenizer lines _
      · rw [featuresSizeOf_cut, (reachOf_cut true lines).1]
    · rw [convert_header, convert_header, featuresSizeOf_cut, (reachOf_cut true lines).2]

set_option maxRecDepth 1000000 in
/-- Seventeen data lines: with `--gpu` the header is `(16, 2)` and the grid has 32 bytes;
without, the header is `(17, 2)` and the grid has the same 32 bytes and then `1, 1`. -/
theorem gpu_grid_is_prefix_witness :
    Converts (onlyFile seventeenInput) argvGpu seventeenInput ∧
    cmdOptionExists (InputParser argvGpu) "--gpu" = true ∧
    Converts (onlyFile seventeenInput) argvPlain seventeenInput ∧
    cmdOptionExists (InputParser argvPlain) "--gpu" = false ∧
    (main tokenize (onlyFile seventeenInput) argvGpu).header = some (16, 2) ∧
    (main tokenize (onlyFile seventeenInput) argvGpu).grid = List.replicate 32 0 ∧
    (main tokenize (onlyFile seventeenInput) argvPlain).header = some (17, 2) ∧
    (main tokenize (onlyFile seventeenInput) argvPlain).grid = List.replicate 32 0 ++ [1, 1] ∧
    ((∃ tail, (main tokenize (onlyFile seventeenInput) argvPlain).grid
      = (main tokenize (onlyFile seventeenInput) argvGpu).grid ++ tail) ∧
    (main tokenize (onlyFile seventeenInput) argvGpu).featureCount
      = (main tokenize (onlyFile seventeenInput) argvPlain).featureCount ∧
    ∃ rowCount, (main tokenize (onlyFile seventeenInput) argvGpu).rowCount = some rowCount ∧
      ∀ (openCut : String → Option (List String)) (argvCut : List String),
        Converts openCut argvCut
          (seventeenInput.take 1 ++ (dataLines seventeenInput).take rowCount) →
        cmdOptionExists (InputParser argvCut) "--gpu" = false →
        (main tokenize openCut argvCut).grid
          = (main tokenize (onlyFile seventeenInput) argvGpu).grid ∧
        (main tokenize openCut argvCut).header
          = (main tokenize (onlyFile seventeenInput) argvGpu).header) :=
  ⟨by decide, by decide, by decide, by decide, by decide, by decide, by decide, by decide,
    gpu_grid_is_prefix tokenize (onlyFile seventeenInput) argvGpu argvPlain seventeenInput
      (by decide) (by decide) (by decide) (by decide)⟩

/-! ## Subscripts of the tables -/

theorem mem_executedSteps (StringTokenizer : String → String → List String) (n : Nat)
    (rows : List String) (x : Nat × String) (h : x ∈ executedSteps StringTokenizer n rows) :
    1 ≤ x.1 ∧ x.1 < n := by
  induction rows with
  | nil => simp [executedSteps] at h
  | cons line rest ih =>
    by_cases hlen : (StringTokenizer line ",").length < n
    · simp only [executedSteps, if_pos hlen, List.mem_append] at h
      rcases h with h | h
      · have := mem_stepsFrom 0 _ x h
        omega
      · exact ih h
    · simp only [executedSteps, if_neg hlen] at h
      have := mem_stepsFrom 0 _ x h
      rw [List.length_take] at this
      omega

theorem completeLines_le (StringTokenizer : String → String → List String) (n : Nat)
    (rows : List String) : completeLines StringTokenizer n rows ≤ rows.length := by
  induction rows with
  | nil => simp [completeLines]
  | cons line rest ih =>
    simp only [completeLines, List.length_cons]
    split <;> omega

theorem completeLines_fits (StringTokenizer : String → String → List String) (n : Nat)
    (rows : List String) :
    ∀ line ∈ rows.take (completeLines StringTokenizer n rows),
      (StringTokenizer line ",").length < n := by
  induction rows with
  | nil => simp
  | cons row rest ih =>
    by_cases hlen : (StringTokenizer row ",").length < n
    · simp only [completeLines, if_pos hlen, List.take_succ_cons, List.mem_cons]
      rintro line (h | h)
      · rw [h]
        exact hlen
      · exact ih line h
    · simp [completeLines, if_neg hlen]

theorem completeLines_stop (StringTokenizer : String → String → List String) (n : Nat)
    (rows : List String) (h : completeLines StringTokenizer n rows < rows.length) :
    ∃ line, rows[completeLines StringTokenizer n rows]? = some line ∧
      n ≤ (StringTokenizer line ",").length := by
  induction rows with
  | nil => simp at h
  | cons row rest ih =>
    by_cases hlen : (StringTokenizer row ",").length < n
    · simp only [completeLines, if_pos hlen, List.length_cons, Nat.add_lt_add_iff_right] at h
      obtain ⟨line, h1, h2⟩ := ih h
      refine ⟨line, ?_, h2⟩
      simp only [completeLines, if_pos hlen, List.getElem?_cons_succ]
      exact h1
    · refine ⟨row, ?_, by omega⟩
      simp [completeLines, if_neg hlen]

theorem colTokens_eq_nil_of_not_mem (steps : List (Nat × String)) (j : Nat)
    (h : ∀ x ∈ steps, x.1 ≠ j) : colTokens steps j = [] := by
  unfold colTokens
  rw [List.map_eq_nil_iff, List.filter_eq_nil_iff]
  intro x hx
  simpa using h x hx

/-- The started lines of a conversion, in terms of the lines that the loop reads. -/
theorem started_of_closed (StringTokenizer : String → String → List String) (for_gpu : Bool)
    (inputFilename outputFilename : String) (lines : List String)
    (hloop : featuresSizeOf StringTokenizer lines + 1 < UINT_MOD) :
    (completeLines StringTokenizer (featuresSizeOf StringTokenizer lines + 1)
        (reachOf for_gpu lines) < (reachOf for_gpu lines).length →
      ∃ line, line ∈ (convert StringTokenizer for_gpu inputFilename outputFilename
          lines).started lines ∧
        featuresSizeOf StringTokenizer lines + 1 ≤ (StringTokenizer line ",").length) ∧
    (¬ completeLines StringTokenizer (featuresSizeOf StringTokenizer lines + 1)
        (reachOf for_gpu lines) < (reachOf for_gpu lines).length →
      ∀ line ∈ (convert StringTokenizer for_gpu inputFilename outputFilename
          lines).started lines,
        (StringTokenizer line ",").length < featuresSizeOf StringTokenizer lines + 1) := by
  obtain ⟨p, -, -, hcount, hterm, -, -⟩ :=
    convert_closed StringTokenizer for_gpu inputFilename outputFilename lines hloop
  refine ⟨?_, ?_⟩
  · intro hlt
    obtain ⟨line, hline, hlen⟩ := completeLines_stop StringTokenizer _ _ hlt
    refine ⟨line, ?_, hlen⟩
    unfold Result.started
    rw [hterm, if_pos hlt, hcount]
    simp only []
    apply List.getElem?_mem (n := completeLines StringTokenizer
      (featuresSizeOf StringTokenizer lines + 1) (reachOf for_gpu lines))
    rw [List.getElem?_take_of_lt (Nat.lt_succ_self _)]
    unfold reachOf at hline
    rw [List.getElem?_take_of_lt (by
      rw [length_reachOf] at hlt
      exact hlt)] at hline
    exact hline
  · intro hnlt line hl
    unfold Result.started at hl
    rw [hterm, if_neg hnlt, hcount] at hl
    simp only [] at hl
    have hfit := completeLines_fits StringTokenizer
      (featuresSizeOf StringTokenizer lines + 1) (reachOf for_gpu lines) line
    apply hfit
    have hle := completeLines_le StringTokenizer
      (featuresSizeOf StringTokenizer lines + 1) (reachOf for_gpu lines)
    rw [length_reachOf] at hle
    have hcut : ∀ k, k ≤ datasizeOf for_gpu lines →
        (reachOf for_gpu lines).take k = (dataLines lines).take k := by
      intro k hk
      unfold reachOf
      rw [List.take_take, Nat.min_eq_left hk]
    rw [hcut _ hle]
    exact hl

/-- C13. In a run that reaches the conversion, the tables have `featureCount + 1` slots.
If every data line whose encoding the pass starts yields at most `featureCount` tokens,
every subscript used on the tables is in `[1, featureCount]` and the run does not stop
at a subscript out of range.  If one of these lines yields more than `featureCount`
tokens, the subscript `featureCount + 1` is used, past the end of the tables.  In every
case slot 0 is never used: its map stays empty and its counter stays 0. -/
theorem table_subscripts_in_range (StringTokenizer : String → String → List String)
    (openInput : String → Option (List String)) (argv lines : List String)
    (h : Converts openInput argv lines) (f : Nat)
    (hf : (main StringTokenizer openInput argv).featureCount = some f) :
    ((∀ line ∈ (main StringTokenizer openInput argv).started lines,
        (StringTokenizer line ",").length ≤ f) →
      (∀ i ∈ convertAccesses StringTokenizer (cmdOptionExists (InputParser argv) "--gpu") lines,
        1 ≤ i ∧ i ≤ f) ∧
      (∀ index size,
        (main StringTokenizer openInput argv).termination ≠ .outOfBounds index size)) ∧
    ((∃ line ∈ (main StringTokenizer openInput argv).started lines,
        f < (StringTokenizer line ",").length) →
      f + 1 ∈ convertAccesses StringTokenizer (cmdOptionExists (InputParser argv) "--gpu") lines ∧
      (main StringTokenizer openInput argv).termination = .outOfBounds (f + 1) (f + 1)) ∧
    0 ∉ convertAccesses StringTokenizer (cmdOptionExists (InputParser argv) "--gpu") lines ∧
    ∀ p, convertPass StringTokenizer (cmdOptionExists (InputParser argv) "--gpu") lines
        = some p →
      p.tables.translationsVector.length = f + 1 ∧ p.tables.lastCategory.length = f + 1 ∧
      p.tables.translationsVector[0]? = some [] ∧ p.tables.lastCategory[0]? = some 0 := by
  rw [main_featureCount _ _ _ _ h] at hf
  simp only [Option.some.injEq] at hf
  subst hf
  rw [main_of_converts _ _ _ _ h]
  generalize cmdOptionExists (InputParser argv) "--gpu" = for_gpu
  generalize getCmdOption (InputParser argv) "-f" = inputFilename
  generalize getCmdOption (InputParser argv) "-o" = outputFilename
  by_cases hloop : featuresSizeOf StringTokenizer lines + 1 < UINT_MOD
  · obtain ⟨p, hpass, hrun, hcount, hterm, hacc, -⟩ :=
      convert_closed StringTokenizer for_gpu inputFilename outputFilename lines hloop
    obtain ⟨hstopLine, hfitLines⟩ :=
      started_of_closed StringTokenizer for_gpu inputFilename outputFilename lines hloop
    have hin : ∀ x ∈ executedSteps StringTokenizer (featuresSizeOf StringTokenizer lines + 1)
        (reachOf for_gpu lines), 1 ≤ x.1 ∧ x.1 < featuresSizeOf StringTokenizer lines + 1 :=
      fun x hx => mem_executedSteps StringTokenizer _ _ x hx
    refine ⟨?_, ?_, ?_, ?_⟩
    · intro hrows
      by_cases hlt : completeLines StringTokenizer (featuresSizeOf StringTokenizer lines + 1)
          (reachOf for_gpu lines) < (reachOf for_gpu lines).length
      · obtain ⟨line, hmem, hlen⟩ := hstopLine hlt
        have := hrows line hmem
        omega
      · rw [hacc, hterm, if_neg hlt, if_neg hlt, List.append_nil]
        refine ⟨?_, ?_⟩
        · intro i hi
          obtain ⟨x, hx, rfl⟩ := List.mem_map.mp hi
          have := hin x hx
          omega
        · intro index size hne
          cases hne
    · rintro ⟨line, hmem, hlen⟩
      by_cases hlt : completeLines StringTokenizer (featuresSizeOf StringTokenizer lines + 1)
          (reachOf for_gpu lines) < (reachOf for_gpu lines).length
      · rw [hacc, hterm, if_pos hlt, if_pos hlt]
        exact ⟨List.mem_append_right _ (List.mem_singleton_self _), rfl⟩
      · have := hfitLines hlt line hmem
        omega
    · rw [hacc]
      intro hzero
      rcases List.mem_append.mp hzero with h1 | h1
      · obtain ⟨x, hx, hx0⟩ := List.mem_map.mp h1
        have := hin x hx
        omega
      · split at h1
        · simp at h1
        · simp at h1
    · intro q hq
      rw [hpass] at hq
      simp only [Option.some.injEq] at hq
      subst hq
      obtain ⟨t, bytes, hrun', htab, -, -⟩ :=
        encodeSteps_spec (featuresSizeOf StringTokenizer lines + 1) []
          (emptyTables (featuresSizeOf StringTokenizer lines + 1)) (tablesFor_emptyTables _)
          (executedSteps StringTokenizer (featuresSizeOf StringTokenizer lines + 1)
            (reachOf for_gpu lines)) (fun x hx => (hin x hx).2)
      rw [hrun] at hrun'
      simp only [Option.some.injEq, Prod.mk.injEq] at hrun'
      rw [← hrun'.1] at htab
      rw [List.nil_append] at htab
      obtain ⟨hT, hL, hslot⟩ := htab
      obtain ⟨hm, hl⟩ := hslot 0 (Nat.succ_pos _)
      have hcol : colTokens (executedSteps StringTokenizer
          (featuresSizeOf StringTokenizer lines + 1) (reachOf for_gpu lines)) 0 = [] :=
        colTokens_eq_nil_of_not_mem _ 0 (fun x hx => by
          have := hin x hx
          omega)
      rw [hcol] at hm hl
      exact ⟨hT, hL, hm, hl⟩
  · obtain ⟨hpass, hacc⟩ := convertPass_of_loop_forever StringTokenizer for_gpu lines hloop
    rw [convert_of_loop_forever StringTokenizer for_gpu inputFilename outputFilename lines hloop,
      hpass, hacc]
    refine ⟨?_, ?_, ?_, ?_⟩
    · intro _
      refine ⟨?_, ?_⟩
      · intro i hi
        simp at hi
      · intro index size hne
        cases hne
    · rintro ⟨line, hmem, -⟩
      simp [Result.started] at hmem
    · simp
    · intro q hq
      cases hq

set_option maxRecDepth 1000000 in
/-- Scenario A uses the subscripts `1, 2, 3` for each of its three lines; the input with
data lines `x,y` under the header `a` uses the subscripts 1 and 2, the second one past the
end of the two slots. -/
theorem table_subscripts_in_range_witness :
    Converts (onlyFile scenarioA) argvPlain scenarioA ∧
    (main tokenize (onlyFile scenarioA) argvPlain).featureCount = some 3 ∧
    convertAccesses tokenize false scenarioA = [1, 2, 3, 1, 2, 3, 1, 2, 3] ∧
    (main tokenize (onlyFile scenarioA) argvPlain).started scenarioA
      = ["x,1,p", "y,1,q", "x,2,p"] ∧
    Converts (onlyFile overlongInput) argvGpu overlongInput ∧
    (main tokenize (onlyFile overlongInput) argvGpu).featureCount = some 1 ∧
    convertAccesses tokenize true overlongInput = [1, 2] ∧
    (main tokenize (onlyFile overlongInput) argvGpu).started overlongInput = ["x,y"] ∧
    (∀ i ∈ convertAccesses tokenize (cmdOptionExists (InputParser argvPlain) "--gpu") scenarioA,
      1 ≤ i ∧ i ≤ 3) ∧
    (1 + 1 ∈ convertAccesses tokenize (cmdOptionExists (InputParser argvGpu) "--gpu")
        overlongInput ∧
      (main tokenize (onlyFile overlongInput) argvGpu).termination
        = .outOfBounds (1 + 1) (1 + 1)) :=
  ⟨by decide, by decide, by decide, by decide, by decide, by decide, by decide, by decide,
    ((table_subscripts_in_range tokenize (onlyFile scenarioA) argvPlain scenarioA (by decide)
      3 (by decide)).1 (by decide)).1,
    (table_subscripts_in_range tokenize (onlyFile overlongInput) argvGpu overlongInput
      (by decide) 1 (by decide)).2.1 ⟨"x,y", by decide, by decide⟩⟩

/-! ## The text printed by the conversion -/

theorem completeLines_eq_length (StringTokenizer : String → String → List String) (n : Nat)
    (rows : List String) (h : ∀ line ∈ rows, (StringTokenizer line ",").length < n) :
    completeLines StringTokenizer n rows = rows.length := by
  induction rows with
  | nil => rfl
  | cons row rest ih =>
    simp only [completeLines, if_pos (h row (List.mem_cons_self _ _)), List.length_cons,
      ih (fun l hl => h l (List.mem_cons_of_mem _ hl))]

theorem convert_printed_of_no_limit (StringTokenizer : String → String → List String)
    (for_gpu : Bool) (inputFilename outputFilename : String) (lines : List String)
    (h : limitMod16Of for_gpu lines = 0) :
    (convert StringTokenizer for_gpu inputFilename outputFilename lines).printed = [] := by
  by_cases hloop : featuresSizeOf StringTokenizer lines + 1 < UINT_MOD
  · obtain ⟨p, -, -, -, -, -, hprinted⟩ :=
      convert_closed StringTokenizer for_gpu inputFilename outputFilename lines hloop
    rw [hprinted, if_neg (fun hc => hc.2.2 h)]
  · rw [convert_of_loop_forever StringTokenizer _ _ _ _ hloop]

/-- C14, as stated, fails.  With `--gpu`, header `a` and 17 data lines `x,y`, `n mod 16`
is 1, but the run stops at the second token of the first data line and prints nothing.
With `--gpu`, a header line of `2^32 - 1` fields and one data line, `n mod 16` is 1, but
the run never leaves the table initialisation and prints nothing. -/
theorem dropped_rows_report_counterexample :
    (Converts (onlyFile overlongSeventeen) argvGpu overlongSeventeen ∧
      cmdOptionExists (InputParser argvGpu) "--gpu" = true ∧
      (dataLines overlongSeventeen).length % 16 = 1 ∧
      (main tokenize (onlyFile overlongSeventeen) argvGpu).termination = .outOfBounds 2 2 ∧
      (main tokenize (onlyFile overlongSeventeen) argvGpu).printed = [] ∧
      lastIgnoredText 1 ∉ (main tokenize (onlyFile overlongSeventeen) argvGpu).printed) ∧
    (Converts (onlyFile maxWidthInput) argvGpu maxWidthInput ∧
      (dataLines maxWidthInput).length % 16 = 1 ∧
      (main tokenize (onlyFile maxWidthInput) argvGpu).termination = .initLoopForever ∧
      (main tokenize (onlyFile maxWidthInput) argvGpu).printed = [] ∧
      lastIgnoredText 1 ∉ (main tokenize (onlyFile maxWidthInput) argvGpu).printed) := by
  refine ⟨by decide, ?_⟩
  have hloop : ¬ featuresSizeOf tokenize maxWidthInput + 1 < UINT_MOD := by
    rw [featuresSizeOf_maxWidthInput]
    unfold UINT_MOD
    omega
  have hmain := main_of_converts tokenize _ _ _ (converts_onlyFile_argvGpu maxWidthInput)
  rw [convert_of_loop_forever tokenize _ _ _ _ hloop] at hmain
  refine ⟨converts_onlyFile_argvGpu maxWidthInput, ?_, ?_, ?_, ?_⟩
  · rw [dataLines_maxWidthInput]
    rfl
  · rw [hmain]
  · rw [hmain]
  · rw [hmain]
    simp

/-- C14, amended. In a run that reaches the conversion on an input with `n` data lines:
if `--gpu` is not set or `n mod 16 = 0`, the run prints nothing, in particular never the
text `Last r samples ignored.`; if `--gpu` is set, `r = n mod 16` is not zero, the table
initialisation terminates and none of the first `rowCount` data lines yields more than
`featureCount` tokens, the run prints `Last r samples ignored.` exactly once and nothing
else, also when `rowCount` is 0. -/
theorem dropped_rows_report (StringTokenizer : String → String → List String)
    (openInput : String → Option (List String)) (argv lines : List String)
    (h : Converts openInput argv lines) :
    ((cmdOptionExists (InputParser argv) "--gpu" = false ∨ (dataLines lines).length % 16 = 0) →
      (main StringTokenizer openInput argv).printed = [] ∧
      ∀ r, lastIgnoredText r ∉ (main StringTokenizer openInput argv).printed) ∧
    (cmdOptionExists (InputParser argv) "--gpu" = true → (dataLines lines).length % 16 ≠ 0 →
      ∀ rowCount featureCount,
        (main StringTokenizer openInput argv).header = some (rowCount, featureCount) →
        featureCount + 1 < UINT_MOD →
        (∀ line ∈ (dataLines lines).take rowCount,
          (StringTokenizer line ",").length ≤ featureCount) →
        (main StringTokenizer openInput argv).printed
          = [lastIgnoredText ((dataLines lines).length % 16)] ∧
        (main StringTokenizer openInput argv).printed.count
          (lastIgnoredText ((dataLines lines).length % 16)) = 1) := by
  rw [main_of_converts _ _ _ _ h]
  refine ⟨?_, ?_⟩
  · intro hcase
    have hlim : limitMod16Of (cmdOptionExists (InputParser argv) "--gpu") lines = 0 := by
      rw [limitMod16Of_eq]
      rcases hcase with hc | hc
      · rw [hc]
        rfl
      · split
        · exact hc
        · rfl
    rw [convert_printed_of_no_limit StringTokenizer _ _ _ lines hlim]
    exact ⟨rfl, fun r hr => by simp at hr⟩
  · intro hgpu hrem rowCount featureCount hheader hloop hrows
    rw [hgpu] at hheader ⊢
    rw [convert_header] at hheader
    simp only [Option.some.injEq, Prod.mk.injEq] at hheader
    obtain ⟨hd, hfs⟩ := hheader
    subst hd hfs
    obtain ⟨p, -, -, -, -, -, hprinted⟩ :=
      convert_closed StringTokenizer true (getCmdOption (InputParser argv) "-f")
        (getCmdOption (InputParser argv) "-o") lines hloop
    have hlim : limitMod16Of true lines = (dataLines lines).length % 16 := by
      rw [limitMod16Of_eq]
      rfl
    have hcl : completeLines StringTokenizer (featuresSizeOf StringTokenizer lines + 1)
        (reachOf true lines) = (reachOf true lines).length :=
      completeLines_eq_length StringTokenizer _ _ (fun line hl => by
        have := hrows line hl
        omega)
    have hdrop : datasizeOf true lines < (dataLines lines).length := by
      have hmod : (dataLines lines).length % UINT_MOD ≤ (dataLines lines).length :=
        Nat.mod_le _ _
      have h16 : (dataLines lines).length % UINT_MOD % 16 = (dataLines lines).length % 16 := by
        unfold UINT_MOD
        omega
      rw [datasizeOf_eq]
      simp only [if_true]
      omega
    rw [hprinted, hlim, if_pos ⟨hcl, hdrop, hrem⟩]
    exact ⟨rfl, by simp⟩

set_option maxRecDepth 1000000 in
/-- Scenario B: three data lines with `--gpu`, `rowCount` 0, and the text
`Last 3 samples ignored.` printed once. -/
theorem dropped_rows_report_witness :
    Converts (onlyFile scenarioA) argvGpu scenarioA ∧
    cmdOptionExists (InputParser argvGpu) "--gpu" = true ∧
    (dataLines scenarioA).length % 16 = 3 ∧
    (main tokenize (onlyFile scenarioA) argvGpu).header = some (0, 3) ∧
    lastIgnoredText 3 = "Last 3 samples ignored.\n" ∧
    (main tokenize (onlyFile scenarioA) argvGpu).printed = ["Last 3 samples ignored.\n"] ∧
    ((main tokenize (onlyFile scenarioA) argvGpu).printed
        = [lastIgnoredText ((dataLines scenarioA).length % 16)] ∧
      (main tokenize (onlyFile scenarioA) argvGpu).printed.count
        (lastIgnoredText ((dataLines scenarioA).length % 16)) = 1) ∧
    ((main tokenize (onlyFile scenarioA) argvPlain).printed = [] ∧
      ∀ r, lastIgnoredText r ∉ (main tokenize (onlyFile scenarioA) argvPlain).printed) :=
  ⟨by decide, by decide, by decide, by decide, by decide, by decide,
    (dropped_rows_report tokenize (onlyFile scenarioA) argvGpu scenarioA (by decide)).2
      (by decide) (by decide) 0 3 (by decide) (by decide) (by decide),
    (dropped_rows_report tokenize (onlyFile scenarioA) argvPlain scenarioA (by decide)).1
      (Or.inl (by decide))⟩

/-! ## Cells of lines of any length -/

theorem encodeSteps_in_range (n : Nat) (t : Tables) (ht : t.Sized n)
    (steps : List (Nat × String)) (r : Tables × List Nat) (h : encodeSteps t steps = some r) :
    ∀ x ∈ steps, x.1 < n := by
  induction steps generalizing t r with
  | nil => simp
  | cons x steps ih =>
    obtain ⟨p, token⟩ := x
    simp only [encodeSteps] at h
    by_cases hp : p < n
    · obtain ⟨t1, data, henc, ht1⟩ := encode_sized n t ht p hp token
      rw [henc] at h
      simp only [] at h
      cases hrest : encodeSteps t1 steps with
      | none => simp [hrest] at h
      | some r1 =>
        intro y hy
        rcases List.mem_cons.mp hy with hy | hy
        · rw [hy]
          exact hp
        · exact ih t1 ht1 r1 hrest y hy
    · rw [encode_out_of_range n t ht p (by omega) token] at h
      simp at h

theorem passSteps_cell (StringTokenizer : String → String → List String) (rows : List String)
    (i j : Nat) (line token : String) (hi : rows[i]? = some line)
    (hj : (StringTokenizer line ",")[j - 1]? = some token) (h1 : 1 ≤ j) :
    (passSteps StringTokenizer rows)[cellPos StringTokenizer rows i j]? = some (j, token) := by
  have hlt : i < rows.length := (List.getElem?_eq_some_iff.mp hi).1
  have hsplit : rows = rows.take i ++ line :: rows.drop (i + 1) := by
    have hd : rows.drop i = line :: rows.drop (i + 1) := by
      rw [List.drop_eq_getElem_cons hlt]
      congr 1
      exact (List.getElem?_eq_some_iff.mp hi).2
    rw [← hd, List.take_append_drop]
  have hjlt : j - 1 < (StringTokenizer line ",").length :=
    (List.getElem?_eq_some_iff.mp hj).1
  have htok : (StringTokenizer line ",").getD (j - 1) "" = token := by
    rw [List.getD_eq_getElem?_getD, hj]
    rfl
  unfold cellPos
  generalize hA : rows.take i = A
  rw [hsplit, hA, passSteps_append, List.getElem?_append_right (by omega)]
  simp only [Nat.add_sub_cancel_left, passSteps]
  rw [List.getElem?_append_left (by rw [length_stepsFrom]; exact hjlt),
    stepsFrom_getElem? 0 _ (j - 1) hjlt, htok]
  congr 2
  omega

theorem colTokens_stepsFrom_of_gt (q : Nat) (tokens : List String) (j : Nat)
    (h : q + tokens.length < j) : colTokens (stepsFrom q tokens) j = [] := by
  apply colTokens_eq_nil_of_not_mem
  intro x hx
  have := mem_stepsFrom q tokens x hx
  omega

theorem colTokens_passSteps_columnTokens (StringTokenizer : String → String → List String)
    (rows : List String) (j : Nat) (h1 : 1 ≤ j) :
    colTokens (passSteps StringTokenizer rows) j = columnTokens StringTokenizer rows j := by
  induction rows with
  | nil => simp [passSteps, colTokens, columnTokens]
  | cons line rest ih =>
    simp only [passSteps, colTokens_append, columnTokens, List.filterMap_cons]
    rw [ih]
    by_cases hj : j ≤ (StringTokenizer line ",").length
    · have hlt : j - 1 < (StringTokenizer line ",").length := by omega
      rw [colTokens_stepsFrom 0 _ j (by omega) (by omega), List.getElem?_eq_getElem hlt]
      simp only [Nat.sub_zero, columnTokens]
      rw [List.getD_eq_getElem?_getD, List.getElem?_eq_getElem hlt]
      rfl
    · rw [colTokens_stepsFrom_of_gt 0 _ j (by omega),
        List.getElem?_eq_none (by omega)]
      rfl

theorem mem_columnTokens (StringTokenizer : String → String → List String)
    (rows : List String) (i j : Nat) (line token : String) (hi : rows[i]? = some line)
    (hj : (StringTokenizer line ",")[j - 1]? = some token) :
    token ∈ columnTokens StringTokenizer rows j := by
  unfold columnTokens
  rw [List.mem_filterMap]
  exact ⟨line, List.getElem?_mem hi, hj⟩

theorem distinctBefore_inj (col : List String) (t1 t2 : String) (h1 : t1 ∈ col)
    (h2 : t2 ∈ col) (h : distinctBefore col t1 = distinctBefore col t2) : t1 = t2 := by
  rw [← indexOf_firstSeen col t1 h1, ← indexOf_firstSeen col t2 h2] at h
  exact (List.indexOf_inj ((mem_firstSeen col t1).mpr h1) ((mem_firstSeen col t2).mpr h2)).mp h

theorem firstSeen_getD_distinctBefore (col : List String) (token : String)
    (h : token ∈ col) : (firstSeen col).getD (distinctBefore col token) "" = token := by
  rw [← indexOf_firstSeen col token h, List.getD_eq_getElem?_getD,
    List.getElem?_indexOf ((mem_firstSeen col token).mpr h)]
  rfl

/-- The byte of every token of a completely encoded line: the number of distinct tokens
seen before in the same position of the completely encoded lines, modulo 256. -/
theorem convert_cell_code (StringTokenizer : String → String → List String) (for_gpu : Bool)
    (inputFilename outputFilename : String) (lines : List String) (i j : Nat)
    (line token : String)
    (hi : ((convert StringTokenizer for_gpu inputFilename outputFilename lines).processed
      lines)[i]? = some line)
    (hj : (StringTokenizer line ",")[j - 1]? = some token) (h1 : 1 ≤ j) :
    (convert StringTokenizer for_gpu inputFilename outputFilename lines).grid[
        cellPos StringTokenizer
          ((convert StringTokenizer for_gpu inputFilename outputFilename lines).processed lines)
          i j]? =
      some (distinctBefore
        (columnTokens StringTokenizer
          ((convert StringTokenizer for_gpu inputFilename outputFilename lines).processed lines)
          j) token % BYTE_MOD) := by
  obtain ⟨t, bytes, extra, -, hrun, hgrid, -, -⟩ :=
    convert_spec StringTokenizer for_gpu inputFilename outputFilename lines
  generalize (convert StringTokenizer for_gpu inputFilename outputFilename lines).processed lines
    = rows at hi hrun
  have hin := encodeSteps_in_range _ _ (emptyTables_sized _) _ _ hrun
  obtain ⟨t', bytes', hrun', -, -, hbytes⟩ :=
    encodeSteps_bytes (featuresSizeOf StringTokenizer lines + 1)
      (passSteps StringTokenizer rows) hin
  rw [hrun] at hrun'
  simp only [Option.some.injEq, Prod.mk.injEq] at hrun'
  obtain ⟨-, rfl⟩ := hrun'
  have hb := hbytes _ _ _ (passSteps_cell StringTokenizer rows i j line token hi hj h1)
  rw [colTokens_passSteps_columnTokens StringTokenizer rows j h1] at hb
  have hlt := (List.getElem?_eq_some_iff.mp hb).1
  rw [hgrid, List.getElem?_append_left hlt, hb]

/-- C15. In a run that reaches the conversion, if column `j` has at most 256 distinct
tokens among the processed lines, two cells of column `j` of processed lines have the same
byte in the grid if and only if their tokens are equal, and a table indexed by code gives
back the token of every cell of the column from its byte. -/
theorem column_codes_faithful (StringTokenizer : String → String → List String)
    (openInput : String → Option (List String)) (argv lines : List String)
    (h : Converts openInput argv lines) (j : Nat) (h1 : 1 ≤ j)
    (h256 : distinctCount (columnTokens StringTokenizer
      ((main StringTokenizer openInput argv).processed lines) j) ≤ 256) :
    (∀ (i1 i2 : Nat) (line1 line2 token1 token2 : String),
      ((main StringTokenizer openInput argv).processed lines)[i1]? = some line1 →
      ((main StringTokenizer openInput argv).processed lines)[i2]? = some line2 →
      (StringTokenizer line1 ",")[j - 1]? = some token1 →
      (StringTokenizer line2 ",")[j - 1]? = some token2 →
      ((main StringTokenizer openInput argv).grid[cellPos StringTokenizer
          ((main StringTokenizer openInput argv).processed lines) i1 j]?
        = (main StringTokenizer openInput argv).grid[cellPos StringTokenizer
          ((main StringTokenizer openInput argv).processed lines) i2 j]?
        ↔ token1 = token2)) ∧
    ∃ decode : Nat → String, ∀ (i : Nat) (line token : String),
      ((main StringTokenizer openInput argv).processed lines)[i]? = some line →
      (StringTokenizer line ",")[j - 1]? = some token →
      ∃ code, (main StringTokenizer openInput argv).grid[cellPos StringTokenizer
          ((main StringTokenizer openInput argv).processed lines) i j]? = some code ∧
        decode code = token := by
  rw [main_of_converts _ _ _ _ h] at h256 ⊢
  generalize cmdOptionExists (InputParser argv) "--gpu" = for_gpu at h256 ⊢
  generalize getCmdOption (InputParser argv) "-f" = inputFilename at h256 ⊢
  generalize getCmdOption (InputParser argv) "-o" = outputFilename at h256 ⊢
  have hsmall : ∀ (i : Nat) (line token : String),
      ((convert StringTokenizer for_gpu inputFilename outputFilename lines).processed
        lines)[i]? = some line →
      (StringTokenizer line ",")[j - 1]? = some token →
      token ∈ columnTokens StringTokenizer
        ((convert StringTokenizer for_gpu inputFilename outputFilename lines).processed lines) j ∧
      (convert StringTokenizer for_gpu inputFilename outputFilename lines).grid[
          cellPos StringTokenizer
            ((convert StringTokenizer for_gpu inputFilename outputFilename lines).processed
              lines) i j]? =
        some (distinctBefore (columnTokens StringTokenizer
          ((convert StringTokenizer for_gpu inputFilename outputFilename lines).processed lines)
          j) token) := by
    intro i line token hi hj
    have hmem := mem_columnTokens StringTokenizer _ i j line token hi hj
    refine ⟨hmem, ?_⟩
    rw [convert_cell_code StringTokenizer for_gpu inputFilename outputFilename lines i j line
      token hi hj h1]
    have hlt := distinctBefore_lt_distinctCount _ _ hmem
    rw [Nat.mod_eq_of_lt (by unfold BYTE_MOD; omega)]
  refine ⟨?_, ?_⟩
  · intro i1 i2 line1 line2 token1 token2 hi1 hi2 hj1 hj2
    obtain ⟨hm1, hc1⟩ := hsmall i1 line1 token1 hi1 hj1
    obtain ⟨hm2, hc2⟩ := hsmall i2 line2 token2 hi2 hj2
    rw [hc1, hc2]
    constructor
    · intro he
      exact distinctBefore_inj _ _ _ hm1 hm2 (Option.some.inj he)
    · intro he
      rw [he]
  · refine ⟨fun code => (firstSeen (columnTokens StringTokenizer
      ((convert StringTokenizer for_gpu inputFilename outputFilename lines).processed lines)
      j)).getD code "", ?_⟩
    intro i line token hi hj
    obtain ⟨hm, hc⟩ := hsmall i line token hi hj
    exact ⟨_, hc, firstSeen_getD_distinctBefore _ _ hm⟩

set_option maxRecDepth 1000000 in
/-- Scenario A, first column `x, y, x`: the bytes at positions 0, 3 and 6 are `0, 1, 0`. -/
theorem column_codes_faithful_witness :
    Converts (onlyFile scenarioA) argvPlain scenarioA ∧
    distinctCount (columnTokens tokenize
      ((main tokenize (onlyFile scenarioA) argvPlain).processed scenarioA) 1) = 2 ∧
    cellPos tokenize ((main tokenize (onlyFile scenarioA) argvPlain).processed scenarioA) 0 1
      = 0 ∧
    cellPos tokenize ((main tokenize (onlyFile scenarioA) argvPlain).processed scenarioA) 1 1
      = 3 ∧
    cellPos tokenize ((main tokenize (onlyFile scenarioA) argvPlain).processed scenarioA) 2 1
      = 6 ∧
    (main tokenize (onlyFile scenarioA) argvPlain).grid = [0, 0, 0, 1, 0, 1, 0, 1, 0] ∧
    (((main tokenize (onlyFile scenarioA) argvPlain).grid[cellPos tokenize
          ((main tokenize (onlyFile scenarioA) argvPlain).processed scenarioA) 0 1]?
        = (main tokenize (onlyFile scenarioA) argvPlain).grid[cellPos tokenize
          ((main tokenize (onlyFile scenarioA) argvPlain).processed scenarioA) 2 1]?
        ↔ "x" = "x")) ∧
    (((main tokenize (onlyFile scenarioA) argvPlain).grid[cellPos tokenize
          ((main tokenize (onlyFile scenarioA) argvPlain).processed scenarioA) 0 1]?
        = (main tokenize (onlyFile scenarioA) argvPlain).grid[cellPos tokenize
          ((main tokenize (onlyFile scenarioA) argvPlain).processed scenarioA) 1 1]?
        ↔ "x" = "y")) :=
  ⟨by decide, by decide, by decide, by decide, by decide, by decide,
    (column_codes_faithful tokenize (onlyFile scenarioA) argvPlain scenarioA (by decide) 1
      (by decide) (by decide)).1 0 2 "x,1,p" "x,2,p" "x" "x" (by decide) (by decide)
      (by decide) (by decide),
    (column_codes_faithful tokenize (onlyFile scenarioA) argvPlain scenarioA (by decide) 1
      (by decide) (by decide)).1 0 1 "x,1,p" "y,1,q" "x" "y" (by decide) (by decide)
      (by decide) (by decide)⟩

/-- C16. For two runs that reach the conversion with the same `featureCount`, whose
processed lines all yield `featureCount` tokens and have the same sequence of tokens in
column `j` (hence are equally many), the bytes of column `j` are the same in both grids,
line by line, whatever the other columns hold. -/
theorem columns_encoded_independently (StringTokenizer : String → String → List String)
    (openInput1 openInput2 : String → Option (List String))
    (argv1 argv2 lines1 lines2 : List String)
    (hrun1 : Converts openInput1 argv1 lines1) (hrun2 : Converts openInput2 argv2 lines2)
    (f : Nat)
    (hf1 : (main StringTokenizer openInput1 argv1).featureCount = some f)
    (hf2 : (main StringTokenizer openInput2 argv2).featureCount = some f)
    (hrows1 : ∀ line ∈ (main StringTokenizer openInput1 argv1).processed lines1,
      (StringTokenizer line ",").length = f)
    (hrows2 : ∀ line ∈ (main StringTokenizer openInput2 argv2).processed lines2,
      (StringTokenizer line ",").length = f)
    (j : Nat) (h1 : 1 ≤ j) (h2 : j ≤ f)
    (hcol : column StringTokenizer ((main StringTokenizer openInput1 argv1).processed lines1) j
      = column StringTokenizer ((main StringTokenizer openInput2 argv2).processed lines2) j) :
    ((main StringTokenizer openInput1 argv1).processed lines1).length
      = ((main StringTokenizer openInput2 argv2).processed lines2).length ∧
    ∀ i, i < ((main StringTokenizer openInput1 argv1).processed lines1).length →
      ∃ code, (main StringTokenizer openInput1 argv1).grid[i * f + (j - 1)]? = some code ∧
        (main StringTokenizer openInput2 argv2).grid[i * f + (j - 1)]? = some code := by
  rw [main_featureCount _ _ _ _ hrun1] at hf1
  rw [main_featureCount _ _ _ _ hrun2] at hf2
  simp only [Option.some.injEq] at hf1 hf2
  rw [main_of_converts _ _ _ _ hrun1] at hrows1 hcol ⊢
  rw [main_of_converts _ _ _ _ hrun2] at hrows2 hcol ⊢
  have hlen : ((convert StringTokenizer (cmdOptionExists (InputParser argv1) "--gpu")
      (getCmdOption (InputParser argv1) "-f") (getCmdOption (InputParser argv1) "-o")
      lines1).processed lines1).length
      = ((convert StringTokenizer (cmdOptionExists (InputParser argv2) "--gpu")
      (getCmdOption (InputParser argv2) "-f") (getCmdOption (InputParser argv2) "-o")
      lines2).processed lines2).length := by
    have := congrArg List.length hcol
    simpa [column] using this
  refine ⟨hlen, ?_⟩
  intro i hi
  have hi2 : i < ((convert StringTokenizer (cmdOptionExists (InputParser argv2) "--gpu")
      (getCmdOption (InputParser argv2) "-f") (getCmdOption (InputParser argv2) "-o")
      lines2).processed lines2).length := by omega
  have hcell : cell StringTokenizer (((convert StringTokenizer
      (cmdOptionExists (InputParser argv1) "--gpu") (getCmdOption (InputParser argv1) "-f")
      (getCmdOption (InputParser argv1) "-o") lines1).processed lines1)[i]) j
      = cell StringTokenizer (((convert StringTokenizer
      (cmdOptionExists (InputParser argv2) "--gpu") (getCmdOption (InputParser argv2) "-f")
      (getCmdOption (InputParser argv2) "-o") lines2).processed lines2)[i]) j := by
    have := congrArg (fun l => l[i]?) hcol
    simp only [column, List.getElem?_map, List.getElem?_eq_getElem hi,
      List.getElem?_eq_getElem hi2, Option.map_some', Option.some.injEq] at this
    exact this
  refine ⟨_, convert_grid_code StringTokenizer _ _ _ lines1 f hf1 hrows1 i j _
    (List.getElem?_eq_getElem hi) h1 h2, ?_⟩
  rw [convert_grid_code StringTokenizer _ _ _ lines2 f hf2 hrows2 i j _
    (List.getElem?_eq_getElem hi2) h1 h2, hcol, hcell]

set_option maxRecDepth 1000000 in
/-- Scenario A and an input with the same first column `x, y, x` and other tokens
elsewhere: the bytes of the first column are `0, 1, 0` in both grids. -/
theorem columns_encoded_independently_witness :
    Converts (onlyFile scenarioA) argvPlain scenarioA ∧
    Converts (onlyFile scenarioOther) argvPlain scenarioOther ∧
    (main tokenize (onlyFile scenarioA) argvPlain).grid = [0, 0, 0, 1, 0, 1, 0, 1, 0] ∧
    (main tokenize (onlyFile scenarioOther) argvPlain).grid = [0, 0, 0, 1, 1, 1, 0, 2, 2] ∧
    column tokenize ((main tokenize (onlyFile scenarioA) argvPlain).processed scenarioA) 1
      = column tokenize
        ((main tokenize (onlyFile scenarioOther) argvPlain).processed scenarioOther) 1 ∧
    (((main tokenize (onlyFile scenarioA) argvPlain).processed scenarioA).length
      = ((main tokenize (onlyFile scenarioOther) argvPlain).processed scenarioOther).length ∧
    ∀ i, i < ((main tokenize (onlyFile scenarioA) argvPlain).processed scenarioA).length →
      ∃ code, (main tokenize (onlyFile scenarioA) argvPlain).grid[i * 3 + (1 - 1)]? = some code ∧
        (main tokenize (onlyFile scenarioOther) argvPlain).grid[i * 3 + (1 - 1)]?
          = some code) :=
  ⟨by decide, by decide, by decide, by decide, by decide,
    columns_encoded_independently tokenize (onlyFile scenarioA) (onlyFile scenarioOther)
      argvPlain argvPlain scenarioA scenarioOther (by decide) (by decide) 3 (by decide)
      (by decide) (by decide) (by decide) 1 (by decide) (by decide) (by decide)⟩

/-! ## Renaming the tokens of a column -/

theorem length_renameFrom (rename : Nat → String → String) (q : Nat) (tokens : List String) :
    (renameFrom rename q tokens).length = tokens.length := by
  induction tokens generalizing q with
  | nil => rfl
  | cons token rest ih => simp [renameFrom, ih]

theorem take_renameFrom (rename : Nat → String → String) (q m : Nat) (tokens : List String) :
    (renameFrom rename q tokens).take m = renameFrom rename q (tokens.take m) := by
  induction tokens generalizing q m with
  | nil => simp [renameFrom]
  | cons token rest ih =>
    cases m with
    | zero => simp [renameFrom]
    | succ m => simp [renameFrom, ih]

theorem stepsFrom_renameFrom (rename : Nat → String → String) (q : Nat)
    (tokens : List String) :
    stepsFrom q (renameFrom rename q tokens) = (stepsFrom q tokens).map (renameStep rename) := by
  induction tokens generalizing q with
  | nil => rfl
  | cons token rest ih => simp [renameFrom, stepsFrom, renameStep, ih]

theorem executedSteps_renamed (StringTokenizer : String → String → List String)
    (rename : Nat → String → String) (n : Nat) (rows1 rows2 : List String)
    (h : List.Forall₂ (RenamedLine StringTokenizer rename) rows1 rows2) :
    executedSteps StringTokenizer n rows2
      = (executedSteps StringTokenizer n rows1).map (renameStep rename) := by
  induction h with
  | nil => rfl
  | cons hline _ ih =>
    unfold RenamedLine at hline
    simp only [executedSteps, hline, length_renameFrom, take_renameFrom, stepsFrom_renameFrom,
      ih]
    split
    · rw [List.map_append]
    · rfl

theorem colTokens_map_renameStep (rename : Nat → String → String)
    (steps : List (Nat × String)) (p : Nat) :
    colTokens (steps.map (renameStep rename)) p = (colTokens steps p).map (rename p) := by
  induction steps with
  | nil => rfl
  | cons x steps ih =>
    obtain ⟨q, token⟩ := x
    by_cases e : q = p
    · subst e
      have h1 : colTokens (List.map (renameStep rename) ((q, token) :: steps)) q
          = rename q token :: colTokens (List.map (renameStep rename) steps) q := by
        simp [colTokens, renameStep]
      have h2 : colTokens ((q, token) :: steps) q = token :: colTokens steps q := by
        simp [colTokens]
      rw [h1, h2, ih, List.map_cons]
    · have h1 : colTokens (List.map (renameStep rename) ((q, token) :: steps)) p
          = colTokens (List.map (renameStep rename) steps) p := by
        simp [colTokens, renameStep, e]
      have h2 : colTokens ((q, token) :: steps) p = colTokens steps p := by
        simp [colTokens, e]
      rw [h1, h2, ih]

theorem takeWhile_ne_map (g : String → String) (col : List String) (token : String)
    (hg : ∀ a ∈ col, g a = g token → a = token) :
    (col.map g).takeWhile (fun x => decide (x ≠ g token))
      = (col.takeWhile (fun x => decide (x ≠ token))).map g := by
  induction col with
  | nil => rfl
  | cons a col ih =>
    have iha := ih (fun b hb => hg b (List.mem_cons_of_mem _ hb))
    by_cases e : a = token
    · subst e
      simp [List.takeWhile]
    · have hne : g a ≠ g token := fun hh => e (hg a (List.mem_cons_self _ _) hh)
      simp only [List.map_cons, List.takeWhile, hne, e, ne_eq, not_false_eq_true,
        decide_True]
      rw [iha]

theorem distinctCount_map (g : String → String) (l : List String)
    (hg : ∀ a ∈ l, ∀ b ∈ l, g a = g b → a = b) :
    distinctCount (l.map g) = distinctCount l := by
  unfold distinctCount
  rw [← List.card_toFinset, ← List.card_toFinset]
  have himg : (l.map g).toFinset = l.toFinset.image g := by
    ext x
    simp
  rw [himg]
  apply Finset.card_image_of_injOn
  intro a ha b hb hab
  exact hg a (List.mem_toFinset.mp ha) b (List.mem_toFinset.mp hb) hab

theorem distinctBefore_map (g : String → String) (col : List String) (token : String)
    (hmem : token ∈ col) (hg : ∀ a ∈ col, ∀ b ∈ col, g a = g b → a = b) :
    distinctBefore (col.map g) (g token) = distinctBefore col token := by
  unfold distinctBefore
  rw [takeWhile_ne_map g col token (fun a ha => hg a ha token hmem)]
  apply distinctCount_map
  intro a ha b hb
  exact hg a ((List.takeWhile_sublist _).subset ha) b ((List.takeWhile_sublist _).subset hb)

/-- Steps renamed column by column, injectively on the tokens of each column, produce
the same bytes. -/
theorem encodeSteps_renamed (n : Nat) (rename : Nat → String → String)
    (steps : List (Nat × String))
    (hinj : ∀ p, ∀ a ∈ colTokens steps p, ∀ b ∈ colTokens steps p,
      rename p a = rename p b → a = b)
    (t1 t2 : Tables) (b1 b2 : List Nat)
    (h1 : encodeSteps (emptyTables n) steps = some (t1, b1))
    (h2 : encodeSteps (emptyTables n) (steps.map (renameStep rename)) = some (t2, b2)) :
    b1 = b2 := by
  have hin := encodeSteps_in_range n _ (emptyTables_sized n) _ _ h1
  have hin2 := encodeSteps_in_range n _ (emptyTables_sized n) _ _ h2
  obtain ⟨t1', b1', hr1, -, hlen1, hb1⟩ := encodeSteps_bytes n steps hin
  obtain ⟨t2', b2', hr2, -, hlen2, hb2⟩ :=
    encodeSteps_bytes n (steps.map (renameStep rename)) hin2
  rw [h1] at hr1
  rw [h2] at hr2
  simp only [Option.some.injEq, Prod.mk.injEq] at hr1 hr2
  obtain ⟨-, rfl⟩ := hr1
  obtain ⟨-, rfl⟩ := hr2
  apply List.ext_getElem?
  intro i
  by_cases hi : i < steps.length
  · have hstep : steps[i]? = some (steps[i].1, steps[i].2) := by
      rw [List.getElem?_eq_getElem hi]
    have hstep2 : (steps.map (renameStep rename))[i]?
        = some (steps[i].1, rename steps[i].1 steps[i].2) := by
      rw [List.getElem?_map, List.getElem?_eq_getElem hi]
      rfl
    rw [hb1 i _ _ hstep, hb2 i _ _ hstep2, colTokens_map_renameStep,
      distinctBefore_map _ _ _ (mem_colTokens_of_getElem? steps i _ _ hstep) (hinj _)]
  · rw [List.getElem?_eq_none (by omega), List.getElem?_eq_none (by
      rw [hlen2, List.length_map]
      omega)]

/-! ## Encoding the codes of a column again -/

/-- The codes of a column, written as text, are first seen in the order `0, 1, 2, ...`. -/
theorem firstSeen_codes (text : Nat → String) (l : List String)
    (htext : ∀ a, a < distinctCount l → a < 256 → ∀ b, b < distinctCount l → b < 256 →
      text a = text b → a = b) :
    firstSeen (l.map (fun x => text (distinctBefore l x % 256)))
      = (List.range (min (distinctCount l) 256)).map text := by
  induction l using List.reverseRecOn with
  | nil => simp [firstSeen, distinctCount]
  | append_singleton l t ih =>
    have hK := distinctCount_append_singleton l t
    have hmap : l.map (fun x => text (distinctBefore (l ++ [t]) x % 256))
        = l.map (fun x => text (distinctBefore l x % 256)) := by
      apply List.map_congr_left
      intro x hx
      rw [distinctBefore_append_of_mem l [t] x hx]
    rw [List.map_append, List.map_singleton, hmap, firstSeen_append_singleton]
    by_cases ht : t ∈ l
    · rw [if_pos ht] at hK
      rw [hK] at htext
      rw [ih htext, hK, distinctBefore_append_of_mem l [t] t ht]
      have hlt := distinctBefore_lt_distinctCount l t ht
      rw [if_pos]
      rw [List.mem_map]
      refine ⟨distinctBefore l t % 256, ?_, rfl⟩
      rw [List.mem_range]
      omega
    · rw [if_neg ht] at hK
      rw [hK] at htext
      rw [ih (fun a ha ha2 b hb hb2 => htext a (by omega) ha2 b (by omega) hb2), hK,
        distinctBefore_append_self l [] t ht]
      by_cases hsmall : distinctCount l < 256
      · rw [Nat.mod_eq_of_lt hsmall, if_neg, Nat.min_eq_left (by omega),
          Nat.min_eq_left (by omega), List.range_succ, List.map_append, List.map_singleton]
        rw [List.mem_map]
        rintro ⟨v, hv, hvt⟩
        rw [List.mem_range] at hv
        have := htext v (by omega) (by omega) (distinctCount l) (by omega) hsmall hvt
        omega
      · rw [if_pos, Nat.min_eq_right (by omega), Nat.min_eq_right (by omega)]
        rw [List.mem_map]
        refine ⟨distinctCount l % 256, ?_, rfl⟩
        rw [List.mem_range]
        omega

/-- The code of the text of a code is the code itself. -/
theorem distinctBefore_codes (text : Nat → String) (col : List String)
    (htext : ∀ a, a < distinctCount col → a < 256 → ∀ b, b < distinctCount col → b < 256 →
      text a = text b → a = b)
    (t : String) (ht : t ∈ col) :
    distinctBefore (col.map (fun x => text (distinctBefore col x % 256)))
        (text (distinctBefore col t % 256))
      = distinctBefore col t % 256 := by
  have hmem : text (distinctBefore col t % 256)
      ∈ col.map (fun x => text (distinctBefore col x % 256)) :=
    List.mem_map.mpr ⟨t, ht, rfl⟩
  rw [← indexOf_firstSeen _ _ hmem, firstSeen_codes text col htext]
  have hlt := distinctBefore_lt_distinctCount col t ht
  have hv : distinctBefore col t % 256 < min (distinctCount col) 256 := by omega
  have hnodup : ((List.range (min (distinctCount col) 256)).map text).Nodup := by
    apply List.Nodup.map_on _ (List.nodup_range _)
    intro a ha b hb hab
    rw [List.mem_range] at ha hb
    exact htext a (by omega) (by omega) b (by omega) (by omega) hab
  have := List.indexOf_getElem hnodup (distinctBefore col t % 256) (by simpa using hv)
  simpa using this

/-- A rectangular table whose cells are the texts of the codes of a grid is encoded to
that grid. -/
theorem reencode_grid (StringTokenizer : String → String → List String) (f : Nat)
    (rows1 rows2 : List String) (grid1 grid2 : List Nat) (text : Nat → String)
    (hg1 : ∀ (i j0 : Nat) (line : String), rows1[i]? = some line → j0 < f →
      grid1[i * f + j0]? = some (distinctBefore (column StringTokenizer rows1 (j0 + 1))
        (cell StringTokenizer line (j0 + 1)) % 256))
    (hg2 : ∀ (i j0 : Nat) (line : String), rows2[i]? = some line → j0 < f →
      grid2[i * f + j0]? = some (distinctBefore (column StringTokenizer rows2 (j0 + 1))
        (cell StringTokenizer line (j0 + 1)) % 256))
    (hl1 : grid1.length = rows1.length * f) (hl2 : grid2.length = rows2.length * f)
    (hlen : rows2.length = rows1.length)
    (htext : ∀ a ∈ grid1, ∀ b ∈ grid1, text a = text b → a = b)
    (hcells : ∀ (i : Nat) (line : String), rows2[i]? = some line →
      StringTokenizer line ","
        = (List.range f).map (fun j0 => text (grid1.getD (i * f + j0) 0))) :
    grid2 = grid1 := by
  have hcell : ∀ (i j0 : Nat) (l1 l2 : String), rows1[i]? = some l1 → rows2[i]? = some l2 → j0 < f →
      cell StringTokenizer l2 (j0 + 1)
        = text (distinctBefore (column StringTokenizer rows1 (j0 + 1))
            (cell StringTokenizer l1 (j0 + 1)) % 256) := by
    intro i j0 l1 l2 h1 h2 hj
    have e : cell StringTokenizer l2 (j0 + 1) = text (grid1.getD (i * f + j0) 0) := by
      unfold cell
      rw [hcells i l2 h2, List.getD_eq_getElem?_getD, List.getElem?_map, Nat.add_sub_cancel,
        List.getElem?_range hj]
      rfl
    rw [e, List.getD_eq_getElem?_getD, hg1 i j0 l1 h1 hj]
    rfl
  have hcol : ∀ j0, j0 < f → column StringTokenizer rows2 (j0 + 1)
      = (column StringTokenizer rows1 (j0 + 1)).map
          (fun x => text (distinctBefore (column StringTokenizer rows1 (j0 + 1)) x % 256)) := by
    intro j0 hj
    apply List.ext_getElem?
    intro i
    rw [List.getElem?_map]
    by_cases hi : i < rows1.length
    · obtain ⟨l1, h1⟩ : ∃ l1, rows1[i]? = some l1 := ⟨_, List.getElem?_eq_getElem hi⟩
      obtain ⟨l2, h2⟩ : ∃ l2, rows2[i]? = some l2 :=
        ⟨_, List.getElem?_eq_getElem (by omega)⟩
      have c1 : (column StringTokenizer rows1 (j0 + 1))[i]?
          = some (cell StringTokenizer l1 (j0 + 1)) := by
        unfold column
        rw [List.getElem?_map, h1]
        rfl
      have c2 : (column StringTokenizer rows2 (j0 + 1))[i]?
          = some (cell StringTokenizer l2 (j0 + 1)) := by
        unfold column
        rw [List.getElem?_map, h2]
        rfl
      rw [c1, c2, Option.map_some', hcell i j0 l1 l2 h1 h2 hj]
    · have c1 : (column StringTokenizer rows1 (j0 + 1))[i]? = none := by
        rw [List.getElem?_eq_none]
        unfold column
        rw [List.length_map]
        omega
      have c2 : (column StringTokenizer rows2 (j0 + 1))[i]? = none := by
        rw [List.getElem?_eq_none]
        unfold column
        rw [List.length_map]
        omega
      rw [c1, c2]
      rfl
  have hmemgrid : ∀ j0, j0 < f → ∀ v, v < distinctCount (column StringTokenizer rows1 (j0 + 1)) →
      v < 256 → v ∈ grid1 := by
    intro j0 hj v hv hv2
    have hlenF := length_firstSeen (column StringTokenizer rows1 (j0 + 1))
    obtain ⟨token, htok⟩ :
        ∃ token, (firstSeen (column StringTokenizer rows1 (j0 + 1)))[v]? = some token :=
      ⟨_, List.getElem?_eq_getElem (by omega)⟩
    have hmemC : token ∈ column StringTokenizer rows1 (j0 + 1) :=
      (mem_firstSeen _ _).mp (List.getElem?_mem htok)
    obtain ⟨hvlt, hget⟩ := List.getElem?_eq_some_iff.mp htok
    have hidx := List.indexOf_getElem (nodup_firstSeen (column StringTokenizer rows1 (j0 + 1)))
      v hvlt
    rw [hget, indexOf_firstSeen _ _ hmemC] at hidx
    have hmemC2 := hmemC
    unfold column at hmemC2
    rw [List.mem_map] at hmemC2
    obtain ⟨line, hline, hcellv⟩ := hmemC2
    obtain ⟨i, hi⟩ := List.mem_iff_getElem?.mp hline
    have := hg1 i j0 line hi hj
    rw [hcellv, hidx, Nat.mod_eq_of_lt hv2] at this
    exact List.getElem?_mem this
  apply List.ext_getElem?
  intro idx
  by_cases hidx : idx < rows1.length * f
  · have hfpos : 0 < f := by
      rcases Nat.eq_zero_or_pos f with h | h
      · subst h
        simp at hidx
      · exact h
    have hi : idx / f < rows1.length :=
      Nat.div_lt_of_lt_mul (by rw [Nat.mul_comm]; exact hidx)
    have hj : idx % f < f := Nat.mod_lt _ hfpos
    have hdecomp : idx / f * f + idx % f = idx := by
      rw [Nat.mul_comm]
      exact Nat.div_add_mod idx f
    obtain ⟨l1, h1⟩ : ∃ l1, rows1[idx / f]? = some l1 := ⟨_, List.getElem?_eq_getElem hi⟩
    obtain ⟨l2, h2⟩ : ∃ l2, rows2[idx / f]? = some l2 :=
      ⟨_, List.getElem?_eq_getElem (by omega)⟩
    have e1 := hg1 _ _ l1 h1 hj
    have e2 := hg2 _ _ l2 h2 hj
    rw [hdecomp] at e1 e2
    rw [e1, e2, hcol _ hj, hcell _ _ l1 l2 h1 h2 hj,
      distinctBefore_codes text _
        (fun a ha ha2 b hb hb2 => htext a (hmemgrid _ hj a ha ha2) b (hmemgrid _ hj b hb hb2))
        _ (mem_column_of_getElem? StringTokenizer rows1 _ _ l1 h1),
      Nat.mod_mod]
  · rw [hlen] at hl2
    rw [List.getElem?_eq_none (by omega), List.getElem?_eq_none (by omega)]

/-! ## Renamed inputs -/

theorem mem_stepsFrom_token (q : Nat) (tokens : List String) (x : Nat × String)
    (h : x ∈ stepsFrom q tokens) : q < x.1 ∧ tokens[x.1 - q - 1]? = some x.2 := by
  induction tokens generalizing q with
  | nil => simp [stepsFrom] at h
  | cons token rest ih =>
    simp only [stepsFrom, List.mem_cons] at h
    rcases h with h | h
    · subst h
      simp
    · obtain ⟨hlt, hget⟩ := ih (q + 1) h
      refine ⟨by omega, ?_⟩
      have e : x.1 - q - 1 = (x.1 - (q + 1) - 1) + 1 := by omega
      rw [e, List.getElem?_cons_succ]
      exact hget

theorem mem_executedSteps_token (StringTokenizer : String → String → List String) (n : Nat)
    (rows : List String) (x : Nat × String) (h : x ∈ executedSteps StringTokenizer n rows) :
    1 ≤ x.1 ∧ x.2 ∈ columnTokens StringTokenizer rows x.1 := by
  induction rows with
  | nil => simp [executedSteps] at h
  | cons line rest ih =>
    have hhere : ∀ m, x ∈ stepsFrom 0 ((StringTokenizer line ",").take m) →
        1 ≤ x.1 ∧ x.2 ∈ columnTokens StringTokenizer (line :: rest) x.1 := by
      intro m hm
      obtain ⟨hlt, hget⟩ := mem_stepsFrom_token 0 _ x hm
      refine ⟨by omega, ?_⟩
      apply mem_columnTokens StringTokenizer (line :: rest) 0 x.1 line x.2
        (List.getElem?_cons_zero)
      rw [Nat.sub_zero] at hget
      have hsome := (List.getElem?_eq_some_iff.mp hget).1
      rw [List.length_take] at hsome
      rw [List.getElem?_take_of_lt (by omega)] at hget
      exact hget
    by_cases hlen : (StringTokenizer line ",").length < n
    · simp only [executedSteps, if_pos hlen, List.mem_append] at h
      rcases h with h | h
      · apply hhere (StringTokenizer line ",").length
        rw [List.take_length]
        exact h
      · obtain ⟨h1, hmem⟩ := ih h
        refine ⟨h1, ?_⟩
        unfold columnTokens at hmem ⊢
        rw [List.filterMap_cons]
        split
        · exact hmem
        · exact List.mem_cons_of_mem _ hmem
    · simp only [executedSteps, if_neg hlen] at h
      exact hhere _ h

theorem mem_colTokens (steps : List (Nat × String)) (p : Nat) (token : String)
    (h : token ∈ colTokens steps p) : (p, token) ∈ steps := by
  unfold colTokens at h
  rw [List.mem_map] at h
  obtain ⟨x, hx, hx2⟩ := h
  rw [List.mem_filter] at hx
  obtain ⟨hmem, hp⟩ := hx
  have hp1 : x.1 = p := by simpa using hp
  have e : x = (p, token) := by
    rw [← hp1, ← hx2]
  rw [← e]
  exact hmem

/-- Renaming the tokens of the data lines column by column, injectively on the tokens
that each column holds, changes neither the header nor the grid of the conversion. -/
theorem convert_renamed (StringTokenizer : String → String → List String) (for_gpu : Bool)
    (in1 out1 in2 out2 : String) (lines1 lines2 : List String)
    (rename : Nat → String → String)
    (hhead : lines2.headD "" = lines1.headD "")
    (hinj : ∀ j, 1 ≤ j → ∀ a ∈ columnTokens StringTokenizer (dataLines lines1) j,
      ∀ b ∈ columnTokens StringTokenizer (dataLines lines1) j,
      rename j a = rename j b → a = b)
    (hren : List.Forall₂ (RenamedLine StringTokenizer rename) (dataLines lines1)
      (dataLines lines2)) :
    (convert StringTokenizer for_gpu in2 out2 lines2).header
      = (convert StringTokenizer for_gpu in1 out1 lines1).header ∧
    (convert StringTokenizer for_gpu in2 out2 lines2).grid
      = (convert StringTokenizer for_gpu in1 out1 lines1).grid := by
  have hlenDL := hren.length_eq
  have hds : datasizeOf for_gpu lines2 = datasizeOf for_gpu lines1 := by
    rw [datasizeOf_eq, datasizeOf_eq, hlenDL]
  have hfs : featuresSizeOf StringTokenizer lines2 = featuresSizeOf StringTokenizer lines1 := by
    unfold featuresSizeOf
    rw [hhead]
  refine ⟨by rw [convert_header, convert_header, hds, hfs], ?_⟩
  by_cases hloop : featuresSizeOf StringTokenizer lines1 + 1 < UINT_MOD
  · obtain ⟨p1, -, h1, -⟩ := convert_closed StringTokenizer for_gpu in1 out1 lines1 hloop
    obtain ⟨p2, -, h2, -⟩ :=
      convert_closed StringTokenizer for_gpu in2 out2 lines2 (by rw [hfs]; exact hloop)
    have hreach : List.Forall₂ (RenamedLine StringTokenizer rename) (reachOf for_gpu lines1)
        (reachOf for_gpu lines2) := by
      unfold reachOf
      rw [hds]
      exact List.forall₂_take _ hren
    rw [hfs, executedSteps_renamed StringTokenizer rename _ _ _ hreach] at h2
    refine (encodeSteps_renamed _ rename _ ?_ _ _ _ _ h1 h2).symm
    intro p a ha b hb hab
    obtain ⟨hp, hma⟩ := mem_executedSteps_token StringTokenizer _ _ _ (mem_colTokens _ _ _ ha)
    obtain ⟨-, hmb⟩ := mem_executedSteps_token StringTokenizer _ _ _ (mem_colTokens _ _ _ hb)
    have hsub : ∀ t, t ∈ columnTokens StringTokenizer (reachOf for_gpu lines1) p →
        t ∈ columnTokens StringTokenizer (dataLines lines1) p := by
      intro t ht
      unfold columnTokens reachOf at ht
      unfold columnTokens
      rw [List.mem_filterMap] at ht ⊢
      obtain ⟨line, hline, hget⟩ := ht
      exact ⟨line, List.mem_of_mem_take hline, hget⟩
    exact hinj p hp a (hsub a hma) b (hsub b hmb) hab
  · rw [convert_of_loop_forever StringTokenizer _ _ _ _ hloop,
      convert_of_loop_forever StringTokenizer _ _ _ _ (by rw [hfs]; exact hloop)]

/-! ## Encoding a grid again -/

/-- Sizes of a conversion that ends normally on lines of `featuresSize` tokens. -/
theorem convert_grid_length (StringTokenizer : String → String → List String) (for_gpu : Bool)
    (inputFilename outputFilename : String) (lines : List String) (f : Nat)
    (hexit : (convert StringTokenizer for_gpu inputFilename outputFilename lines).termination = .exit 0)
    (hrows : ∀ line ∈ (convert StringTokenizer for_gpu inputFilename outputFilename lines).processed lines,
      (StringTokenizer line ",").length = f) :
    (convert StringTokenizer for_gpu inputFilename outputFilename lines).lineCount = datasizeOf for_gpu lines ∧
    ((convert StringTokenizer for_gpu inputFilename outputFilename lines).processed lines).length = datasizeOf for_gpu lines ∧
    (convert StringTokenizer for_gpu inputFilename outputFilename lines).grid.length = datasizeOf for_gpu lines * f := by
  obtain ⟨t, bytes, extra, -, hrun, hgrid, hex, -⟩ :=
    convert_spec StringTokenizer for_gpu inputFilename outputFilename lines
  obtain ⟨hextra, hcount⟩ := hex hexit
  have hplen : ((convert StringTokenizer for_gpu inputFilename outputFilename lines).processed lines).length = datasizeOf for_gpu lines := by
    unfold Result.processed
    rw [hcount, List.length_take]
    exact Nat.min_eq_left (datasizeOf_le for_gpu lines).1
  refine ⟨hcount, hplen, ?_⟩
  rw [hgrid, hextra, List.append_nil]
  have hin := encodeSteps_in_range _ _ (emptyTables_sized _) _ _ hrun
  obtain ⟨t', bytes', hrun', -, hlen, -⟩ := encodeSteps_bytes _ _ hin
  rw [hrun] at hrun'
  simp only [Option.some.injEq, Prod.mk.injEq] at hrun'
  obtain ⟨-, rfl⟩ := hrun'
  rw [hlen, length_passSteps StringTokenizer f _ hrows, hplen]

/-- A table whose cells are the texts of the codes of the grid of a conversion is
converted to the same header and grid. -/
theorem convert_reencode (StringTokenizer : String → String → List String) (for_gpu : Bool)
    (in1 out1 in2 out2 : String) (lines1 lines2 : List String) (f : Nat)
    (text : Nat → String)
    (hf : featuresSizeOf StringTokenizer lines1 = f)
    (hexit : (convert StringTokenizer for_gpu in1 out1 lines1).termination = .exit 0)
    (hrows : ∀ line ∈ (convert StringTokenizer for_gpu in1 out1 lines1).processed lines1,
      (StringTokenizer line ",").length = f)
    (hhead : lines2.headD "" = lines1.headD "")
    (htext : ∀ a ∈ (convert StringTokenizer for_gpu in1 out1 lines1).grid,
      ∀ b ∈ (convert StringTokenizer for_gpu in1 out1 lines1).grid, text a = text b → a = b)
    (hlen : (dataLines lines2).length = datasizeOf for_gpu lines1)
    (hcells : ∀ (i : Nat) (line : String), (dataLines lines2)[i]? = some line →
      StringTokenizer line "," = (List.range f).map (fun j0 =>
        text ((convert StringTokenizer for_gpu in1 out1 lines1).grid.getD (i * f + j0) 0))) :
    (convert StringTokenizer for_gpu in2 out2 lines2).header = (convert StringTokenizer for_gpu in1 out1 lines1).header ∧
    (convert StringTokenizer for_gpu in2 out2 lines2).grid = (convert StringTokenizer for_gpu in1 out1 lines1).grid := by
  have hfs2 : featuresSizeOf StringTokenizer lines2 = f := by
    rw [← hf]
    unfold featuresSizeOf
    rw [hhead]
  have hloop : f + 1 < UINT_MOD := by
    by_contra hno
    rw [convert_of_loop_forever StringTokenizer for_gpu in1 out1 lines1
      (by rw [hf]; exact hno)] at hexit
    simp at hexit
  have hds : datasizeOf for_gpu lines2 = datasizeOf for_gpu lines1 := by
    have h1 := datasizeOf_eq for_gpu lines1
    have h2 := datasizeOf_eq for_gpu lines2
    have hlt := (datasizeOf_le for_gpu lines1).2
    rw [hlen] at h2
    rw [h2]
    cases for_gpu with
    | false =>
      simp only [Bool.false_eq_true, if_false]
      exact Nat.mod_eq_of_lt hlt
    | true =>
      simp only [if_true] at h1 ⊢
      unfold UINT_MOD at h1 hlt ⊢
      omega
  have hwidth2 : ∀ line ∈ dataLines lines2, (StringTokenizer line ",").length = f := by
    intro line hline
    obtain ⟨i, hi⟩ := List.mem_iff_getElem?.mp hline
    rw [hcells i line hi, List.length_map, List.length_range]
  have hexit2 : (convert StringTokenizer for_gpu in2 out2 lines2).termination = .exit 0 := by
    obtain ⟨_, _, _, -, -, -, -, hfit⟩ :=
      convert_spec StringTokenizer for_gpu in2 out2 lines2
    apply hfit (by rw [hfs2]; exact hloop)
    intro line hline
    rw [hfs2, hwidth2 line (List.mem_of_mem_take hline)]
  have hrows2 : ∀ line ∈ (convert StringTokenizer for_gpu in2 out2 lines2).processed lines2,
      (StringTokenizer line ",").length = f :=
    fun line hline => hwidth2 line (List.mem_of_mem_take hline)
  obtain ⟨-, hp1, hl1⟩ :=
    convert_grid_length StringTokenizer for_gpu in1 out1 lines1 f hexit hrows
  obtain ⟨hc2, hp2, hl2⟩ :=
    convert_grid_length StringTokenizer for_gpu in2 out2 lines2 f hexit2 hrows2
  have hproc2 : (convert StringTokenizer for_gpu in2 out2 lines2).processed lines2 = dataLines lines2 := by
    unfold Result.processed
    rw [hc2, hds, ← hlen, List.take_length]
  refine ⟨by rw [convert_header, convert_header, hds, hfs2, hf], ?_⟩
  apply reencode_grid StringTokenizer f ((convert StringTokenizer for_gpu in1 out1 lines1).processed lines1)
    ((convert StringTokenizer for_gpu in2 out2 lines2).processed lines2) _ _ text
  · intro i j0 line hi hj
    have := convert_grid_code StringTokenizer for_gpu in1 out1 lines1 f hf hrows i (j0 + 1)
      line hi (by omega) (by omega)
    rw [Nat.add_sub_cancel] at this
    exact this
  · intro i j0 line hi hj
    have := convert_grid_code StringTokenizer for_gpu in2 out2 lines2 f hfs2 hrows2 i (j0 + 1)
      line hi (by omega) (by omega)
    rw [Nat.add_sub_cancel] at this
    exact this
  · rw [hl1, hp1]
  · rw [hl2, hp2]
  · rw [hp2, hp1, hds]
  · exact htext
  · intro i line hi
    rw [hproc2] at hi
    exact hcells i line hi

theorem forall₂_renamedLine (StringTokenizer : String → String → List String)
    (rename : Nat → String → String) (rows1 rows2 : List String)
    (h : rows2.map (fun line => StringTokenizer line ",")
      = (rows1.map (fun line => StringTokenizer line ",")).map (renameFrom rename 0)) :
    List.Forall₂ (RenamedLine StringTokenizer rename) rows1 rows2 := by
  induction rows1 generalizing rows2 with
  | nil =>
    cases rows2 with
    | nil => exact List.Forall₂.nil
    | cons r rest => simp at h
  | cons l1 rest1 ih =>
    cases rows2 with
    | nil => simp at h
    | cons l2 rest2 =>
      simp only [List.map_cons, List.cons.injEq] at h
      exact List.Forall₂.cons h.1 (ih rest2 h.2)

theorem codeTable_cells (StringTokenizer : String → String → List String)
    (lines : List String) (text : Nat → String) (grid : List Nat) (rc f : Nat)
    (h : tokenRows StringTokenizer lines = codeTable text grid rc f) :
    (dataLines lines).length = rc ∧
    ∀ (i : Nat) (line : String), (dataLines lines)[i]? = some line →
      StringTokenizer line "," = (List.range f).map (fun j0 => text (grid.getD (i * f + j0) 0)) := by
  have hlen : (dataLines lines).length = rc := by
    have := congrArg List.length h
    simpa [tokenRows, codeTable] using this
  refine ⟨hlen, ?_⟩
  intro i line hi
  have hlt : i < rc := by
    rw [← hlen]
    exact (List.getElem?_eq_some_iff.mp hi).1
  have := congrArg (fun l => l[i]?) h
  simp only [tokenRows, codeTable, List.getElem?_map, hi, List.getElem?_range hlt,
    Option.map_some', Option.some.injEq] at this
  exact this

theorem tagColumn_injective (j : Nat) (a b : String) (h : tagColumn j a = tagColumn j b) :
    a = b := by
  unfold tagColumn at h
  have h2 := congrArg String.data h
  simp only [List.append_cancel_left_eq] at h2
  exact String.ext h2

/-- C17. Take two runs that reach the conversion with the same `--gpu` setting on inputs
with the same header line. First, if the data lines of the second input yield the tokens
of the data lines of the first, every token renamed by the renaming of its column, and
each renaming gives different tokens of its column different names, then the second run
writes the same header and the same grid as the first. Second, if the first run ends
normally on lines of `featureCount` tokens and the second input is the table of its
codes (`rowCount` data lines of `featureCount` tokens, token `j0` of line `i` being the
text of byte `i * featureCount + j0` of the first grid, different codes of the grid
having different texts), then the second run writes the same header and the same grid
again. -/
theorem output_depends_on_equality_pattern (StringTokenizer : String → String → List String)
    (openInput1 openInput2 : String → Option (List String))
    (argv1 argv2 lines1 lines2 : List String)
    (hrun1 : Converts openInput1 argv1 lines1) (hrun2 : Converts openInput2 argv2 lines2)
    (hgpu : cmdOptionExists (InputParser argv2) "--gpu"
      = cmdOptionExists (InputParser argv1) "--gpu")
    (hhead : lines2.headD "" = lines1.headD "") :
    (∀ rename : Nat → String → String,
      (∀ j, 1 ≤ j → ∀ a ∈ columnTokens StringTokenizer (dataLines lines1) j,
        ∀ b ∈ columnTokens StringTokenizer (dataLines lines1) j,
        rename j a = rename j b → a = b) →
      tokenRows StringTokenizer lines2
        = (tokenRows StringTokenizer lines1).map (renameFrom rename 0) →
      (main StringTokenizer openInput2 argv2).header = (main StringTokenizer openInput1 argv1).header ∧
      (main StringTokenizer openInput2 argv2).grid = (main StringTokenizer openInput1 argv1).grid) ∧
    (∀ (text : Nat → String) (rc f : Nat),
      (main StringTokenizer openInput1 argv1).header = some (rc, f) →
      (main StringTokenizer openInput1 argv1).termination = .exit 0 →
      (∀ line ∈ (main StringTokenizer openInput1 argv1).processed lines1,
        (StringTokenizer line ",").length = f) →
      (∀ a ∈ (main StringTokenizer openInput1 argv1).grid, ∀ b ∈ (main StringTokenizer openInput1 argv1).grid,
        text a = text b → a = b) →
      tokenRows StringTokenizer lines2
        = codeTable text (main StringTokenizer openInput1 argv1).grid rc f →
      (main StringTokenizer openInput2 argv2).header = (main StringTokenizer openInput1 argv1).header ∧
      (main StringTokenizer openInput2 argv2).grid = (main StringTokenizer openInput1 argv1).grid) := by
  rw [main_of_converts _ _ _ _ hrun1, main_of_converts _ _ _ _ hrun2, hgpu]
  constructor
  · intro rename hinj hrows
    exact convert_renamed StringTokenizer _ _ _ _ _ lines1 lines2 rename hhead hinj
      (forall₂_renamedLine StringTokenizer rename _ _ hrows)
  · intro text rc f hheader hexit hrows htext htable
    rw [convert_header] at hheader
    simp only [Option.some.injEq, Prod.mk.injEq] at hheader
    obtain ⟨hrc, hf⟩ := hheader
    obtain ⟨hlen, hcells⟩ := codeTable_cells StringTokenizer lines2 text _ rc f htable
    exact convert_reencode StringTokenizer _ _ _ _ _ lines1 lines2 f text hf hexit hrows hhead
      htext (by rw [hlen, hrc]) hcells

set_option maxRecDepth 1000000 in
/-- Scenario A, its grid `0 0 0 1 0 1 0 1 0`, the input with the tokens of column `j`
tagged by `j` letters `z`, and the input that holds the codes of the grid as decimal
text: all three are converted to the same header and grid. -/
theorem output_depends_on_equality_pattern_witness :
    Converts (onlyFile scenarioA) argvPlain scenarioA ∧
    Converts (onlyFile scenarioTagged) argvPlain scenarioTagged ∧
    Converts (onlyFile scenarioCodes) argvPlain scenarioCodes ∧
    tokenRows tokenize scenarioTagged
      = (tokenRows tokenize scenarioA).map (renameFrom tagColumn 0) ∧
    tokenRows tokenize scenarioCodes
      = codeTable codeText (main tokenize (onlyFile scenarioA) argvPlain).grid 3 3 ∧
    (main tokenize (onlyFile scenarioA) argvPlain).header = some (3, 3) ∧
    (main tokenize (onlyFile scenarioA) argvPlain).grid = [0, 0, 0, 1, 0, 1, 0, 1, 0] ∧
    ((main tokenize (onlyFile scenarioTagged) argvPlain).header
        = (main tokenize (onlyFile scenarioA) argvPlain).header ∧
      (main tokenize (onlyFile scenarioTagged) argvPlain).grid
        = (main tokenize (onlyFile scenarioA) argvPlain).grid) ∧
    ((main tokenize (onlyFile scenarioCodes) argvPlain).header
        = (main tokenize (onlyFile scenarioA) argvPlain).header ∧
      (main tokenize (onlyFile scenarioCodes) argvPlain).grid
        = (main tokenize (onlyFile scenarioA) argvPlain).grid) :=
  ⟨by decide, by decide, by decide, by decide, by decide, by decide, by decide,
    (output_depends_on_equality_pattern tokenize (onlyFile scenarioA)
      (onlyFile scenarioTagged) argvPlain argvPlain scenarioA scenarioTagged (by decide)
      (by decide) rfl (by decide)).1 tagColumn
      (fun j _ a _ b _ h => tagColumn_injective j a b h) (by decide),
    (output_depends_on_equality_pattern tokenize (onlyFile scenarioA)
      (onlyFile scenarioCodes) argvPlain argvPlain scenarioA scenarioCodes (by decide)
      (by decide) rfl (by decide)).2 codeText 3 3 (by decide) (by decide) (by decide)
      (by decide) (by decide)⟩

end DataReader
